import Mathlib

/-!
# Vector database: cosine similarity and top-K query

A shallow embedding of `main.go`.

* `Fl` with the formats `binary32` and `binary64` models Go's `float32` and `float64`:
  IEEE 754 arithmetic, round to nearest with ties to even, one NaN.
* `CosineSimilarity`, `Insert` and `Query` follow the Go functions of the same name.
  A run-time panic is the result `none`.  `QueryRun` is `Query` run on the memory (the
  store and the local slice `results`), for what `Query` does to the store.
* `sort.Slice` belongs to Go's library and is a parameter of `Query`.  `SortSliceSpec` is
  its documented contract; `sortSlice` is the algorithm the library runs (Go 1.19 and
  later: pattern-defeating quicksort, insertion sort on at most 12 elements), proved here
  to meet the contract (`sortSlice_spec`).
-/

namespace VectorDatabase

/-! ## Floating point -/

/-- A floating-point datum: NaN, a signed infinity, or the finite value
`(-1)^neg * m * 2^e`. -/
inductive Fl where
  | nan : Fl
  | inf (neg : Bool) : Fl
  | fin (neg : Bool) (m : Nat) (e : Int) : Fl
deriving DecidableEq, Repr

/-- A binary interchange format: precision in bits, exponent of the least quantum,
and the largest quantum exponent of a finite number. -/
structure Fmt where
  prec : Nat
  emin : Int
  emax : Int
deriving DecidableEq, Repr

/-- Go's `float32`. -/
def binary32 : Fmt := ⟨24, -149, 104⟩

/-- Go's `float64`. -/
def binary64 : Fmt := ⟨53, -1074, 971⟩

def bitLenAux : Nat → Nat → Nat
  | 0, _ => 0
  | fuel + 1, n => if n = 0 then 0 else bitLenAux fuel (n / 2) + 1

/-- Number of bits of `n` (Go's `bits.Len`). -/
def bitLen (n : Nat) : Nat := bitLenAux n n

/-- Round the magnitude `m * 2^e` (plus, when `sticky`, a nonzero remainder below the
last bit of `m`) to the format: nearest, ties to even; overflow gives an infinity. -/
def Fl.round (f : Fmt) (neg : Bool) (m : Nat) (e : Int) (sticky : Bool) : Fl :=
  if m = 0 then Fl.fin neg 0 f.emin
  else
    let bits : Int := (bitLen m : Nat)
    let q : Int := max (e + bits - f.prec) f.emin
    if q ≤ e then
      if f.emax < q then Fl.inf neg else Fl.fin neg (m * 2 ^ (e - q).toNat) q
    else
      let sh := (q - e).toNat
      let m0 := m / 2 ^ sh
      let r := m % 2 ^ sh
      let half := 2 ^ (sh - 1)
      let up : Bool :=
        decide (half < r) || (decide (r = half) && (sticky || decide (m0 % 2 = 1)))
      let m1 := if up then m0 + 1 else m0
      let m2 := if m1 = 2 ^ f.prec then 2 ^ (f.prec - 1) else m1
      let q2 := if m1 = 2 ^ f.prec then q + 1 else q
      if f.emax < q2 then Fl.inf neg else Fl.fin neg m2 q2

def Fl.signed (neg : Bool) (n : Nat) : Int := if neg then -(n : Int) else (n : Int)

/-- The integer `x / 2^e0` of a finite datum `(-1)^neg * m * 2^e` with `e0 ≤ e`. -/
def Fl.scaled (neg : Bool) (m : Nat) (e e0 : Int) : Int :=
  Fl.signed neg (m * 2 ^ (e - e0).toNat)

/-- Go's `x + y`. -/
def Fl.add (f : Fmt) : Fl → Fl → Fl
  | .nan, _ => .nan
  | _, .nan => .nan
  | .inf a, .inf b => if a = b then .inf a else .nan
  | .inf a, .fin _ _ _ => .inf a
  | .fin _ _ _, .inf b => .inf b
  | .fin sx mx ex, .fin sy my ey =>
    let e0 := min ex ey
    let s : Int := Fl.scaled sx mx ex e0 + Fl.scaled sy my ey e0
    if s = 0 then .fin (sx && sy) 0 f.emin
    else Fl.round f (decide (s < 0)) s.natAbs e0 false

/-- Go's `x * y`. -/
def Fl.mul (f : Fmt) : Fl → Fl → Fl
  | .nan, _ => .nan
  | _, .nan => .nan
  | .inf a, .inf b => .inf (xor a b)
  | .inf a, .fin s m _ => if m = 0 then .nan else .inf (xor a s)
  | .fin s m _, .inf b => if m = 0 then .nan else .inf (xor s b)
  | .fin sx mx ex, .fin sy my ey => Fl.round f (xor sx sy) (mx * my) (ex + ey) false

/-- Go's `x / y`. -/
def Fl.div (f : Fmt) : Fl → Fl → Fl
  | .nan, _ => .nan
  | _, .nan => .nan
  | .inf _, .inf _ => .nan
  | .inf a, .fin s _ _ => .inf (xor a s)
  | .fin s _ _, .inf b => .fin (xor s b) 0 f.emin
  | .fin sx mx ex, .fin sy my ey =>
    if my = 0 then (if mx = 0 then .nan else .inf (xor sx sy))
    else
      let k := f.prec + 2 + bitLen my
      let n := mx * 2 ^ k
      Fl.round f (xor sx sy) (n / my) (ex - ey - (k : Nat)) (decide (n % my ≠ 0))

/-- Greedy bit-by-bit integer square root: the bits below `2^b` of the largest `r`
whose square is at most `n`, on top of the candidate found so far. -/
def sqrtBits (n : Nat) : Nat → Nat → Nat
  | 0, r => r
  | b + 1, r =>
    if (r + 2 ^ b) * (r + 2 ^ b) ≤ n then sqrtBits n b (r + 2 ^ b) else sqrtBits n b r

def natSqrt (n : Nat) : Nat := sqrtBits n (bitLen n / 2 + 1) 0

/-- Go's `math.Sqrt`. -/
def Fl.sqrt (f : Fmt) : Fl → Fl
  | .nan => .nan
  | .inf neg => if neg then .nan else .inf false
  | .fin s m e =>
    if m = 0 then .fin s 0 f.emin
    else if s then .nan
    else
      let k : Nat := f.prec + 2
      let e1 : Int := e - 2 * (k : Int)
      let odd : Bool := decide (e1 % 2 ≠ 0)
      let M : Nat := m * 2 ^ (2 * k) * (if odd then 2 else 1)
      let E : Int := if odd then e1 - 1 else e1
      let r := natSqrt M
      Fl.round f false r (E / 2) (decide (r * r ≠ M))

/-- Go's `x > y`. -/
def Fl.gt : Fl → Fl → Bool
  | .nan, _ => false
  | _, .nan => false
  | .inf a, .inf b => !a && b
  | .inf a, .fin _ _ _ => !a
  | .fin _ _ _, .inf b => b
  | .fin sx mx ex, .fin sy my ey =>
    decide (Fl.scaled sy my ey (min ex ey) < Fl.scaled sx mx ex (min ex ey))

/-- Go's `x == y`. -/
def Fl.eq : Fl → Fl → Bool
  | .nan, _ => false
  | _, .nan => false
  | .inf a, .inf b => a == b
  | .inf _, .fin _ _ _ => false
  | .fin _ _ _, .inf _ => false
  | .fin sx mx ex, .fin sy my ey =>
    decide (Fl.scaled sx mx ex (min ex ey) = Fl.scaled sy my ey (min ex ey))

/-- Go's `x >= y`. -/
def Fl.ge (x y : Fl) : Bool := Fl.gt x y || Fl.eq x y

/-- Go's `x <= y`. -/
def Fl.le (x y : Fl) : Bool := Fl.ge y x

/-- The value of the constant `num / den` in the format (correctly rounded). -/
def Fl.ofRatio (f : Fmt) (num den : Nat) : Fl :=
  Fl.div f (.fin false num 0) (.fin false den 0)

/-- Go's conversion `float64(x)` of a `float32`. -/
def toFloat64 : Fl → Fl
  | .fin s m e => Fl.round binary64 s m e false
  | x => x

/-- The `float64` constant `0`. -/
def zero64 : Fl := .fin false 0 binary64.emin

/-! ## Data model -/

structure Vector where
  ID : String
  Values : List Fl
  Metadata : String
deriving DecidableEq, Repr

structure SearchResult where
  Vector : Vector
  Similarity : Fl
deriving DecidableEq, Repr

structure VectorDB where
  storage : List Vector
deriving DecidableEq, Repr

def NewVectorDB : VectorDB := ⟨[]⟩

def Insert (db : VectorDB) (v : Vector) : VectorDB := ⟨db.storage ++ [v]⟩

/-! ## CosineSimilarity -/

/-- One round of the loop of `CosineSimilarity`; `none` is an index out of range. -/
def cosineStep (a b : List Fl) (acc : Fl × Fl × Fl) (i : Nat) : Option (Fl × Fl × Fl) :=
  match a[i]?, b[i]? with
  | some ai, some bi =>
    some (Fl.add binary64 acc.1 (toFloat64 (Fl.mul binary32 ai bi)),
          Fl.add binary64 acc.2.1 (toFloat64 (Fl.mul binary32 ai ai)),
          Fl.add binary64 acc.2.2 (toFloat64 (Fl.mul binary32 bi bi)))
  | _, _ => none

/-- Go's `CosineSimilarity(a, b []float32) float64`. -/
def CosineSimilarity (a b : List Fl) : Option Fl :=
  if a.length ≠ b.length then some zero64
  else
    match (List.range a.length).foldlM (cosineStep a b) (zero64, zero64, zero64) with
    | none => none
    | some (dotProduct, normA, normB) =>
      if Fl.eq normA zero64 || Fl.eq normB zero64 then some zero64
      else some (Fl.div binary64 dotProduct
        (Fl.mul binary64 (Fl.sqrt binary64 normA) (Fl.sqrt binary64 normB)))

/-! ## Query -/

/-- The type of `sort.Slice` at `[]SearchResult`. -/
abbrev SortSlice := (SearchResult → SearchResult → Bool) → List SearchResult → List SearchResult

/-- One round of the scoring loop of `Query`. -/
def queryStep (queryValues : List Fl) (results : List SearchResult) (v : Vector) :
    Option (List SearchResult) :=
  match CosineSimilarity queryValues v.Values with
  | none => none
  | some similarity => some (results ++ [⟨v, similarity⟩])

/-- Go's `(db *VectorDB) Query(queryValues []float32, topK int) []SearchResult`;
`results[:topK]` panics when `topK` is negative. -/
def Query (sort : SortSlice) (db : VectorDB) (queryValues : List Fl) (topK : Int) :
    Option (List SearchResult) :=
  match db.storage.foldlM (queryStep queryValues) [] with
  | none => none
  | some scored =>
    let results := sort (fun x y => Fl.gt x.Similarity y.Similarity) scored
    if topK < (results.length : Int) then
      if topK < 0 then none else some (results.take topK.toNat)
    else some results

/-- The memory `Query` works on: the store behind the receiver `db`, and the local slice
`results`. -/
structure QueryState where
  db : VectorDB
  results : List SearchResult
deriving DecidableEq, Repr

/-- One round of the scoring loop of `Query` on the memory:
`results = append(results, SearchResult{Vector: v, Similarity: similarity})`. -/
def scoreStep (queryValues : List Fl) (s : QueryState) (v : Vector) : Option QueryState :=
  match CosineSimilarity queryValues v.Values with
  | none => none
  | some similarity => some ⟨s.db, s.results ++ [⟨v, similarity⟩]⟩

/-- Go's `Query` as a transformer of the memory, statement by statement: `results` is a
new slice, the loop ranges over `db.storage` and appends to `results`, `sort.Slice`
rearranges `results`, and the slice returned comes with the store as `Query` leaves it. -/
def QueryRun (sort : SortSlice) (db : VectorDB) (queryValues : List Fl) (topK : Int) :
    Option (VectorDB × List SearchResult) :=
  match db.storage.foldlM (scoreStep queryValues) ⟨db, []⟩ with
  | none => none
  | some s =>
    let sorted : QueryState :=
      ⟨s.db, sort (fun x y => Fl.gt x.Similarity y.Similarity) s.results⟩
    if topK < (sorted.results.length : Int) then
      if topK < 0 then none else some (sorted.db, sorted.results.take topK.toNat)
    else some (sorted.db, sorted.results)

/-! ## sort.Slice

The algorithm of `sort.Slice` in Go 1.19 and later (`zsortfunc.go`): pattern-defeating
quicksort over `less(i, j)` and `swap(i, j)` on the slice being sorted.  Loops carry a
fuel argument that bounds their number of rounds. -/

section SortAlgorithm

variable {α : Type}

/-- The call `data.Less(i, j)`. -/
def lessAt (less : α → α → Bool) (data : List α) (i j : Nat) : Bool :=
  match data[i]?, data[j]? with
  | some x, some y => less x y
  | _, _ => false

/-- The call `data.Swap(i, j)`. -/
def swapAt (data : List α) (i j : Nat) : List α :=
  match data[i]?, data[j]? with
  | some x, some y => (data.set i y).set j x
  | _, _ => data

/-- The inner loop of `insertionSort_func`:
`for j := i; j > a && data.Less(j, j-1); j-- { data.Swap(j, j-1) }`. -/
def insertionInner (less : α → α → Bool) (a : Nat) : Nat → List α → List α
  | 0, data => data
  | j + 1, data =>
    if a < j + 1 ∧ lessAt less data (j + 1) j = true then
      insertionInner less a j (swapAt data (j + 1) j)
    else data

/-- Go's `insertionSort_func(data, a, b)`: sorts `data[a:b]`. -/
def insertionSort_func (less : α → α → Bool) (data : List α) (a b : Nat) : List α :=
  (List.range' (a + 1) (b - (a + 1))).foldl (fun d i => insertionInner less a i d) data

/-- Go's `siftDown_func(data, lo, hi, first)`, the loop variable `root` starting at `lo`. -/
def siftDown_func (less : α → α → Bool) (hi first : Nat) : Nat → Nat → List α → List α
  | 0, _, data => data
  | fuel + 1, root, data =>
    let child := 2 * root + 1
    if hi ≤ child then data
    else
      let child :=
        if child + 1 < hi ∧ lessAt less data (first + child) (first + child + 1) = true
        then child + 1 else child
      if lessAt less data (first + root) (first + child) = false then data
      else siftDown_func less hi first fuel child (swapAt data (first + root) (first + child))

/-- Go's `heapSort_func(data, a, b)`. -/
def heapSort_func (less : α → α → Bool) (data : List α) (a b : Nat) : List α :=
  let first := a
  let lo := 0
  let hi := b - a
  let data := (List.range ((hi - 1) / 2 + 1)).reverse.foldl
    (fun d i => siftDown_func less hi first hi i d) data
  (List.range hi).reverse.foldl
    (fun d i => siftDown_func less i first hi lo (swapAt d first (first + i))) data

/-- Go's `(r *xorshift) Next()` on `uint64`. -/
def xorshiftNext (r : Nat) : Nat :=
  let r := r ^^^ ((r <<< 13) % 2 ^ 64)
  let r := r ^^^ (r >>> 7)
  r ^^^ ((r <<< 17) % 2 ^ 64)

/-- Go's `nextPowerOfTwo(length)`. -/
def nextPowerOfTwo (length : Nat) : Nat := 1 <<< bitLen length

/-- Go's `breakPatterns_func(data, a, b)`. -/
def breakPatterns_func (data : List α) (a b : Nat) : List α :=
  let length := b - a
  if 8 ≤ length then
    let modulus := nextPowerOfTwo length
    let idx := a + (length / 4) * 2 - 1
    let step := fun (st : Nat × List α) (i : Nat) =>
      let random := xorshiftNext st.1
      let other := random &&& (modulus - 1)
      let other := if length ≤ other then other - length else other
      (random, swapAt st.2 (idx + i) (a + other))
    ((List.range 3).foldl step (length, data)).2
  else data

/-- Go's `sortedHint`. -/
inductive SortedHint where
  | unknownHint
  | increasingHint
  | decreasingHint
deriving DecidableEq, Repr

/-- Go's `order2_func(data, a, b, swaps)`; the counter `swaps` is returned last. -/
def order2_func (less : α → α → Bool) (data : List α) (a b swaps : Nat) : Nat × Nat × Nat :=
  if lessAt less data b a = true then (b, a, swaps + 1) else (a, b, swaps)

/-- Go's `median_func(data, a, b, c, swaps)`. -/
def median_func (less : α → α → Bool) (data : List α) (a b c swaps : Nat) : Nat × Nat :=
  let (a, b, swaps) := order2_func less data a b swaps
  let (b, _, swaps) := order2_func less data b c swaps
  let (_, b, swaps) := order2_func less data a b swaps
  (b, swaps)

/-- Go's `medianAdjacent_func(data, a, swaps)`. -/
def medianAdjacent_func (less : α → α → Bool) (data : List α) (a swaps : Nat) : Nat × Nat :=
  median_func less data (a - 1) a (a + 1) swaps

/-- The hint `choosePivot_func` returns for a count of swaps (`maxSwaps` is `4 * 3`). -/
def sortedHintOf (swaps : Nat) : SortedHint :=
  if swaps = 0 then .increasingHint
  else if swaps = 4 * 3 then .decreasingHint
  else .unknownHint

/-- The pivot `choosePivot_func` chooses, with the count of swaps: the median of three
candidates from 8 elements on, each the median of its neighbours from 50 elements on
(`shortestNinther`). -/
def choosePivotIndex (less : α → α → Bool) (data : List α) (a b : Nat) : Nat × Nat :=
  let l := b - a
  let i := a + l / 4 * 1
  let j := a + l / 4 * 2
  let k := a + l / 4 * 3
  if 8 ≤ l then
    if 50 ≤ l then
      let ri := medianAdjacent_func less data i 0
      let rj := medianAdjacent_func less data j ri.2
      let rk := medianAdjacent_func less data k rj.2
      median_func less data ri.1 rj.1 rk.1 rk.2
    else median_func less data i j k 0
  else (j, 0)

/-- Go's `choosePivot_func(data, a, b)`. -/
def choosePivot_func (less : α → α → Bool) (data : List α) (a b : Nat) : Nat × SortedHint :=
  ((choosePivotIndex less data a b).1, sortedHintOf (choosePivotIndex less data a b).2)

/-- Go's `reverseRange_func(data, a, b)`, the loop variables `i`, `j` as arguments. -/
def reverseRangeLoop : Nat → Nat → Nat → List α → List α
  | 0, _, _, data => data
  | fuel + 1, i, j, data =>
    if i < j then reverseRangeLoop fuel (i + 1) (j - 1) (swapAt data i j) else data

def reverseRange_func (data : List α) (a b : Nat) : List α :=
  if b = 0 then data else reverseRangeLoop (b - a) a (b - 1) data

/-- The loop `for i < b && !data.Less(i, i-1) { i++ }`. -/
def scanSorted (less : α → α → Bool) (data : List α) (b : Nat) : Nat → Nat → Nat
  | 0, i => i
  | fuel + 1, i =>
    if i < b ∧ lessAt less data i (i - 1) = false then scanSorted less data b fuel (i + 1)
    else i

/-- The loop `for j := i - 1; j >= 1; j-- { if !data.Less(j, j-1) { break }; data.Swap(j, j-1) }`. -/
def shiftLeft (less : α → α → Bool) : Nat → List α → List α
  | 0, data => data
  | j + 1, data =>
    if lessAt less data (j + 1) j = false then data
    else shiftLeft less j (swapAt data (j + 1) j)

/-- The loop `for j := i + 1; j < b; j++ { if !data.Less(j, j-1) { break }; data.Swap(j, j-1) }`. -/
def shiftRight (less : α → α → Bool) (b : Nat) : Nat → Nat → List α → List α
  | 0, _, data => data
  | fuel + 1, j, data =>
    if j < b then
      if lessAt less data j (j - 1) = false then data
      else shiftRight less b fuel (j + 1) (swapAt data j (j - 1))
    else data

/-- The loop `for j := 0; j < maxSteps; j++` of `partialInsertionSort_func`;
`steps` is `maxSteps - j`. -/
def partialInsertionLoop (less : α → α → Bool) (a b : Nat) :
    Nat → Nat → List α → List α × Bool
  | 0, _, data => (data, false)
  | steps + 1, i, data =>
    let i := scanSorted less data b b i
    if i = b then (data, true)
    else if b - a < 50 then (data, false)
    else
      let data := swapAt data i (i - 1)
      let data := if 2 ≤ i - a then shiftLeft less (i - 1) data else data
      let data := if 2 ≤ b - i then shiftRight less b b (i + 1) data else data
      partialInsertionLoop less a b steps i data

/-- Go's `partialInsertionSort_func(data, a, b)`. -/
def partialInsertionSort_func (less : α → α → Bool) (data : List α) (a b : Nat) :
    List α × Bool :=
  partialInsertionLoop less a b 5 (a + 1) data

/-- The loop `for i <= j && data.Less(i, a) { i++ }`. -/
def scanLess (less : α → α → Bool) (data : List α) (a j : Nat) : Nat → Nat → Nat
  | 0, i => i
  | fuel + 1, i =>
    if i ≤ j ∧ lessAt less data i a = true then scanLess less data a j fuel (i + 1) else i

/-- The loop `for i <= j && !data.Less(j, a) { j-- }`. -/
def scanNotLess (less : α → α → Bool) (data : List α) (a i : Nat) : Nat → Nat → Nat
  | 0, j => j
  | fuel + 1, j =>
    if i ≤ j ∧ lessAt less data j a = false then scanNotLess less data a i fuel (j - 1) else j

/-- The second loop of `partition_func`: scan from both ends and swap, until `i > j`.
Returns the final `j`. -/
def partitionLoop (less : α → α → Bool) (a b : Nat) : Nat → Nat → Nat → List α → List α × Nat
  | 0, _, j, data => (data, j)
  | fuel + 1, i, j, data =>
    let i := scanLess less data a j b i
    let j := scanNotLess less data a i b j
    if j < i then (data, j)
    else partitionLoop less a b fuel (i + 1) (j - 1) (swapAt data i j)

/-- Go's `partition_func(data, a, b, pivot)`: returns the data, `newpivot` and
`alreadyPartitioned`. -/
def partition_func (less : α → α → Bool) (data : List α) (a b pivot : Nat) :
    List α × Nat × Bool :=
  let data := swapAt data a pivot
  let i := a + 1
  let j := b - 1
  let i := scanLess less data a j b i
  let j := scanNotLess less data a i b j
  if j < i then (swapAt data j a, j, true)
  else
    let data := swapAt data i j
    let (data, j) := partitionLoop less a b b (i + 1) (j - 1) data
    (swapAt data j a, j, false)

/-- The loop `for i <= j && !data.Less(a, i) { i++ }`. -/
def scanNotGreater (less : α → α → Bool) (data : List α) (a j : Nat) : Nat → Nat → Nat
  | 0, i => i
  | fuel + 1, i =>
    if i ≤ j ∧ lessAt less data a i = false then scanNotGreater less data a j fuel (i + 1)
    else i

/-- The loop `for i <= j && data.Less(a, j) { j-- }`. -/
def scanGreater (less : α → α → Bool) (data : List α) (a i : Nat) : Nat → Nat → Nat
  | 0, j => j
  | fuel + 1, j =>
    if i ≤ j ∧ lessAt less data a j = true then scanGreater less data a i fuel (j - 1) else j

/-- The loop of `partitionEqual_func`. Returns the final `i`. -/
def partitionEqualLoop (less : α → α → Bool) (a b : Nat) :
    Nat → Nat → Nat → List α → List α × Nat
  | 0, i, _, data => (data, i)
  | fuel + 1, i, j, data =>
    let i := scanNotGreater less data a j b i
    let j := scanGreater less data a i b j
    if j < i then (data, i)
    else partitionEqualLoop less a b fuel (i + 1) (j - 1) (swapAt data i j)

/-- Go's `partitionEqual_func(data, a, b, pivot)`. -/
def partitionEqual_func (less : α → α → Bool) (data : List α) (a b pivot : Nat) :
    List α × Nat :=
  partitionEqualLoop less a b b (a + 1) (b - 1) (swapAt data a pivot)

/-- The first half of a round of the loop of `pdqsort_func`, for a range of more than 12
elements and `limit > 0`: break patterns after an unbalanced partition, choose the pivot,
reverse a decreasing range, and try `partialInsertionSort_func` on a range that looks
sorted.  Returns the data, `limit`, `pivot`, and whether the range is now sorted. -/
def pdqsortPivot (less : α → α → Bool) (data : List α) (a b limit : Nat)
    (wasBalanced wasPartitioned : Bool) : List α × Nat × Nat × Bool :=
  let data := if wasBalanced then data else breakPatterns_func data a b
  let limit := if wasBalanced then limit else limit - 1
  let ph := choosePivot_func less data a b
  let data := if ph.2 = .decreasingHint then reverseRange_func data a b else data
  let pivot := if ph.2 = .decreasingHint then (b - 1) - (ph.1 - a) else ph.1
  let hint := if ph.2 = .decreasingHint then SortedHint.increasingHint else ph.2
  let r :=
    if wasBalanced && wasPartitioned && hint = .increasingHint then
      partialInsertionSort_func less data a b
    else (data, false)
  (r.1, limit, pivot, r.2)

/-- Go's `pdqsort_func(data, a, b, limit)`; `wasBalanced` and `wasPartitioned` are the
loop's variables, and every round of the loop and every recursive call uses one unit
of fuel. -/
def pdqsort_func (less : α → α → Bool) :
    Nat → List α → Nat → Nat → Nat → Bool → Bool → List α
  | 0, data, _, _, _, _, _ => data
  | fuel + 1, data, a, b, limit, wasBalanced, wasPartitioned =>
    if b - a ≤ 12 then insertionSort_func less data a b
    else if limit = 0 then heapSort_func less data a b
    else
      match pdqsortPivot less data a b limit wasBalanced wasPartitioned with
      | (data, limit, pivot, done) =>
        if done then data
        else if 0 < a ∧ lessAt less data (a - 1) pivot = false then
          match partitionEqual_func less data a b pivot with
          | (data, mid) => pdqsort_func less fuel data mid b limit wasBalanced wasPartitioned
        else
          match partition_func less data a b pivot with
          | (data, mid, alreadyPartitioned) =>
            if mid - a < b - mid then
              pdqsort_func less fuel (pdqsort_func less fuel data a mid limit true true)
                (mid + 1) b limit (decide ((b - a) / 8 ≤ mid - a)) alreadyPartitioned
            else
              pdqsort_func less fuel (pdqsort_func less fuel data (mid + 1) b limit true true)
                a mid limit (decide ((b - a) / 8 ≤ b - mid)) alreadyPartitioned

/-- Go's `sort.Slice(x, less)`. Every round of `pdqsort_func` shrinks `b - a`, so
`length + 1` units of fuel are never used up. -/
def sortSlice (less : α → α → Bool) (x : List α) : List α :=
  pdqsort_func less (x.length + 1) x 0 x.length (bitLen x.length) true true

end SortAlgorithm

/-! ## Specification-level definitions -/

/-- The rational `(-1)^neg * m * 2^e`. -/
def Fl.finVal (s : Bool) (m : Nat) (e : Int) : ℚ := (Fl.signed s m : ℚ) * (2 : ℚ) ^ e

/-- The extended rational a datum stands for (`0` for NaN). -/
def Fl.val : Fl → WithBot (WithTop ℚ)
  | .nan => 0
  | .inf neg => if neg then ⊥ else ((⊤ : WithTop ℚ) : WithBot (WithTop ℚ))
  | .fin s m e => ((Fl.finVal s m e : WithTop ℚ) : WithBot (WithTop ℚ))


/-- The dot product of `a` and `b`: the sum over `i` of `a[i] * b[i]`, accumulated from
the left in `float64`. -/
def dotProduct (a b : List Fl) : Fl :=
  (List.zipWith (fun x y => toFloat64 (Fl.mul binary32 x y)) a b).foldl (Fl.add binary64) zero64

/-- The sum over `i` of `a[i]^2`. -/
def sqNorm (a : List Fl) : Fl := dotProduct a a

/-- The Euclidean norm of `a`. -/
def euclideanNorm (a : List Fl) : Fl := Fl.sqrt binary64 (sqNorm a)

/-- The value `CosineSimilarity a b` returns. -/
def cosineValue (a b : List Fl) : Fl :=
  if a.length ≠ b.length then zero64
  else if Fl.eq (sqNorm a) zero64 || Fl.eq (sqNorm b) zero64 then zero64
  else Fl.div binary64 (dotProduct a b) (Fl.mul binary64 (euclideanNorm a) (euclideanNorm b))

/-- The datum is NaN, `+Inf`, or a finite value of at least `2^L`. -/
def Fl.AtLeast (L : Int) : Fl → Prop
  | .nan => True
  | .inf neg => neg = false
  | .fin neg m e => neg = false ∧ (2 : ℚ) ^ L ≤ (m : ℚ) * (2 : ℚ) ^ e

/-- The datum is a positive zero or `Fl.AtLeast L`. -/
def Fl.ZeroOrAtLeast (L : Int) (x : Fl) : Prop := (∃ e, x = .fin false 0 e) ∨ Fl.AtLeast L x

/-- The exponent shift of rounding: for `m * 2^e` in the normal range of the format, the
result of `Fl.round` has the exponent `e + roundExp prec m sticky`. -/
def roundExp (prec : Nat) (m : Nat) (sticky : Bool) : Int :=
  let d : Int := ((bitLen m : Nat) : Int) - (prec : Int)
  if d ≤ 0 then d
  else
    let sh := d.toNat
    let m0 := m / 2 ^ sh
    let r := m % 2 ^ sh
    let half := 2 ^ (sh - 1)
    let up : Bool :=
      decide (half < r) || (decide (r = half) && (sticky || decide (m0 % 2 = 1)))
    let m1 := if up then m0 + 1 else m0
    if m1 = 2 ^ prec then d + 1 else d

/-- The significand of rounding: for `m * 2^e` in the normal range of the format, the
result of `Fl.round` has the significand `roundMant prec m sticky`. -/
def roundMant (prec : Nat) (m : Nat) (sticky : Bool) : Nat :=
  let d : Int := ((bitLen m : Nat) : Int) - (prec : Int)
  if d ≤ 0 then m * 2 ^ (-d).toNat
  else
    let sh := d.toNat
    let m0 := m / 2 ^ sh
    let r := m % 2 ^ sh
    let half := 2 ^ (sh - 1)
    let up : Bool :=
      decide (half < r) || (decide (r = half) && (sticky || decide (m0 % 2 = 1)))
    let m1 := if up then m0 + 1 else m0
    if m1 = 2 ^ prec then 2 ^ (prec - 1) else m1

/-- The datum times `2^k`: `k` is added to the exponent; a zero stays as it is. -/
def Fl.shift (k : Int) : Fl → Fl
  | .fin s m e => if m = 0 then .fin s m e else .fin s m (e + k)
  | x => x

/-- The vector `c*a` of the scaling property: every component of `a` multiplied by `c` in
`float32` (the caller's arithmetic: `main.go` has no such function). -/
def scale (c : Fl) (a : List Fl) : List Fl := a.map (fun x => Fl.mul binary32 c x)

/-- The `float32` value `2^k`, for `-126 <= k <= 127`. -/
def pow2 (k : Int) : Fl := .fin false (2 ^ 23) (k - 23)

/-- A `float32` that is a zero or a normal number of magnitude in `[2^-30, 2^30)`. -/
def Fl.InWindow : Fl → Bool
  | .fin _ m e => (decide (m = 0) && decide (e = -149)) ||
      (decide (2 ^ 23 ≤ m) && decide (m < 2 ^ 24) && decide (-53 ≤ e) && decide (e ≤ 6))
  | _ => false

/-- A `float32` that is a zero or a normal number with exponent in `[lo, hi]`. -/
def Fl.W32 (lo hi : Int) (x : Fl) : Prop :=
  ∃ s m e, x = .fin s m e ∧
    ((m = 0 ∧ e = -149) ∨ (2 ^ 23 ≤ m ∧ m < 2 ^ 24 ∧ lo ≤ e ∧ e ≤ hi))

/-- A `float64` on the grid `2^L`: a zero, or a normal number that is a multiple of `2^L` of
magnitude at most `j * 2^T`. -/
def Fl.OnGrid (L T : Int) (j : Nat) (x : Fl) : Prop :=
  ∃ s m e, x = .fin s m e ∧
    ((m = 0 ∧ e = -1074) ∨ (2 ^ 52 ≤ m ∧ m < 2 ^ 53 ∧
      (∃ N : Nat, (m : ℚ) * (2 : ℚ) ^ e = (N : ℚ) * (2 : ℚ) ^ L) ∧
      (m : ℚ) * (2 : ℚ) ^ e ≤ (j : ℚ) * (2 : ℚ) ^ T))

/-- The results of `Query` before they are sorted: every stored vector with its score,
in insertion order. -/
def scored (db : VectorDB) (queryValues : List Fl) : List SearchResult :=
  db.storage.map (fun v => ⟨v, cosineValue queryValues v.Values⟩)

/-- The requirement of `sort.Slice` on `less`, over the elements of the slice: a
transitive ordering (`less` is irreflexive and transitive, and so is "neither is less"). -/
def TransitiveOrdering {α : Type} (less : α → α → Bool) (xs : List α) : Prop :=
  (∀ x ∈ xs, less x x = false) ∧
  (∀ x ∈ xs, ∀ y ∈ xs, ∀ z ∈ xs, less x y = true → less y z = true → less x z = true) ∧
  (∀ x ∈ xs, ∀ y ∈ xs, ∀ z ∈ xs, less x y = false → less y z = false → less x z = false)

/-- The documented contract of `sort.Slice`: the slice is rearranged in place (a
permutation), and when `less` is a transitive ordering the result is sorted in the
sense of `sort.SliceIsSorted` (no element is less than its predecessor).  Nothing is
promised about the order of equal elements. -/
structure SortSliceSpec (sort : SortSlice) : Prop where
  perm : ∀ less xs, (sort less xs).Perm xs
  sorted : ∀ less xs, TransitiveOrdering less xs →
    List.Chain' (fun x y => less y x = false) (sort less xs)

/-- Insert `x` into a sorted run held in reverse (last element first): `x` moves past
every element it is less than, as the inner loop of `insertionSort_func` does by swaps. -/
def insertRev {α : Type} (less : α → α → Bool) (x : α) : List α → List α
  | [] => [x]
  | y :: r => if less x y = true then y :: insertRev less x r else x :: y :: r

/-- Insertion sort on lists: what `insertionSort_func(data, 0, len(data))` computes. -/
def insertionSortList {α : Type} (less : α → α → Bool) (xs : List α) : List α :=
  (xs.foldl (fun r x => insertRev less x r) []).reverse

/-- Equal scores keep insertion order: for every score `s`, the results scored `s` are, in
order, the first of the stored vectors scored `s`. -/
def TiesKeepInsertionOrder (db : VectorDB) (queryValues : List Fl)
    (res : List SearchResult) : Prop :=
  ∀ s : Fl, res.filter (fun r => Fl.eq r.Similarity s) <+:
    (scored db queryValues).filter (fun r => Fl.eq r.Similarity s)

/-! ## Predicates on slices, for the proof that `sortSlice` sorts -/

/-- The slice `d'` differs from `d` only inside `[a, b)`, and every element of `d'` in
`[a, b)` is an element of `d` in `[a, b)`. -/
def Within {α : Type} (a b : Nat) (d d' : List α) : Prop :=
  d'.length = d.length ∧ (∀ k, (k < a ∨ b ≤ k) → d'[k]? = d[k]?) ∧
    (∀ k, a ≤ k → k < b → ∃ k', a ≤ k' ∧ k' < b ∧ d'[k]? = d[k']?)

/-- Every element of `d` in `[a, b)` satisfies `P`. -/
def AllAt {α : Type} (P : α → Prop) (d : List α) (a b : Nat) : Prop :=
  ∀ k, a ≤ k → k < b → ∀ x, d[k]? = some x → P x

/-- The range `[a, b)` of `d` is sorted: no element is less than an earlier one. -/
def SortedOn {α : Type} (less : α → α → Bool) (d : List α) (a b : Nat) : Prop :=
  ∀ i j, a ≤ i → i < j → j < b → ∀ x y, d[i]? = some x → d[j]? = some y → less y x = false

/-- The heap condition at node `n` of the heap of `hi` elements stored from `first`: the
element at `n` is not less than its children. -/
def OkNode {α : Type} (less : α → α → Bool) (d : List α) (first hi n : Nat) : Prop :=
  ∀ c, (c = 2 * n + 1 ∨ c = 2 * n + 2) → c < hi →
    ∀ x y, d[first + n]? = some x → d[first + c]? = some y → less x y = false

/-- The element before the range `[a, b)`, when there is one, is not greater than any
element of the range. -/
def PredLE {α : Type} (less : α → α → Bool) (d : List α) (a b : Nat) : Prop :=
  a = 0 ∨ ∃ y, d[a - 1]? = some y ∧ AllAt (fun x => less x y = false) d a b

/-! ## Concrete inputs -/

/-- The `float32` constant `num / den`. -/
def f32 (num den : Nat) : Fl := Fl.ofRatio binary32 num den

def king : Vector := ⟨"1", [f32 1 1, f32 1 10, f32 0 1], "King"⟩

def queen : Vector := ⟨"2", [f32 9 10, f32 2 10, f32 0 1], "Queen"⟩

def apple : Vector := ⟨"3", [f32 0 1, f32 8 10, f32 9 10], "Apple"⟩

/-- The store `main` builds. -/
def demoDB : VectorDB := Insert (Insert (Insert NewVectorDB king) queen) apple

/-- The query of `main`: `[]float32{0.95, 0.15, 0.0}`. -/
def demoQuery : List Fl := [f32 95 100, f32 15 100, f32 0 1]

/-- The store `{"a", []float32{1e30}, "A"}`, `{"b", []float32{1}, "B"}`. -/
def overflowDB : VectorDB :=
  Insert (Insert NewVectorDB ⟨"a", [f32 (10 ^ 30) 1], "A"⟩) ⟨"b", [f32 1 1], "B"⟩

/-- The query `[]float32{1e30}`. -/
def overflowQuery : List Fl := [f32 (10 ^ 30) 1]

/-- The vector `{id, []float32{x, y}, ""}`. -/
def vec2 (id : String) (x y : Nat) : Vector := ⟨id, [f32 x 1, f32 y 1], ""⟩

/-- Thirteen vectors: `[0, 1]` first, then twelve copies of `[1, 0]` with ids 2 to 13. -/
def tieDB : VectorDB :=
  (["2", "3", "4", "5", "6", "7", "8", "9", "10", "11", "12", "13"].map
    (fun id => vec2 id 1 0)).foldl Insert (Insert NewVectorDB (vec2 "1" 0 1))

/-- The query `[]float32{1, 0}`. -/
def tieQuery : List Fl := [f32 1 1, f32 0 1]

/-- Two copies of `[1, 0]`, with ids 1 and 2. -/
def twinDB : VectorDB := Insert (Insert NewVectorDB (vec2 "1" 1 0)) (vec2 "2" 1 0)

/-- The `float64` value `1`. -/
def one64 : Fl := .fin false 4503599627370496 (-52)

/-! ## Floating-point comparisons -/

theorem Fl.scaled_cast (s : Bool) (m : Nat) (e e0 : Int) (h : e0 ≤ e) :
    ((Fl.scaled s m e e0 : Int) : ℚ) = (Fl.signed s m : ℚ) * (2 : ℚ) ^ e / (2 : ℚ) ^ e0 := by
  have hn : (((e - e0).toNat : Nat) : Int) = e - e0 := Int.toNat_of_nonneg (by omega)
  have h2 : (2 : ℚ) ^ (e - e0).toNat = (2 : ℚ) ^ e / (2 : ℚ) ^ e0 := by
    rw [← zpow_natCast, hn, zpow_sub₀ (by norm_num)]
  unfold Fl.scaled Fl.signed
  cases s <;> simp [h2] <;> ring

theorem Fl.scaled_lt_iff (sx sy : Bool) (mx my : Nat) (ex ey : Int) :
    Fl.scaled sy my ey (min ex ey) < Fl.scaled sx mx ex (min ex ey) ↔
      Fl.finVal sy my ey < Fl.finVal sx mx ex := by
  unfold Fl.finVal
  have hp : (0 : ℚ) < (2 : ℚ) ^ (min ex ey) := by positivity
  rw [← Int.cast_lt (R := ℚ), Fl.scaled_cast _ _ _ _ (min_le_right _ _),
    Fl.scaled_cast _ _ _ _ (min_le_left _ _), div_lt_div_iff_of_pos_right hp]

theorem Fl.scaled_eq_iff (sx sy : Bool) (mx my : Nat) (ex ey : Int) :
    Fl.scaled sx mx ex (min ex ey) = Fl.scaled sy my ey (min ex ey) ↔
      Fl.finVal sx mx ex = Fl.finVal sy my ey := by
  unfold Fl.finVal
  have hp : (2 : ℚ) ^ (min ex ey) ≠ 0 := by positivity
  rw [← Int.cast_inj (α := ℚ), Fl.scaled_cast _ _ _ _ (min_le_right _ _),
    Fl.scaled_cast _ _ _ _ (min_le_left _ _), div_left_inj' hp]

theorem Fl.gt_iff (x y : Fl) (hx : x ≠ .nan) (hy : y ≠ .nan) :
    Fl.gt x y = true ↔ y.val < x.val := by
  cases x with
  | nan => exact absurd rfl hx
  | inf a =>
    cases y with
    | nan => exact absurd rfl hy
    | inf b => cases a <;> cases b <;> simp [Fl.gt, Fl.val]
    | fin s m e =>
      cases a
      · simp only [Fl.gt, Fl.val, Bool.not_false, true_iff]
        exact WithBot.coe_lt_coe.mpr (WithTop.coe_lt_top _)
      · simp [Fl.gt, Fl.val]
  | fin sx mx ex =>
    cases y with
    | nan => exact absurd rfl hy
    | inf b => cases b <;> simp [Fl.gt, Fl.val]
    | fin sy my ey =>
      simp only [Fl.gt, Fl.val, decide_eq_true_eq, Fl.scaled_lt_iff]
      rw [WithBot.coe_lt_coe, WithTop.coe_lt_coe]

theorem Fl.eq_iff (x y : Fl) (hx : x ≠ .nan) (hy : y ≠ .nan) :
    Fl.eq x y = true ↔ x.val = y.val := by
  cases x with
  | nan => exact absurd rfl hx
  | inf a =>
    cases y with
    | nan => exact absurd rfl hy
    | inf b => cases a <;> cases b <;> simp [Fl.eq, Fl.val]
    | fin s m e => cases a <;> simp [Fl.eq, Fl.val]
  | fin sx mx ex =>
    cases y with
    | nan => exact absurd rfl hy
    | inf b => cases b <;> simp [Fl.eq, Fl.val]
    | fin sy my ey =>
      simp only [Fl.eq, Fl.val, decide_eq_true_eq, Fl.scaled_eq_iff]
      rw [WithBot.coe_inj, WithTop.coe_eq_coe]

theorem Fl.ge_iff (x y : Fl) (hx : x ≠ .nan) (hy : y ≠ .nan) :
    Fl.ge x y = true ↔ y.val ≤ x.val := by
  simp only [Fl.ge, Bool.or_eq_true, Fl.gt_iff x y hx hy, Fl.eq_iff x y hx hy]
  rw [le_iff_lt_or_eq]
  constructor
  · rintro (h | h)
    · exact Or.inl h
    · exact Or.inr h.symm
  · rintro (h | h)
    · exact Or.inl h
    · exact Or.inr h.symm

theorem Fl.gt_nan_left (y : Fl) : Fl.gt .nan y = false := by cases y <;> rfl
theorem Fl.gt_nan_right (x : Fl) : Fl.gt x .nan = false := by cases x <;> rfl
theorem Fl.ge_nan_left (y : Fl) : Fl.ge .nan y = false := by cases y <;> rfl
theorem Fl.ge_nan_right (x : Fl) : Fl.ge x .nan = false := by cases x <;> rfl


/-! ## CosineSimilarity -/

theorem dotProduct_append_singleton (a b : List Fl) (x y : Fl) (h : a.length = b.length) :
    dotProduct (a ++ [x]) (b ++ [y]) =
      Fl.add binary64 (dotProduct a b) (toFloat64 (Fl.mul binary32 x y)) := by
  unfold dotProduct
  rw [List.zipWith_append _ _ _ _ _ h]
  simp [List.foldl_append]

theorem cosine_loop (a b : List Fl) (h : a.length = b.length) (n : Nat) (hn : n ≤ a.length) :
    (List.range n).foldlM (cosineStep a b) (zero64, zero64, zero64) =
      some (dotProduct (a.take n) (b.take n), sqNorm (a.take n), sqNorm (b.take n)) := by
  induction n with
  | zero => simp [dotProduct, sqNorm]
  | succ n ih =>
    have ha : n < a.length := hn
    have hb : n < b.length := h ▸ hn
    have hl : (a.take n).length = (b.take n).length := by simp [h]
    rw [List.range_succ, List.foldlM_append, ih (Nat.le_of_lt ha)]
    simp only [List.foldlM, Option.bind_eq_bind, Option.some_bind, cosineStep,
      List.getElem?_eq_getElem ha, List.getElem?_eq_getElem hb, sqNorm]
    rw [List.take_succ, List.take_succ, List.getElem?_eq_getElem ha,
      List.getElem?_eq_getElem hb]
    simp only [Option.toList, dotProduct_append_singleton _ _ _ _ hl,
      dotProduct_append_singleton _ _ _ _ rfl]
    rfl

theorem cosine_loop_full (a b : List Fl) (h : a.length = b.length) :
    (List.range a.length).foldlM (cosineStep a b) (zero64, zero64, zero64) =
      some (dotProduct a b, sqNorm a, sqNorm b) := by
  have := cosine_loop a b h a.length (Nat.le_refl _)
  rw [this, List.take_length]
  congr 3
  · rw [h, List.take_length]
  · rw [h, List.take_length]

theorem CosineSimilarity_eq (a b : List Fl) :
    CosineSimilarity a b = some (cosineValue a b) := by
  unfold CosineSimilarity cosineValue
  by_cases h : a.length = b.length
  · simp only [h, ne_eq, not_true_eq_false, if_false]
    rw [← h, cosine_loop_full a b h]
    simp only [euclideanNorm]
    split <;> rfl
  · simp [h]

/-! ## Query -/

theorem foldlM_queryStep (q : List Fl) (vs : List Vector) (acc : List SearchResult) :
    vs.foldlM (queryStep q) acc =
      some (acc ++ vs.map (fun v => ⟨v, cosineValue q v.Values⟩)) := by
  induction vs generalizing acc with
  | nil => simp
  | cons v vs ih =>
    simp only [List.foldlM, queryStep, CosineSimilarity_eq, Option.bind_eq_bind,
      Option.some_bind, ih, List.map_cons, List.append_assoc, List.singleton_append]

theorem Query_eq (sort : SortSlice) (db : VectorDB) (q : List Fl) (topK : Int) :
    Query sort db q topK =
      if topK < 0 ∧ topK < ((sort (fun x y => Fl.gt x.Similarity y.Similarity)
          (scored db q)).length : Int) then none
      else some ((sort (fun x y => Fl.gt x.Similarity y.Similarity)
          (scored db q)).take topK.toNat) := by
  unfold Query
  rw [foldlM_queryStep]
  have hs : db.storage.map (fun v => (⟨v, cosineValue q v.Values⟩ : SearchResult)) =
      scored db q := rfl
  simp only [List.nil_append, hs]
  generalize sort (fun x y => Fl.gt x.Similarity y.Similarity) (scored db q) = R
  by_cases h1 : topK < (R.length : Int)
  · by_cases h2 : topK < 0
    · simp [h1, h2]
    · simp [h1, h2]
  · have h3 : ¬ topK < 0 := by omega
    have h4 : R.length ≤ topK.toNat := by omega
    rw [List.take_of_length_le h4]
    simp [h1, h3]

theorem Query_of_nonneg (sort : SortSlice) (db : VectorDB) (q : List Fl) (topK : Int)
    (h : 0 ≤ topK) :
    Query sort db q topK = some ((sort (fun x y => Fl.gt x.Similarity y.Similarity)
      (scored db q)).take topK.toNat) := by
  rw [Query_eq, if_neg]
  omega

/-! ## Insertion sort -/

section InsertionSort

variable {α : Type}

theorem insertRev_length (less : α → α → Bool) (x : α) (r : List α) :
    (insertRev less x r).length = r.length + 1 := by
  induction r with
  | nil => rfl
  | cons y r ih =>
    unfold insertRev
    split
    · simp [ih]
    · simp

theorem insertRev_perm (less : α → α → Bool) (x : α) (r : List α) :
    (insertRev less x r).Perm (x :: r) := by
  induction r with
  | nil => exact List.Perm.refl _
  | cons y r ih =>
    unfold insertRev
    split
    · exact (List.Perm.cons y ih).trans (List.Perm.swap x y r)
    · exact List.Perm.refl _

theorem insertionInner_append (less : α → α → Bool) (x : α) (p s : List α) :
    insertionInner less 0 p.length (p ++ x :: s) =
      (insertRev less x p.reverse).reverse ++ s := by
  induction p using List.reverseRecOn generalizing s with
  | nil => simp [insertionInner, insertRev]
  | append_singleton p y ih =>
    have h1 : (p ++ [y] ++ x :: s)[p.length + 1]? = some x := by
      rw [List.append_assoc, List.getElem?_append_right (by omega)]
      simp
    have h0 : (p ++ [y] ++ x :: s)[p.length]? = some y := by
      rw [List.append_assoc, List.getElem?_append_right (by omega)]
      simp
    have hsw : swapAt (p ++ [y] ++ x :: s) (p.length + 1) p.length = p ++ x :: y :: s := by
      unfold swapAt
      rw [h1, h0]
      simp [List.set_append]
    simp only [List.length_append, List.length_singleton, insertionInner, lessAt, h1, h0,
      Nat.zero_lt_succ, true_and, List.reverse_append, List.reverse_singleton,
      List.singleton_append, insertRev]
    by_cases hl : less x y = true
    · rw [if_pos hl, if_pos hl, hsw, ih]
      simp
    · rw [if_neg hl, if_neg hl]
      simp

theorem insertionSort_foldl (less : α → α → Bool) (s r : List α) :
    (List.range' r.length s.length).foldl (fun d i => insertionInner less 0 i d)
        (r.reverse ++ s) =
      (s.foldl (fun r x => insertRev less x r) r).reverse := by
  induction s generalizing r with
  | nil => simp
  | cons x s ih =>
    have h := insertionInner_append less x r.reverse s
    rw [List.length_reverse, List.reverse_reverse] at h
    simp only [List.length_cons, List.range'_succ, List.foldl_cons, h]
    have := ih (insertRev less x r)
    rw [insertRev_length] at this
    exact this

theorem insertionSort_func_eq (less : α → α → Bool) (xs : List α) :
    insertionSort_func less xs 0 xs.length = insertionSortList less xs := by
  unfold insertionSort_func insertionSortList
  cases xs with
  | nil => simp
  | cons x s =>
    have := insertionSort_foldl less s [x]
    simpa [insertRev] using this

theorem sortSlice_small (less : α → α → Bool) (xs : List α) (h : xs.length ≤ 12) :
    sortSlice less xs = insertionSortList less xs := by
  unfold sortSlice pdqsort_func
  simp [h, insertionSort_func_eq]

theorem insertionSortList_perm (less : α → α → Bool) (xs : List α) :
    (insertionSortList less xs).Perm xs := by
  unfold insertionSortList
  have key : ∀ (s r : List α),
      (s.foldl (fun r x => insertRev less x r) r).Perm (s.reverse ++ r) := by
    intro s
    induction s with
    | nil => intro r; exact List.Perm.refl _
    | cons x s ih =>
      intro r
      simp only [List.foldl_cons, List.reverse_cons, List.append_assoc, List.singleton_append]
      exact (ih _).trans (List.Perm.append_left _ (insertRev_perm less x r))
  have h := key xs []
  rw [List.append_nil] at h
  exact (List.reverse_perm _).trans (h.trans (List.reverse_perm _))

theorem insertRev_filter (less : α → α → Bool) (p : α → Bool) (x : α) (r : List α)
    (h : ∀ y ∈ r, p x = true → p y = true → less x y = false) :
    (insertRev less x r).filter p = (x :: r).filter p := by
  induction r with
  | nil => rfl
  | cons y r ih =>
    unfold insertRev
    by_cases hl : less x y = true
    · rw [if_pos hl]
      have hne : ¬ (p x = true ∧ p y = true) := by
        intro hxy
        have := h y (List.mem_cons_self _ _) hxy.1 hxy.2
        rw [hl] at this
        exact Bool.false_ne_true this.symm
      have ih' := ih (fun z hz => h z (List.mem_cons_of_mem _ hz))
      simp only [List.filter_cons, ih']
      by_cases hx : p x = true <;> by_cases hy : p y = true <;> simp_all
    · rw [if_neg hl]

/-- Insertion sort is stable: elements between which `less` never holds keep their
relative order. -/
theorem insertionSortList_filter (less : α → α → Bool) (p : α → Bool) (xs : List α)
    (h : ∀ x ∈ xs, ∀ y ∈ xs, p x = true → p y = true → less x y = false) :
    (insertionSortList less xs).filter p = xs.filter p := by
  unfold insertionSortList
  have key : ∀ (s r : List α), (∀ x ∈ s, x ∈ xs) → (∀ x ∈ r, x ∈ xs) →
      (s.foldl (fun r x => insertRev less x r) r).filter p = (s.reverse ++ r).filter p := by
    intro s
    induction s with
    | nil => intro r _ _; rfl
    | cons x s ih =>
      intro r hs hr
      simp only [List.foldl_cons, List.reverse_cons, List.append_assoc,
        List.singleton_append]
      have hx : x ∈ xs := hs x (List.mem_cons_self _ _)
      rw [ih _ (fun z hz => hs z (List.mem_cons_of_mem _ hz)), List.filter_append,
        List.filter_append, insertRev_filter less p x r (fun y hy => h x hx y (hr y hy))]
      intro z hz
      rcases List.mem_cons.mp ((insertRev_perm less x r).subset hz) with hz | hz
      · exact hz ▸ hx
      · exact hr z hz
  have := key xs [] (fun _ hx => hx) (fun _ hx => absurd hx (List.not_mem_nil _))
  rw [List.append_nil] at this
  rw [List.filter_reverse, this, List.filter_reverse, List.reverse_reverse]

end InsertionSort

/-! ## sort.Slice permutes the slice -/

section SortPerm

variable {α : Type}

theorem swapAt_perm (data : List α) (i j : Nat) : (swapAt data i j).Perm data := by
  classical
  unfold swapAt
  split
  · rename_i x y hx hy
    obtain ⟨hi, hxi⟩ := List.getElem?_eq_some.mp hx
    obtain ⟨hj, hyj⟩ := List.getElem?_eq_some.mp hy
    rw [List.perm_iff_count]
    intro a
    have hj' : j < (data.set i y).length := by simpa using hj
    rw [List.count_set _ _ _ _ hj', List.count_set _ _ _ _ hi, List.getElem_set, hxi, hyj]
    have hmem : x ∈ data := hxi ▸ List.getElem_mem hi
    have hc : x = a → 0 < data.count a := fun h => h ▸ List.count_pos_iff.mpr hmem
    by_cases hxa : x = a <;> by_cases hya : y = a <;> simp [hxa, hya] <;>
      first
      | omega
      | (have hpos := hc (by assumption); omega)
  · exact List.Perm.refl _

theorem foldl_perm {β : Type} (f : List α → β → List α) (hf : ∀ d b, (f d b).Perm d)
    (l : List β) (data : List α) : (l.foldl f data).Perm data := by
  induction l generalizing data with
  | nil => exact List.Perm.refl _
  | cons b l ih => exact (ih _).trans (hf _ _)

theorem insertionInner_perm (less : α → α → Bool) (a j : Nat) (data : List α) :
    (insertionInner less a j data).Perm data := by
  induction j generalizing data with
  | zero => exact List.Perm.refl _
  | succ j ih =>
    unfold insertionInner
    split
    · exact (ih _).trans (swapAt_perm _ _ _)
    · exact List.Perm.refl _

theorem insertionSort_func_perm (less : α → α → Bool) (data : List α) (a b : Nat) :
    (insertionSort_func less data a b).Perm data :=
  foldl_perm _ (fun d i => insertionInner_perm less a i d) _ _

theorem siftDown_func_perm (less : α → α → Bool) (hi first fuel root : Nat) (data : List α) :
    (siftDown_func less hi first fuel root data).Perm data := by
  induction fuel generalizing root data with
  | zero => exact List.Perm.refl _
  | succ fuel ih =>
    unfold siftDown_func
    simp only
    repeat' split
    all_goals first
      | exact List.Perm.refl _
      | exact (ih _ _).trans (swapAt_perm _ _ _)

theorem heapSort_func_perm (less : α → α → Bool) (data : List α) (a b : Nat) :
    (heapSort_func less data a b).Perm data := by
  unfold heapSort_func
  exact (foldl_perm _ (fun d i => (siftDown_func_perm less _ _ _ _ _).trans
    (swapAt_perm _ _ _)) _ _).trans
    (foldl_perm _ (fun d i => siftDown_func_perm less _ _ _ _ _) _ _)

theorem breakPatterns_func_perm (data : List α) (a b : Nat) :
    (breakPatterns_func data a b).Perm data := by
  unfold breakPatterns_func
  simp only
  split
  · have key : ∀ (l : List Nat) (st : Nat × List α) (f : Nat × List α → Nat → Nat × List α),
        (∀ st i, (f st i).2.Perm st.2) → (l.foldl f st).2.Perm st.2 := by
      intro l
      induction l with
      | nil => intro st f _; exact List.Perm.refl _
      | cons i l ih => intro st f hf; exact (ih _ f hf).trans (hf _ _)
    exact key _ _ _ (fun st i => swapAt_perm _ _ _)
  · exact List.Perm.refl _

theorem reverseRange_func_perm (data : List α) (a b : Nat) :
    (reverseRange_func data a b).Perm data := by
  have key : ∀ (fuel i j : Nat) (d : List α), (reverseRangeLoop fuel i j d).Perm d := by
    intro fuel
    induction fuel with
    | zero => intro i j d; exact List.Perm.refl _
    | succ fuel ih =>
      intro i j d
      unfold reverseRangeLoop
      split
      · exact (ih _ _ _).trans (swapAt_perm _ _ _)
      · exact List.Perm.refl _
  unfold reverseRange_func
  split
  · exact List.Perm.refl _
  · exact key _ _ _ _

theorem shiftLeft_perm (less : α → α → Bool) (j : Nat) (data : List α) :
    (shiftLeft less j data).Perm data := by
  induction j generalizing data with
  | zero => exact List.Perm.refl _
  | succ j ih =>
    unfold shiftLeft
    split
    · exact List.Perm.refl _
    · exact (ih _).trans (swapAt_perm _ _ _)

theorem shiftRight_perm (less : α → α → Bool) (b fuel j : Nat) (data : List α) :
    (shiftRight less b fuel j data).Perm data := by
  induction fuel generalizing j data with
  | zero => exact List.Perm.refl _
  | succ fuel ih =>
    unfold shiftRight
    split
    · split
      · exact List.Perm.refl _
      · exact (ih _ _).trans (swapAt_perm _ _ _)
    · exact List.Perm.refl _

theorem partialInsertionLoop_perm (less : α → α → Bool) (a b steps i : Nat) (data : List α) :
    (partialInsertionLoop less a b steps i data).1.Perm data := by
  induction steps generalizing i data with
  | zero => exact List.Perm.refl _
  | succ steps ih =>
    unfold partialInsertionLoop
    simp only
    split
    · exact List.Perm.refl _
    · split
      · exact List.Perm.refl _
      · refine (ih _ _).trans ?_
        have h1 : (swapAt data (scanSorted less data b b i)
            (scanSorted less data b b i - 1)).Perm data := swapAt_perm _ _ _
        have h2 : ∀ d : List α, (if 2 ≤ scanSorted less data b b i - a then
            shiftLeft less (scanSorted less data b b i - 1) d else d).Perm d := by
          intro d; split
          · exact shiftLeft_perm _ _ _
          · exact List.Perm.refl _
        have h3 : ∀ d : List α, (if 2 ≤ b - scanSorted less data b b i then
            shiftRight less b b (scanSorted less data b b i + 1) d else d).Perm d := by
          intro d; split
          · exact shiftRight_perm _ _ _ _ _
          · exact List.Perm.refl _
        exact (h3 _).trans ((h2 _).trans h1)

theorem partitionLoop_perm (less : α → α → Bool) (a b fuel i j : Nat) (data : List α) :
    (partitionLoop less a b fuel i j data).1.Perm data := by
  induction fuel generalizing i j data with
  | zero => exact List.Perm.refl _
  | succ fuel ih =>
    unfold partitionLoop
    simp only
    split
    · exact List.Perm.refl _
    · exact (ih _ _ _).trans (swapAt_perm _ _ _)

theorem partition_func_perm (less : α → α → Bool) (data : List α) (a b pivot : Nat) :
    (partition_func less data a b pivot).1.Perm data := by
  unfold partition_func
  simp only
  split
  · exact (swapAt_perm _ _ _).trans (swapAt_perm _ _ _)
  · exact (swapAt_perm _ _ _).trans ((partitionLoop_perm less _ _ _ _ _ _).trans
      ((swapAt_perm _ _ _).trans (swapAt_perm _ _ _)))

theorem partitionEqual_func_perm (less : α → α → Bool) (data : List α) (a b pivot : Nat) :
    (partitionEqual_func less data a b pivot).1.Perm data := by
  have key : ∀ (fuel i j : Nat) (d : List α),
      (partitionEqualLoop less a b fuel i j d).1.Perm d := by
    intro fuel
    induction fuel with
    | zero => intro i j d; exact List.Perm.refl _
    | succ fuel ih =>
      intro i j d
      unfold partitionEqualLoop
      simp only
      split
      · exact List.Perm.refl _
      · exact (ih _ _ _).trans (swapAt_perm _ _ _)
  unfold partitionEqual_func
  exact (key _ _ _ _).trans (swapAt_perm _ _ _)

theorem pdqsortPivot_perm (less : α → α → Bool) (data : List α) (a b limit : Nat)
    (wasBalanced wasPartitioned : Bool) :
    (pdqsortPivot less data a b limit wasBalanced wasPartitioned).1.Perm data := by
  unfold pdqsortPivot
  simp only
  have h1 : (if wasBalanced = true then data else breakPatterns_func data a b).Perm data := by
    split
    · exact List.Perm.refl _
    · exact breakPatterns_func_perm _ _ _
  generalize (if wasBalanced = true then data else breakPatterns_func data a b) = d1 at *
  have h2 : (if (choosePivot_func less d1 a b).2 = SortedHint.decreasingHint then
      reverseRange_func d1 a b else d1).Perm d1 := by
    split
    · exact reverseRange_func_perm _ _ _
    · exact List.Perm.refl _
  generalize (if (choosePivot_func less d1 a b).2 = SortedHint.decreasingHint then
      reverseRange_func d1 a b else d1) = d2 at *
  refine List.Perm.trans ?_ (h2.trans h1)
  repeat' split
  all_goals first
    | exact partialInsertionLoop_perm _ _ _ _ _ _
    | exact List.Perm.refl _

theorem pdqsort_func_perm (less : α → α → Bool) (fuel : Nat) (data : List α)
    (a b limit : Nat) (wasBalanced wasPartitioned : Bool) :
    (pdqsort_func less fuel data a b limit wasBalanced wasPartitioned).Perm data := by
  induction fuel generalizing data a b limit wasBalanced wasPartitioned with
  | zero => exact List.Perm.refl _
  | succ fuel ih =>
    unfold pdqsort_func
    split
    · exact insertionSort_func_perm _ _ _ _
    split
    · exact heapSort_func_perm _ _ _ _
    split
    rename_i d l p dn hsetup
    have hd : d.Perm data := by
      have := pdqsortPivot_perm less data a b limit wasBalanced wasPartitioned
      rw [hsetup] at this
      exact this
    split
    · exact hd
    split
    · split
      rename_i d2 mid heq
      have hd2 : d2.Perm d := by
        have := partitionEqual_func_perm less d a b p
        rw [heq] at this
        exact this
      exact (ih _ _ _ _ _ _).trans (hd2.trans hd)
    · split
      rename_i d2 mid ap heq
      have hd2 : d2.Perm d := by
        have := partition_func_perm less d a b p
        rw [heq] at this
        exact this
      split
      · exact (ih _ _ _ _ _ _).trans ((ih _ _ _ _ _ _).trans (hd2.trans hd))
      · exact (ih _ _ _ _ _ _).trans ((ih _ _ _ _ _ _).trans (hd2.trans hd))

theorem sortSlice_perm (less : α → α → Bool) (x : List α) : (sortSlice less x).Perm x :=
  pdqsort_func_perm less _ _ _ _ _ _ _

end SortPerm

/-! ## sort.Slice sorts the slice -/

section SortFrame

variable {α : Type} {less : α → α → Bool}

theorem TransitiveOrdering.of_perm {d d' : List α} (ho : TransitiveOrdering less d)
    (hp : d'.Perm d) : TransitiveOrdering less d' :=
  ⟨fun x hx => ho.1 x (hp.subset hx),
    fun x hx y hy z hz => ho.2.1 x (hp.subset hx) y (hp.subset hy) z (hp.subset hz),
    fun x hx y hy z hz => ho.2.2 x (hp.subset hx) y (hp.subset hy) z (hp.subset hz)⟩

theorem TransitiveOrdering.asymm {d : List α} (ho : TransitiveOrdering less d) {x y : α}
    (hx : x ∈ d) (hy : y ∈ d) (h : less x y = true) : less y x = false := by
  by_contra hyx
  have hyx' : less y x = true := by simpa using hyx
  have := ho.2.1 x hx y hy x hx h hyx'
  rw [ho.1 x hx] at this
  exact Bool.false_ne_true this

/-- From `x < y` and `y <= z`. -/
theorem TransitiveOrdering.lt_of_lt_of_nl {d : List α} (ho : TransitiveOrdering less d)
    {x y z : α} (hx : x ∈ d) (hy : y ∈ d) (hz : z ∈ d) (h1 : less x y = true)
    (h2 : less z y = false) : less x z = true := by
  by_contra h
  have h' : less x z = false := by simpa using h
  have := ho.2.2 x hx z hz y hy h' h2
  rw [h1] at this
  exact Bool.false_ne_true this.symm

/-- From `x <= y` and `y < z`. -/
theorem TransitiveOrdering.lt_of_nl_of_lt {d : List α} (ho : TransitiveOrdering less d)
    {x y z : α} (hx : x ∈ d) (hy : y ∈ d) (hz : z ∈ d) (h1 : less y x = false)
    (h2 : less y z = true) : less x z = true := by
  by_contra h
  have h' : less x z = false := by simpa using h
  have := ho.2.2 y hy x hx z hz h1 h'
  rw [h2] at this
  exact Bool.false_ne_true this.symm

theorem mem_of_getElem? {d : List α} {i : Nat} {x : α} (h : d[i]? = some x) : x ∈ d := by
  obtain ⟨hi, rfl⟩ := List.getElem?_eq_some.mp h
  exact List.getElem_mem hi

theorem lessAt_eq {d : List α} {i j : Nat} {x y : α} (hx : d[i]? = some x)
    (hy : d[j]? = some y) : lessAt less d i j = less x y := by
  simp [lessAt, hx, hy]

theorem swapAt_length (d : List α) (i j : Nat) : (swapAt d i j).length = d.length :=
  (swapAt_perm d i j).length_eq

theorem swapAt_getElem? (d : List α) (i j k : Nat) (hi : i < d.length) (hj : j < d.length) :
    (swapAt d i j)[k]? = if k = j then d[i]? else if k = i then d[j]? else d[k]? := by
  unfold swapAt
  rw [List.getElem?_eq_getElem hi, List.getElem?_eq_getElem hj]
  simp only [List.getElem?_set, List.length_set]
  by_cases h1 : k = j
  · subst h1; simp [hj]
  · by_cases h2 : k = i
    · subst h2; simp [h1, hi, Ne.symm h1]
    · simp [h1, h2, Ne.symm h1, Ne.symm h2]

theorem Within.refl (a b : Nat) (d : List α) : Within a b d d :=
  ⟨rfl, fun _ _ => rfl, fun k h1 h2 => ⟨k, h1, h2, rfl⟩⟩

theorem Within.trans {a b : Nat} {d1 d2 d3 : List α} (h12 : Within a b d1 d2)
    (h23 : Within a b d2 d3) : Within a b d1 d3 := by
  refine ⟨h23.1.trans h12.1, fun k hk => (h23.2.1 k hk).trans (h12.2.1 k hk), ?_⟩
  intro k h1 h2
  obtain ⟨k', h1', h2', e⟩ := h23.2.2 k h1 h2
  obtain ⟨k'', h1'', h2'', e'⟩ := h12.2.2 k' h1' h2'
  exact ⟨k'', h1'', h2'', e.trans e'⟩

theorem Within.mono {a b a' b' : Nat} {d d' : List α} (h : Within a' b' d d')
    (ha : a ≤ a') (hb : b' ≤ b) : Within a b d d' := by
  refine ⟨h.1, fun k hk => h.2.1 k (by omega), ?_⟩
  intro k h1 h2
  by_cases hk : a' ≤ k ∧ k < b'
  · obtain ⟨k', h1', h2', e⟩ := h.2.2 k hk.1 hk.2
    exact ⟨k', by omega, by omega, e⟩
  · exact ⟨k, h1, h2, h.2.1 k (by omega)⟩

theorem within_swapAt (a b : Nat) (d : List α) (i j : Nat) (hi : a ≤ i ∧ i < b)
    (hj : a ≤ j ∧ j < b) : Within a b d (swapAt d i j) := by
  by_cases hil : i < d.length
  · by_cases hjl : j < d.length
    · refine ⟨swapAt_length d i j, ?_, ?_⟩
      · intro k hk
        rw [swapAt_getElem? d i j k hil hjl, if_neg (by omega), if_neg (by omega)]
      · intro k h1 h2
        rw [swapAt_getElem? d i j k hil hjl]
        by_cases e1 : k = j
        · exact ⟨i, hi.1, hi.2, by rw [if_pos e1]⟩
        · by_cases e2 : k = i
          · exact ⟨j, hj.1, hj.2, by rw [if_neg e1, if_pos e2]⟩
          · exact ⟨k, h1, h2, by rw [if_neg e1, if_neg e2]⟩
    · have : swapAt d i j = d := by
        unfold swapAt
        rw [List.getElem?_eq_none (by omega : d.length ≤ j)]
        split <;> simp_all
      rw [this]; exact Within.refl _ _ _
  · have : swapAt d i j = d := by
      unfold swapAt
      rw [List.getElem?_eq_none (by omega : d.length ≤ i)]
    rw [this]; exact Within.refl _ _ _

theorem AllAt.transport {P : α → Prop} {a b : Nat} {d d' : List α} (h : AllAt P d a b)
    (hw : Within a b d d') : AllAt P d' a b := by
  intro k h1 h2 x hx
  obtain ⟨k', h1', h2', e⟩ := hw.2.2 k h1 h2
  exact h k' h1' h2' x (e ▸ hx)

end SortFrame

section SortCorrect

variable {α : Type} (less : α → α → Bool)

theorem insertion_exit {d : List α} (ho : TransitiveOrdering less d) (a t j : Nat)
    (ht : t < d.length) (hjt : j ≤ t)
    (h1 : ∀ i k, a ≤ i → i < k → k ≤ t → i ≠ j → k ≠ j →
      ∀ x y, d[i]? = some x → d[k]? = some y → less y x = false)
    (h2 : ∀ k, j < k → k ≤ t → ∀ x y, d[j]? = some x → d[k]? = some y → less x y = true)
    (hex : j ≤ a ∨ lessAt less d j (j - 1) = false) :
    SortedOn less d a (t + 1) := by
  intro i k hai hik hkt x y hx hy
  by_cases hij : i = j
  · subst hij
    exact ho.asymm (mem_of_getElem? hx) (mem_of_getElem? hy) (h2 k hik (by omega) x y hx hy)
  · by_cases hkj : k = j
    · subst hkj
      rcases hex with hex | hex
      · omega
      · have hz : (k - 1) < d.length := by omega
        have hzs : d[k - 1]? = some d[k - 1] := List.getElem?_eq_getElem hz
        rw [lessAt_eq hy hzs] at hex
        by_cases hi1 : i = k - 1
        · subst hi1
          rw [hzs] at hx
          exact (Option.some.inj hx) ▸ hex
        · have := h1 i (k - 1) hai (by omega) (by omega) hij (by omega) x _ hx hzs
          exact ho.2.2 y (mem_of_getElem? hy) _ (mem_of_getElem? hzs) x (mem_of_getElem? hx)
            hex this
    · exact h1 i k hai hik (by omega) hij hkj x y hx hy

theorem insertionInner_spec (a t : Nat) : ∀ (j : Nat) (d : List α),
    TransitiveOrdering less d → t < d.length → a ≤ j → j ≤ t →
    (∀ i k, a ≤ i → i < k → k ≤ t → i ≠ j → k ≠ j →
      ∀ x y, d[i]? = some x → d[k]? = some y → less y x = false) →
    (∀ k, j < k → k ≤ t → ∀ x y, d[j]? = some x → d[k]? = some y → less x y = true) →
    Within a (t + 1) d (insertionInner less a j d) ∧
      SortedOn less (insertionInner less a j d) a (t + 1) := by
  intro j
  induction j with
  | zero =>
    intro d ho ht ha hjt h1 h2
    exact ⟨Within.refl _ _ _, insertion_exit less ho a t 0 ht hjt h1 h2 (Or.inl (by omega))⟩
  | succ j ih =>
    intro d ho ht ha hjt h1 h2
    unfold insertionInner
    by_cases hc : a < j + 1 ∧ lessAt less d (j + 1) j = true
    · rw [if_pos hc]
      have hj1 : j + 1 < d.length := by omega
      have hj0 : j < d.length := by omega
      have hg : ∀ k, (swapAt d (j + 1) j)[k]? =
          if k = j then d[j + 1]? else if k = j + 1 then d[j]? else d[k]? :=
        fun k => swapAt_getElem? d (j + 1) j k hj1 hj0
      have hw : Within a (t + 1) d (swapAt d (j + 1) j) :=
        within_swapAt a (t + 1) d (j + 1) j ⟨by omega, by omega⟩ ⟨by omega, by omega⟩
      have ho' := ho.of_perm (swapAt_perm d (j + 1) j)
      have hlt : less d[j + 1] d[j] = true := by
        have := hc.2
        rwa [lessAt_eq (List.getElem?_eq_getElem hj1) (List.getElem?_eq_getElem hj0)] at this
      have := ih (swapAt d (j + 1) j) ho' (by rw [swapAt_length]; exact ht) (by omega)
        (by omega)
        (by
          intro i k hai hik hkt hij hkj x y hx hy
          rw [hg] at hx hy
          rw [if_neg hij] at hx
          rw [if_neg hkj] at hy
          by_cases e1 : i = j + 1
          · rw [if_pos e1] at hx
            rw [if_neg (by omega)] at hy
            exact h1 j k (by omega) (by omega) hkt (by omega) (by omega) x y hx hy
          · rw [if_neg e1] at hx
            by_cases e2 : k = j + 1
            · rw [if_pos e2] at hy
              exact h1 i j hai (by omega) (by omega) (by omega) (by omega) x y hx hy
            · rw [if_neg e2] at hy
              exact h1 i k hai hik hkt e1 e2 x y hx hy)
        (by
          intro k hjk hkt x y hx hy
          rw [hg] at hx hy
          rw [if_pos rfl] at hx
          rw [if_neg (by omega)] at hy
          by_cases e2 : k = j + 1
          · rw [if_pos e2, List.getElem?_eq_getElem hj0] at hy
            rw [List.getElem?_eq_getElem hj1] at hx
            rw [← Option.some.inj hx, ← Option.some.inj hy]
            exact hlt
          · rw [if_neg e2] at hy
            exact h2 k (by omega) hkt x y hx hy)
      exact ⟨hw.trans this.1, this.2⟩
    · rw [if_neg hc]
      refine ⟨Within.refl _ _ _, insertion_exit less ho a t (j + 1) ht hjt h1 h2 ?_⟩
      by_cases h : j + 1 ≤ a
      · exact Or.inl h
      · right
        have : ¬ lessAt less d (j + 1) j = true := fun h' => hc ⟨by omega, h'⟩
        simpa using this

theorem insertionSort_fold (a b : Nat) : ∀ (n s : Nat) (d : List α),
    TransitiveOrdering less d → a < s → s + n ≤ b → b ≤ d.length → SortedOn less d a s →
    Within a b d ((List.range' s n).foldl (fun d i => insertionInner less a i d) d) ∧
      SortedOn less ((List.range' s n).foldl (fun d i => insertionInner less a i d) d)
        a (s + n) := by
  intro n
  induction n with
  | zero => intro s d _ _ _ _ hs; exact ⟨Within.refl _ _ _, hs⟩
  | succ n ih =>
    intro s d ho has hsn hb hs
    simp only [List.range'_succ, List.foldl_cons]
    have h := insertionInner_spec less a s s d ho (by omega) (by omega)
      (Nat.le_refl _)
      (fun i k hai hik hks _ hkn x y hx hy => hs i k hai hik (by omega) x y hx hy)
      (fun k h1 h2 => by omega)
    have ho' := ho.of_perm (insertionInner_perm less a s d)
    have := ih (s + 1) (insertionInner less a s d) ho' (by omega) (by omega)
      (by rw [h.1.1]; exact hb) h.2
    refine ⟨(h.1.mono (Nat.le_refl _) (by omega)).trans this.1, ?_⟩
    rw [show s + (n + 1) = s + 1 + n by omega]
    exact this.2

theorem insertionSort_func_sorted {d : List α} (ho : TransitiveOrdering less d) (a b : Nat)
    (hb : b ≤ d.length) :
    Within a b d (insertionSort_func less d a b) ∧
      SortedOn less (insertionSort_func less d a b) a b := by
  unfold insertionSort_func
  by_cases h : a + 1 ≤ b
  · have := insertionSort_fold less a b (b - (a + 1)) (a + 1) d ho (by omega)
      (by omega) hb (fun i j hi hij hj => by omega)
    rw [show a + 1 + (b - (a + 1)) = b by omega] at this
    exact this
  · rw [show b - (a + 1) = 0 by omega]
    exact ⟨Within.refl _ _ _, fun i j hi hij hj => by omega⟩


theorem scanLess_spec (d : List α) (a j : Nat) (p : α) (hp : d[a]? = some p) :
    ∀ (fuel i : Nat), j + 1 - i ≤ fuel → i ≤ j + 1 →
      i ≤ scanLess less d a j fuel i ∧ scanLess less d a j fuel i ≤ j + 1 ∧
      (∀ k, i ≤ k → k < scanLess less d a j fuel i →
        ∀ x, d[k]? = some x → less x p = true) ∧
      (scanLess less d a j fuel i ≤ j →
        ∀ x, d[scanLess less d a j fuel i]? = some x → less x p = false) := by
  intro fuel
  induction fuel with
  | zero =>
    intro i hf hij
    simp only [scanLess]
    exact ⟨Nat.le_refl _, hij, fun k h1 h2 => by omega, fun h => by omega⟩
  | succ fuel ih =>
    intro i hf hij
    unfold scanLess
    by_cases hc : i ≤ j ∧ lessAt less d i a = true
    · rw [if_pos hc]
      obtain ⟨h1, h2, h3, h4⟩ := ih (i + 1) (by omega) (by omega)
      refine ⟨by omega, h2, ?_, h4⟩
      intro k hk1 hk2 x hx
      by_cases e : k = i
      · subst e
        have := hc.2
        rwa [lessAt_eq hx hp] at this
      · exact h3 k (by omega) hk2 x hx
    · rw [if_neg hc]
      refine ⟨Nat.le_refl _, hij, fun k h1 h2 => by omega, ?_⟩
      intro hle x hx
      have : ¬ lessAt less d i a = true := fun h => hc ⟨hle, h⟩
      rw [lessAt_eq hx hp] at this
      simpa using this

theorem scanNotLess_spec (d : List α) (a i : Nat) (p : α) (hp : d[a]? = some p)
    (hi : 0 < i) :
    ∀ (fuel j : Nat), j + 1 - i ≤ fuel → i ≤ j + 1 →
      scanNotLess less d a i fuel j ≤ j ∧ i ≤ scanNotLess less d a i fuel j + 1 ∧
      (∀ k, scanNotLess less d a i fuel j < k → k ≤ j →
        ∀ x, d[k]? = some x → less x p = false) ∧
      (i ≤ scanNotLess less d a i fuel j →
        ∀ x, d[scanNotLess less d a i fuel j]? = some x → less x p = true) := by
  intro fuel
  induction fuel with
  | zero =>
    intro j hf hij
    simp only [scanNotLess]
    exact ⟨Nat.le_refl _, hij, fun k h1 h2 => by omega, fun h => by omega⟩
  | succ fuel ih =>
    intro j hf hij
    unfold scanNotLess
    by_cases hc : i ≤ j ∧ lessAt less d j a = false
    · rw [if_pos hc]
      obtain ⟨h1, h2, h3, h4⟩ := ih (j - 1) (by omega) (by omega)
      refine ⟨by omega, h2, ?_, h4⟩
      intro k hk1 hk2 x hx
      by_cases e : k = j
      · subst e
        have := hc.2
        rwa [lessAt_eq hx hp] at this
      · exact h3 k hk1 (by omega) x hx
    · rw [if_neg hc]
      refine ⟨Nat.le_refl _, hij, fun k h1 h2 => by omega, ?_⟩
      intro hle x hx
      have : ¬ lessAt less d j a = false := fun h => hc ⟨hle, h⟩
      rw [lessAt_eq hx hp] at this
      simpa using this

/-- The state of the loop of `partition_func`: `p` is the pivot, held at `a`; the elements
in `(a, i)` are less than `p`, those in `(j, b)` are not. -/
theorem partitionLoop_spec (a b : Nat) (p : α) : ∀ (fuel i j : Nat) (d : List α),
    j + 1 - i ≤ fuel → a < i → i ≤ j + 1 → j < b → b ≤ d.length → d[a]? = some p →
    AllAt (fun x => less x p = true) d (a + 1) i →
    AllAt (fun x => less x p = false) d (j + 1) b →
    Within (a + 1) b d (partitionLoop less a b fuel i j d).1 ∧
      a ≤ (partitionLoop less a b fuel i j d).2 ∧ (partitionLoop less a b fuel i j d).2 < b ∧
      AllAt (fun x => less x p = true) (partitionLoop less a b fuel i j d).1 (a + 1)
        ((partitionLoop less a b fuel i j d).2 + 1) ∧
      AllAt (fun x => less x p = false) (partitionLoop less a b fuel i j d).1
        ((partitionLoop less a b fuel i j d).2 + 1) b := by
  intro fuel
  induction fuel with
  | zero =>
    intro i j d hf hai hij hjb hb hp hL hR
    simp only [partitionLoop]
    have : i = j + 1 := by omega
    subst this
    exact ⟨Within.refl _ _ _, by omega, hjb, hL, hR⟩
  | succ fuel ih =>
    intro i j d hf hai hij hjb hb hp hL hR
    unfold partitionLoop
    simp only
    obtain ⟨s1, s2, s3, s4⟩ := scanLess_spec less d a j p hp b i (by omega) hij
    generalize scanLess less d a j b i = i' at *
    obtain ⟨t1, t2, t3, t4⟩ := scanNotLess_spec less d a i' p hp (by omega) b j
      (by omega) s2
    generalize scanNotLess less d a i' b j = j' at *
    have hL' : AllAt (fun x => less x p = true) d (a + 1) i' := by
      intro k h1 h2 x hx
      by_cases hk : k < i
      · exact hL k h1 hk x hx
      · exact s3 k (by omega) h2 x hx
    have hR' : AllAt (fun x => less x p = false) d (j' + 1) b := by
      intro k h1 h2 x hx
      by_cases hk : j < k
      · exact hR k (by omega) h2 x hx
      · exact t3 k (by omega) (by omega) x hx
    by_cases hc : j' < i'
    · rw [if_pos hc]
      have : i' = j' + 1 := by omega
      subst this
      exact ⟨Within.refl _ _ _, by omega, by omega, hL', hR'⟩
    · rw [if_neg hc]
      have hi'l : i' < d.length := by omega
      have hj'l : j' < d.length := by omega
      have hxi : less d[i'] p = false := s4 (by omega) _ (List.getElem?_eq_getElem hi'l)
      have hxj : less d[j'] p = true := t4 (by omega) _ (List.getElem?_eq_getElem hj'l)
      have hne : i' ≠ j' := by
        intro e
        subst e
        rw [hxi] at hxj
        exact Bool.false_ne_true hxj
      have hg : ∀ k, (swapAt d i' j')[k]? =
          if k = j' then d[i']? else if k = i' then d[j']? else d[k]? :=
        fun k => swapAt_getElem? d i' j' k hi'l hj'l
      have hw : Within (a + 1) b d (swapAt d i' j') :=
        within_swapAt (a + 1) b d i' j' ⟨by omega, by omega⟩ ⟨by omega, by omega⟩
      have := ih (i' + 1) (j' - 1) (swapAt d i' j') (by omega) (by omega) (by omega)
        (by omega) (by rw [swapAt_length]; exact hb)
        (by rw [hg, if_neg (by omega), if_neg (by omega)]; exact hp)
        (by
          intro k h1 h2 x hx
          rw [hg, if_neg (by omega)] at hx
          by_cases e : k = i'
          · rw [if_pos e, List.getElem?_eq_getElem hj'l] at hx
            exact (Option.some.inj hx) ▸ hxj
          · rw [if_neg e] at hx
            exact hL' k h1 (by omega) x hx)
        (by
          intro k h1 h2 x hx
          rw [hg] at hx
          by_cases e : k = j'
          · rw [if_pos e, List.getElem?_eq_getElem hi'l] at hx
            exact (Option.some.inj hx) ▸ hxi
          · rw [if_neg e, if_neg (by omega)] at hx
            exact hR' k (by omega) h2 x hx)
      exact ⟨hw.trans this.1, this.2⟩


/-- The last step of `partition_func`: the pivot, held at `a`, is swapped with the last
element that is less than it. -/
theorem partition_final (d : List α) (a b m : Nat) (p : α) (ham : a ≤ m) (hmb : m < b)
    (hb : b ≤ d.length) (hp : d[a]? = some p)
    (hL : AllAt (fun x => less x p = true) d (a + 1) (m + 1))
    (hR : AllAt (fun x => less x p = false) d (m + 1) b) :
    Within a b d (swapAt d m a) ∧ (swapAt d m a)[m]? = some p ∧
      AllAt (fun x => less x p = true) (swapAt d m a) a m ∧
      AllAt (fun x => less x p = false) (swapAt d m a) (m + 1) b := by
  have hml : m < d.length := by omega
  have hal : a < d.length := by omega
  have hg : ∀ k, (swapAt d m a)[k]? =
      if k = a then d[m]? else if k = m then d[a]? else d[k]? :=
    fun k => swapAt_getElem? d m a k hml hal
  refine ⟨within_swapAt a b d m a ⟨ham, hmb⟩ ⟨Nat.le_refl _, by omega⟩, ?_, ?_, ?_⟩
  · rw [hg]
    by_cases e : m = a
    · rw [if_pos e, e]; exact hp
    · rw [if_neg e, if_pos rfl]; exact hp
  · intro k h1 h2 x hx
    rw [hg] at hx
    by_cases e : k = a
    · rw [if_pos e] at hx
      exact hL m (by omega) (by omega) x hx
    · rw [if_neg e, if_neg (by omega)] at hx
      exact hL k (by omega) (by omega) x hx
  · intro k h1 h2 x hx
    rw [hg, if_neg (by omega), if_neg (by omega)] at hx
    exact hR k h1 h2 x hx

theorem partition_func_spec (d : List α) (a b pivot : Nat) (hab : a < b)
    (hb : b ≤ d.length) (hpa : a ≤ pivot) (hpb : pivot < b) :
    Within a b d (partition_func less d a b pivot).1 ∧
      a ≤ (partition_func less d a b pivot).2.1 ∧ (partition_func less d a b pivot).2.1 < b ∧
      ∃ p, (partition_func less d a b pivot).1[(partition_func less d a b pivot).2.1]? =
          some p ∧
        AllAt (fun x => less x p = true) (partition_func less d a b pivot).1 a
          (partition_func less d a b pivot).2.1 ∧
        AllAt (fun x => less x p = false) (partition_func less d a b pivot).1
          ((partition_func less d a b pivot).2.1 + 1) b := by
  unfold partition_func
  simp only
  have hw1 : Within a b d (swapAt d a pivot) :=
    within_swapAt a b d a pivot ⟨Nat.le_refl _, hab⟩ ⟨hpa, hpb⟩
  have hl1 : b ≤ (swapAt d a pivot).length := by rw [swapAt_length]; exact hb
  generalize swapAt d a pivot = d1 at *
  have hal : a < d1.length := by omega
  have hp : d1[a]? = some d1[a] := List.getElem?_eq_getElem hal
  generalize d1[a] = p at hp
  obtain ⟨s1, s2, s3, s4⟩ := scanLess_spec less d1 a (b - 1) p hp b (a + 1)
    (by omega) (by omega)
  generalize scanLess less d1 a (b - 1) b (a + 1) = i1 at *
  obtain ⟨t1, t2, t3, t4⟩ := scanNotLess_spec less d1 a i1 p hp (by omega) b (b - 1)
    (by omega) s2
  generalize scanNotLess less d1 a i1 b (b - 1) = j1 at *
  have hL : AllAt (fun x => less x p = true) d1 (a + 1) i1 :=
    fun k h1 h2 x hx => s3 k h1 h2 x hx
  have hR : AllAt (fun x => less x p = false) d1 (j1 + 1) b :=
    fun k h1 h2 x hx => t3 k (by omega) (by omega) x hx
  by_cases hc : j1 < i1
  · rw [if_pos hc]
    simp only
    have : i1 = j1 + 1 := by omega
    subst this
    obtain ⟨f1, f2, f3, f4⟩ := partition_final less d1 a b j1 p (by omega) (by omega)
      hl1 hp hL hR
    exact ⟨hw1.trans f1, by omega, by omega, p, f2, f3, f4⟩
  · rw [if_neg hc]
    simp only
    have hi1l : i1 < d1.length := by omega
    have hj1l : j1 < d1.length := by omega
    have hxi : less d1[i1] p = false := s4 (by omega) _ (List.getElem?_eq_getElem hi1l)
    have hxj : less d1[j1] p = true := t4 (by omega) _ (List.getElem?_eq_getElem hj1l)
    have hne : i1 ≠ j1 := by
      intro e
      subst e
      rw [hxi] at hxj
      exact Bool.false_ne_true hxj
    have hg : ∀ k, (swapAt d1 i1 j1)[k]? =
        if k = j1 then d1[i1]? else if k = i1 then d1[j1]? else d1[k]? :=
      fun k => swapAt_getElem? d1 i1 j1 k hi1l hj1l
    have hw2 : Within a b d1 (swapAt d1 i1 j1) :=
      within_swapAt a b d1 i1 j1 ⟨by omega, by omega⟩ ⟨by omega, by omega⟩
    obtain ⟨l1, l2, l3, l4, l5⟩ := partitionLoop_spec less a b p b (i1 + 1) (j1 - 1)
      (swapAt d1 i1 j1) (by omega) (by omega) (by omega) (by omega)
      (by rw [swapAt_length]; exact hl1)
      (by rw [hg, if_neg (by omega), if_neg (by omega)]; exact hp)
      (by
        intro k h1 h2 x hx
        rw [hg, if_neg (by omega)] at hx
        by_cases e : k = i1
        · rw [if_pos e, List.getElem?_eq_getElem hj1l] at hx
          exact (Option.some.inj hx) ▸ hxj
        · rw [if_neg e] at hx
          exact hL k h1 (by omega) x hx)
      (by
        intro k h1 h2 x hx
        rw [hg] at hx
        by_cases e : k = j1
        · rw [if_pos e, List.getElem?_eq_getElem hi1l] at hx
          exact (Option.some.inj hx) ▸ hxi
        · rw [if_neg e, if_neg (by omega)] at hx
          exact hR k (by omega) h2 x hx)
    generalize partitionLoop less a b b (i1 + 1) (j1 - 1) (swapAt d1 i1 j1) = r at *
    obtain ⟨d3, j3⟩ := r
    simp only at l1 l2 l3 l4 l5 ⊢
    have hp3 : d3[a]? = some p := by
      rw [l1.2.1 a (Or.inl (by omega)), hg, if_neg (by omega), if_neg (by omega)]
      exact hp
    have hl3 : b ≤ d3.length := by rw [l1.1, swapAt_length]; exact hl1
    obtain ⟨f1, f2, f3, f4⟩ := partition_final less d3 a b j3 p l2 l3 hl3 hp3 l4 l5
    exact ⟨hw1.trans (hw2.trans ((l1.mono (by omega) (Nat.le_refl _)).trans f1)),
      l2, l3, p, f2, f3, f4⟩


theorem scanNotGreater_spec (d : List α) (a j : Nat) (p : α) (hp : d[a]? = some p) :
    ∀ (fuel i : Nat), j + 1 - i ≤ fuel → i ≤ j + 1 →
      i ≤ scanNotGreater less d a j fuel i ∧ scanNotGreater less d a j fuel i ≤ j + 1 ∧
      (∀ k, i ≤ k → k < scanNotGreater less d a j fuel i →
        ∀ x, d[k]? = some x → less p x = false) ∧
      (scanNotGreater less d a j fuel i ≤ j →
        ∀ x, d[scanNotGreater less d a j fuel i]? = some x → less p x = true) := by
  intro fuel
  induction fuel with
  | zero =>
    intro i hf hij
    simp only [scanNotGreater]
    exact ⟨Nat.le_refl _, hij, fun k h1 h2 => by omega, fun h => by omega⟩
  | succ fuel ih =>
    intro i hf hij
    unfold scanNotGreater
    by_cases hc : i ≤ j ∧ lessAt less d a i = false
    · rw [if_pos hc]
      obtain ⟨h1, h2, h3, h4⟩ := ih (i + 1) (by omega) (by omega)
      refine ⟨by omega, h2, ?_, h4⟩
      intro k hk1 hk2 x hx
      by_cases e : k = i
      · subst e
        have := hc.2
        rwa [lessAt_eq hp hx] at this
      · exact h3 k (by omega) hk2 x hx
    · rw [if_neg hc]
      refine ⟨Nat.le_refl _, hij, fun k h1 h2 => by omega, ?_⟩
      intro hle x hx
      have : ¬ lessAt less d a i = false := fun h => hc ⟨hle, h⟩
      rw [lessAt_eq hp hx] at this
      simpa using this

theorem scanGreater_spec (d : List α) (a i : Nat) (p : α) (hp : d[a]? = some p)
    (hi : 0 < i) :
    ∀ (fuel j : Nat), j + 1 - i ≤ fuel → i ≤ j + 1 →
      scanGreater less d a i fuel j ≤ j ∧ i ≤ scanGreater less d a i fuel j + 1 ∧
      (∀ k, scanGreater less d a i fuel j < k → k ≤ j →
        ∀ x, d[k]? = some x → less p x = true) ∧
      (i ≤ scanGreater less d a i fuel j →
        ∀ x, d[scanGreater less d a i fuel j]? = some x → less p x = false) := by
  intro fuel
  induction fuel with
  | zero =>
    intro j hf hij
    simp only [scanGreater]
    exact ⟨Nat.le_refl _, hij, fun k h1 h2 => by omega, fun h => by omega⟩
  | succ fuel ih =>
    intro j hf hij
    unfold scanGreater
    by_cases hc : i ≤ j ∧ lessAt less d a j = true
    · rw [if_pos hc]
      obtain ⟨h1, h2, h3, h4⟩ := ih (j - 1) (by omega) (by omega)
      refine ⟨by omega, h2, ?_, h4⟩
      intro k hk1 hk2 x hx
      by_cases e : k = j
      · subst e
        have := hc.2
        rwa [lessAt_eq hp hx] at this
      · exact h3 k hk1 (by omega) x hx
    · rw [if_neg hc]
      refine ⟨Nat.le_refl _, hij, fun k h1 h2 => by omega, ?_⟩
      intro hle x hx
      have : ¬ lessAt less d a j = true := fun h => hc ⟨hle, h⟩
      rw [lessAt_eq hp hx] at this
      simpa using this

theorem partitionEqualLoop_spec (a b : Nat) (p : α) : ∀ (fuel i j : Nat) (d : List α),
    j + 1 - i ≤ fuel → a < i → i ≤ j + 1 → j < b → b ≤ d.length → d[a]? = some p →
    AllAt (fun x => less p x = false) d (a + 1) i →
    AllAt (fun x => less p x = true) d (j + 1) b →
    Within (a + 1) b d (partitionEqualLoop less a b fuel i j d).1 ∧
      a < (partitionEqualLoop less a b fuel i j d).2 ∧
      (partitionEqualLoop less a b fuel i j d).2 ≤ b ∧
      AllAt (fun x => less p x = false) (partitionEqualLoop less a b fuel i j d).1 (a + 1)
        (partitionEqualLoop less a b fuel i j d).2 ∧
      AllAt (fun x => less p x = true) (partitionEqualLoop less a b fuel i j d).1
        (partitionEqualLoop less a b fuel i j d).2 b := by
  intro fuel
  induction fuel with
  | zero =>
    intro i j d hf hai hij hjb hb hp hL hR
    simp only [partitionEqualLoop]
    have : i = j + 1 := by omega
    subst this
    exact ⟨Within.refl _ _ _, hai, by omega, hL, hR⟩
  | succ fuel ih =>
    intro i j d hf hai hij hjb hb hp hL hR
    unfold partitionEqualLoop
    simp only
    obtain ⟨s1, s2, s3, s4⟩ := scanNotGreater_spec less d a j p hp b i (by omega) hij
    generalize scanNotGreater less d a j b i = i' at *
    obtain ⟨t1, t2, t3, t4⟩ := scanGreater_spec less d a i' p hp (by omega) b j
      (by omega) s2
    generalize scanGreater less d a i' b j = j' at *
    have hL' : AllAt (fun x => less p x = false) d (a + 1) i' := by
      intro k h1 h2 x hx
      by_cases hk : k < i
      · exact hL k h1 hk x hx
      · exact s3 k (by omega) h2 x hx
    have hR' : AllAt (fun x => less p x = true) d (j' + 1) b := by
      intro k h1 h2 x hx
      by_cases hk : j < k
      · exact hR k (by omega) h2 x hx
      · exact t3 k (by omega) (by omega) x hx
    by_cases hc : j' < i'
    · rw [if_pos hc]
      have : i' = j' + 1 := by omega
      subst this
      exact ⟨Within.refl _ _ _, by omega, by omega, hL', hR'⟩
    · rw [if_neg hc]
      have hi'l : i' < d.length := by omega
      have hj'l : j' < d.length := by omega
      have hxi : less p d[i'] = true := s4 (by omega) _ (List.getElem?_eq_getElem hi'l)
      have hxj : less p d[j'] = false := t4 (by omega) _ (List.getElem?_eq_getElem hj'l)
      have hne : i' ≠ j' := by
        intro e
        subst e
        rw [hxi] at hxj
        exact Bool.false_ne_true hxj.symm
      have hg : ∀ k, (swapAt d i' j')[k]? =
          if k = j' then d[i']? else if k = i' then d[j']? else d[k]? :=
        fun k => swapAt_getElem? d i' j' k hi'l hj'l
      have hw : Within (a + 1) b d (swapAt d i' j') :=
        within_swapAt (a + 1) b d i' j' ⟨by omega, by omega⟩ ⟨by omega, by omega⟩
      have := ih (i' + 1) (j' - 1) (swapAt d i' j') (by omega) (by omega) (by omega)
        (by omega) (by rw [swapAt_length]; exact hb)
        (by rw [hg, if_neg (by omega), if_neg (by omega)]; exact hp)
        (by
          intro k h1 h2 x hx
          rw [hg, if_neg (by omega)] at hx
          by_cases e : k = i'
          · rw [if_pos e, List.getElem?_eq_getElem hj'l] at hx
            exact (Option.some.inj hx) ▸ hxj
          · rw [if_neg e] at hx
            exact hL' k h1 (by omega) x hx)
        (by
          intro k h1 h2 x hx
          rw [hg] at hx
          by_cases e : k = j'
          · rw [if_pos e, List.getElem?_eq_getElem hi'l] at hx
            exact (Option.some.inj hx) ▸ hxi
          · rw [if_neg e, if_neg (by omega)] at hx
            exact hR' k (by omega) h2 x hx)
      exact ⟨hw.trans this.1, this.2⟩

theorem partitionEqual_func_spec (d : List α) (a b pivot : Nat) (hab : a < b)
    (hb : b ≤ d.length) (hpa : a ≤ pivot) (hpb : pivot < b) :
    Within a b d (partitionEqual_func less d a b pivot).1 ∧
      a < (partitionEqual_func less d a b pivot).2 ∧
      (partitionEqual_func less d a b pivot).2 ≤ b ∧
      ∃ p, d[pivot]? = some p ∧ (partitionEqual_func less d a b pivot).1[a]? = some p ∧
        AllAt (fun x => less p x = false) (partitionEqual_func less d a b pivot).1 (a + 1)
          (partitionEqual_func less d a b pivot).2 ∧
        AllAt (fun x => less p x = true) (partitionEqual_func less d a b pivot).1
          (partitionEqual_func less d a b pivot).2 b := by
  unfold partitionEqual_func
  have hw1 : Within a b d (swapAt d a pivot) :=
    within_swapAt a b d a pivot ⟨Nat.le_refl _, hab⟩ ⟨hpa, hpb⟩
  have hl1 : b ≤ (swapAt d a pivot).length := by rw [swapAt_length]; exact hb
  have hpv : (swapAt d a pivot)[a]? = d[pivot]? := by
    rw [swapAt_getElem? d a pivot a (by omega) (by omega)]
    by_cases e : a = pivot
    · rw [if_pos e, e]
    · rw [if_neg e, if_pos rfl]
  have hp : d[pivot]? = some d[pivot] := List.getElem?_eq_getElem (by omega)
  rw [hp] at hpv
  obtain ⟨l1, l2, l3, l4, l5⟩ := partitionEqualLoop_spec less a b d[pivot] b (a + 1) (b - 1)
    (swapAt d a pivot) (by omega) (by omega) (by omega) (by omega) hl1 hpv
    (fun k h1 h2 => by omega) (fun k h1 h2 => by omega)
  refine ⟨hw1.trans (l1.mono (by omega) (Nat.le_refl _)), l2, l3, _, hp, ?_, l4, l5⟩
  rw [l1.2.1 a (Or.inl (by omega))]
  exact hpv


theorem siftDown_func_spec (hi first lo : Nat) : ∀ (fuel r : Nat) (d : List α),
    TransitiveOrdering less d → first + hi ≤ d.length → hi - r ≤ fuel → lo ≤ r →
    (∀ n, lo ≤ n → n < hi → n ≠ r → OkNode less d first hi n) →
    (∀ n c, lo ≤ n → (r = 2 * n + 1 ∨ r = 2 * n + 2) → (c = 2 * r + 1 ∨ c = 2 * r + 2) →
      c < hi → ∀ x y, d[first + n]? = some x → d[first + c]? = some y → less x y = false) →
    Within first (first + hi) d (siftDown_func less hi first fuel r d) ∧
      ∀ n, lo ≤ n → n < hi → OkNode less (siftDown_func less hi first fuel r d) first hi n := by
  intro fuel
  induction fuel with
  | zero =>
    intro r d ho hl hf hlo hA hB
    simp only [siftDown_func]
    refine ⟨Within.refl _ _ _, ?_⟩
    intro n h1 h2
    exact hA n h1 h2 (by omega)
  | succ fuel ih =>
    intro r d ho hl hf hlo hA hB
    unfold siftDown_func
    simp only
    by_cases hc : hi ≤ 2 * r + 1
    · rw [if_pos hc]
      refine ⟨Within.refl _ _ _, ?_⟩
      intro n h1 h2
      by_cases e : n = r
      · subst e
        intro c hcc hch
        omega
      · exact hA n h1 h2 e
    · rw [if_neg hc]
      have hrl : first + r < d.length := by omega
      -- the chosen child is not less than the other one
      have hch : ∀ c', c' = (if 2 * r + 1 + 1 < hi ∧
            lessAt less d (first + (2 * r + 1)) (first + (2 * r + 1) + 1) = true
          then 2 * r + 1 + 1 else 2 * r + 1) →
          (c' = 2 * r + 1 ∨ c' = 2 * r + 2) ∧ c' < hi ∧
          ∀ o, (o = 2 * r + 1 ∨ o = 2 * r + 2) → o < hi →
            ∀ x y, d[first + c']? = some x → d[first + o]? = some y → less x y = false := by
        intro c' hc'
        by_cases h2 : 2 * r + 1 + 1 < hi ∧
            lessAt less d (first + (2 * r + 1)) (first + (2 * r + 1) + 1) = true
        · rw [if_pos h2] at hc'
          subst hc'
          refine ⟨Or.inr rfl, h2.1, ?_⟩
          intro o ho1 ho2 x y hx hy
          rcases ho1 with rfl | rfl
          · have := h2.2
            have hx' : d[first + (2 * r + 1) + 1]? = some x := by
              rw [show first + (2 * r + 1) + 1 = first + (2 * r + 1 + 1) by omega]; exact hx
            rw [lessAt_eq hy hx'] at this
            exact ho.asymm (mem_of_getElem? hy) (mem_of_getElem? hx) this
          · rw [hx] at hy
            rw [← Option.some.inj hy]
            exact ho.1 x (mem_of_getElem? hx)
        · rw [if_neg h2] at hc'
          subst hc'
          refine ⟨Or.inl rfl, by omega, ?_⟩
          intro o ho1 ho2 x y hx hy
          rcases ho1 with rfl | rfl
          · rw [hx] at hy
            rw [← Option.some.inj hy]
            exact ho.1 x (mem_of_getElem? hx)
          · have : ¬ lessAt less d (first + (2 * r + 1)) (first + (2 * r + 1) + 1) = true :=
              fun h => h2 ⟨by omega, h⟩
            have hy' : d[first + (2 * r + 1) + 1]? = some y := by
              rw [show first + (2 * r + 1) + 1 = first + (2 * r + 2) by omega]; exact hy
            rw [lessAt_eq hx hy'] at this
            simpa using this
      generalize (if 2 * r + 1 + 1 < hi ∧
            lessAt less d (first + (2 * r + 1)) (first + (2 * r + 1) + 1) = true
          then 2 * r + 1 + 1 else 2 * r + 1) = c' at hch ⊢
      obtain ⟨hc1, hc2, hc3⟩ := hch c' rfl
      have hcl : first + c' < d.length := by omega
      have hxr : d[first + r]? = some d[first + r] := List.getElem?_eq_getElem hrl
      have hxc : d[first + c']? = some d[first + c'] := List.getElem?_eq_getElem hcl
      by_cases hs : lessAt less d (first + r) (first + c') = false
      · rw [if_pos hs]
        refine ⟨Within.refl _ _ _, ?_⟩
        intro n h1 h2
        by_cases e : n = r
        · subst e
          intro o ho1 ho2 x y hx hy
          rw [lessAt_eq hx hxc] at hs
          exact ho.2.2 x (mem_of_getElem? hx) _ (mem_of_getElem? hxc) y (mem_of_getElem? hy)
            hs (hc3 o ho1 ho2 _ y hxc hy)
        · exact hA n h1 h2 e
      · rw [if_neg hs]
        have hlt : less d[first + r] d[first + c'] = true := by
          rw [lessAt_eq hxr hxc] at hs
          simpa using hs
        have hg : ∀ k, (swapAt d (first + r) (first + c'))[k]? =
            if k = first + c' then d[first + r]? else if k = first + r then d[first + c']?
            else d[k]? :=
          fun k => swapAt_getElem? d (first + r) (first + c') k hrl hcl
        have hw : Within first (first + hi) d (swapAt d (first + r) (first + c')) :=
          within_swapAt first (first + hi) d (first + r) (first + c') ⟨by omega, by omega⟩
            ⟨by omega, by omega⟩
        have ho' := ho.of_perm (swapAt_perm d (first + r) (first + c'))
        have := ih c' (swapAt d (first + r) (first + c')) ho'
          (by rw [swapAt_length]; exact hl) (by omega) (by omega)
          (by
            intro n h1 h2 hne o ho1 ho2 x y hx hy
            rw [hg] at hx hy
            rw [if_neg (by omega)] at hx
            by_cases e : n = r
            · subst e
              rw [if_pos rfl] at hx
              by_cases e2 : o = c'
              · subst e2
                rw [if_pos rfl] at hy
                rw [hxc] at hx; rw [hxr] at hy
                rw [← Option.some.inj hx, ← Option.some.inj hy]
                exact ho.asymm (mem_of_getElem? hxr) (mem_of_getElem? hxc) hlt
              · rw [if_neg (by omega), if_neg (by omega)] at hy
                exact hc3 o ho1 ho2 x y hx hy
            · rw [if_neg (by omega)] at hx
              by_cases e2 : o = r
              · subst e2
                rw [if_neg (by omega), if_pos rfl] at hy
                exact hB n c' h1 (by omega) hc1 hc2 x y hx hy
              · rw [if_neg (by omega), if_neg (by omega)] at hy
                exact hA n h1 h2 e o ho1 ho2 x y hx hy)
          (by
            intro n c h1 hn hcc hclt x y hx hy
            have e : n = r := by omega
            subst e
            rw [hg] at hx hy
            rw [if_neg (by omega), if_pos rfl] at hx
            rw [if_neg (by omega), if_neg (by omega)] at hy
            exact hA c' (by omega) hc2 (by omega) c hcc hclt x y hx hy)
        exact ⟨hw.trans this.1, this.2⟩


theorem heap_build (hi first : Nat) : ∀ (k : Nat) (d : List α),
    TransitiveOrdering less d → first + hi ≤ d.length →
    (∀ n, k ≤ n → n < hi → OkNode less d first hi n) →
    Within first (first + hi) d
        ((List.range k).reverse.foldl (fun d i => siftDown_func less hi first hi i d) d) ∧
      ∀ n, n < hi → OkNode less
        ((List.range k).reverse.foldl (fun d i => siftDown_func less hi first hi i d) d)
        first hi n := by
  intro k
  induction k with
  | zero =>
    intro d _ _ h
    exact ⟨Within.refl _ _ _, fun n hn => h n (Nat.zero_le _) hn⟩
  | succ k ih =>
    intro d ho hl h
    rw [List.range_succ, List.reverse_append, List.reverse_singleton, List.singleton_append,
      List.foldl_cons]
    obtain ⟨w1, h1⟩ := siftDown_func_spec less hi first k hi k d ho hl (by omega)
      (Nat.le_refl _) (fun n hn1 hn2 hn3 => h n (by omega) hn2)
      (fun n c hn1 hn2 => by omega)
    have ho' := ho.of_perm (siftDown_func_perm less hi first hi k d)
    obtain ⟨w2, h2⟩ := ih (siftDown_func less hi first hi k d) ho'
      (by rw [w1.1]; exact hl) h1
    exact ⟨w1.trans w2, h2⟩

theorem heap_root_max (d : List α) (ho : TransitiveOrdering less d) (hi first : Nat)
    (hl : first + hi ≤ d.length) (h : ∀ n, n < hi → OkNode less d first hi n) :
    ∀ n, n < hi → ∀ x y, d[first]? = some x → d[first + n]? = some y → less x y = false := by
  intro n
  induction n using Nat.strong_induction_on with
  | _ n ih =>
    intro hn x y hx hy
    by_cases h0 : n = 0
    · subst h0
      rw [Nat.add_zero, hx] at hy
      rw [← Option.some.inj hy]
      exact ho.1 x (mem_of_getElem? hx)
    · have hpl : first + (n - 1) / 2 < d.length := by omega
      have hz : d[first + (n - 1) / 2]? = some d[first + (n - 1) / 2] :=
        List.getElem?_eq_getElem hpl
      have h1 := ih ((n - 1) / 2) (by omega) (by omega) x _ hx hz
      have h2 := h ((n - 1) / 2) (by omega) n (by omega) hn _ y hz hy
      exact ho.2.2 x (mem_of_getElem? hx) _ (mem_of_getElem? hz) y (mem_of_getElem? hy) h1 h2

theorem heap_extract (hi first : Nat) : ∀ (k : Nat) (d : List α),
    TransitiveOrdering less d → first + hi ≤ d.length → k ≤ hi →
    (∀ n, n < k → OkNode less d first k n) →
    SortedOn less d (first + k) (first + hi) →
    (∀ i j, first ≤ i → i < first + k → first + k ≤ j → j < first + hi →
      ∀ x y, d[i]? = some x → d[j]? = some y → less y x = false) →
    Within first (first + hi) d ((List.range k).reverse.foldl
        (fun d i => siftDown_func less i first hi 0 (swapAt d first (first + i))) d) ∧
      SortedOn less ((List.range k).reverse.foldl
        (fun d i => siftDown_func less i first hi 0 (swapAt d first (first + i))) d)
        first (first + hi) := by
  intro k
  induction k with
  | zero =>
    intro d _ _ _ _ hT _
    exact ⟨Within.refl _ _ _, hT⟩
  | succ k ih =>
    intro d ho hl hk hH hT hB
    rw [List.range_succ, List.reverse_append, List.reverse_singleton, List.singleton_append,
      List.foldl_cons]
    have hmax := heap_root_max less d ho (k + 1) first (by omega) hH
    have hfl : first < d.length := by omega
    have hkl : first + k < d.length := by omega
    have hg : ∀ i, (swapAt d first (first + k))[i]? =
        if i = first + k then d[first]? else if i = first then d[first + k]? else d[i]? :=
      fun i => swapAt_getElem? d first (first + k) i hfl hkl
    have hw1 : Within first (first + hi) d (swapAt d first (first + k)) :=
      within_swapAt first (first + hi) d first (first + k) ⟨Nat.le_refl _, by omega⟩
        ⟨by omega, by omega⟩
    have ho1 := ho.of_perm (swapAt_perm d first (first + k))
    obtain ⟨w2, h2⟩ := siftDown_func_spec less k first 0 hi 0 (swapAt d first (first + k)) ho1
      (by rw [swapAt_length]; omega) (by omega) (Nat.le_refl _)
      (by
        intro n _ hn2 hn3 c hc1 hc2 x y hx hy
        rw [hg, if_neg (by omega), if_neg (by omega)] at hx hy
        exact hH n (by omega) c hc1 (by omega) x y hx hy)
      (fun n c _ hn2 => by omega)
    have ho2 := ho1.of_perm (siftDown_func_perm less k first hi 0 _)
    generalize siftDown_func less k first hi 0 (swapAt d first (first + k)) = d2 at *
    -- an element of the heap of `d2` is an element of the heap of `d`
    have hfrom : ∀ i, first ≤ i → i < first + k → ∀ x, d2[i]? = some x →
        ∃ i', first ≤ i' ∧ i' < first + (k + 1) ∧ d[i']? = some x := by
      intro i hi1 hi2 x hx
      obtain ⟨i', h1, h2, e⟩ := w2.2.2 i hi1 hi2
      rw [e, hg, if_neg (by omega)] at hx
      by_cases e1 : i' = first
      · rw [if_pos e1] at hx
        exact ⟨first + k, by omega, by omega, hx⟩
      · rw [if_neg e1] at hx
        exact ⟨i', h1, by omega, hx⟩
    have htail : ∀ j, first + k ≤ j → d2[j]? =
        if j = first + k then d[first]? else d[j]? := by
      intro j hj
      rw [w2.2.1 j (Or.inr hj), hg]
      by_cases e : j = first + k
      · rw [if_pos e, if_pos e]
      · rw [if_neg e, if_neg e, if_neg (by omega)]
    obtain ⟨w3, h3⟩ := ih d2 ho2 (by rw [w2.1, swapAt_length]; exact hl) (by omega)
      (fun n hn => h2 n (Nat.zero_le _) hn)
      (by
        intro i j hi1 hij hj x y hx hy
        rw [htail i hi1] at hx
        rw [htail j (by omega), if_neg (by omega)] at hy
        by_cases e : i = first + k
        · rw [if_pos e] at hx
          exact hB first j (Nat.le_refl _) (by omega) (by omega) hj x y hx hy
        · rw [if_neg e] at hx
          exact hT i j (by omega) hij hj x y hx hy)
      (by
        intro i j hi1 hi2 hj1 hj2 x y hx hy
        obtain ⟨i', h1, h2', hx'⟩ := hfrom i hi1 hi2 x hx
        rw [htail j hj1] at hy
        by_cases e : j = first + k
        · rw [if_pos e] at hy
          have := hmax (i' - first) (by omega) y x hy
            (by rw [show first + (i' - first) = i' by omega]; exact hx')
          exact this
        · rw [if_neg e] at hy
          exact hB i' j h1 h2' (by omega) hj2 x y hx' hy)
    exact ⟨hw1.trans ((w2.mono (Nat.le_refl _) (by omega)).trans w3), h3⟩

theorem heapSort_func_sorted {d : List α} (ho : TransitiveOrdering less d) (a b : Nat)
    (hab : a ≤ b) (hb : b ≤ d.length) :
    Within a b d (heapSort_func less d a b) ∧ SortedOn less (heapSort_func less d a b) a b := by
  unfold heapSort_func
  simp only
  have hl : a + (b - a) ≤ d.length := by omega
  obtain ⟨w1, h1⟩ := heap_build less (b - a) a ((b - a - 1) / 2 + 1) d ho hl
    (fun n hn1 hn2 c hc1 hc2 => by omega)
  have ho1 := ho.of_perm (foldl_perm _
    (fun d i => siftDown_func_perm less (b - a) a (b - a) i d)
    (List.range ((b - a - 1) / 2 + 1)).reverse d)
  generalize (List.range ((b - a - 1) / 2 + 1)).reverse.foldl
    (fun d i => siftDown_func less (b - a) a (b - a) i d) d = d1 at *
  obtain ⟨w2, h2⟩ := heap_extract less (b - a) a (b - a) d1 ho1 (by rw [w1.1]; exact hl)
    (Nat.le_refl _) h1 (fun i j hi hij hj => by omega)
    (fun i j hi1 hi2 hj1 hj2 => by omega)
  rw [show a + (b - a) = b by omega] at w1 w2 h2
  exact ⟨w1.trans w2, h2⟩


theorem bitLenAux_le (fuel : Nat) : ∀ n, 0 < n → n ≤ fuel → 2 ^ bitLenAux fuel n ≤ 2 * n := by
  induction fuel with
  | zero => intro n h1 h2; omega
  | succ fuel ih =>
    intro n h1 h2
    unfold bitLenAux
    rw [if_neg (by omega)]
    by_cases h : n / 2 = 0
    · have : bitLenAux fuel (n / 2) = 0 := by
        rw [h]
        cases fuel <;> simp [bitLenAux]
      rw [this]
      omega
    · have := ih (n / 2) (by omega) (by omega)
      rw [Nat.pow_succ]
      omega

theorem nextPowerOfTwo_le (n : Nat) (h : 0 < n) : nextPowerOfTwo n ≤ 2 * n := by
  unfold nextPowerOfTwo bitLen
  rw [Nat.one_shiftLeft]
  exact bitLenAux_le n n h (Nat.le_refl _)

theorem nextPowerOfTwo_pos (n : Nat) : 0 < nextPowerOfTwo n := by
  unfold nextPowerOfTwo
  rw [Nat.one_shiftLeft]
  exact Nat.pos_pow_of_pos _ (by omega)

theorem breakPatterns_other_lt (random length : Nat) (h : 0 < length) :
    (if length ≤ random &&& (nextPowerOfTwo length - 1)
      then (random &&& (nextPowerOfTwo length - 1)) - length
      else random &&& (nextPowerOfTwo length - 1)) < length := by
  have h1 : random &&& (nextPowerOfTwo length - 1) ≤ nextPowerOfTwo length - 1 :=
    Nat.and_le_right
  have h2 := nextPowerOfTwo_le length h
  have h3 := nextPowerOfTwo_pos length
  split <;> omega

theorem breakPatterns_func_within (d : List α) (a b : Nat) :
    Within a b d (breakPatterns_func d a b) := by
  unfold breakPatterns_func
  simp only
  split
  · rename_i h
    have hr : List.range 3 = [0, 1, 2] := by decide
    rw [hr]
    simp only [List.foldl_cons, List.foldl_nil]
    have hpos : 0 < b - a := by omega
    refine Within.trans (Within.trans
      (within_swapAt a b d _ _ ⟨?_, ?_⟩ ⟨?_, ?_⟩)
      (within_swapAt a b _ _ _ ⟨?_, ?_⟩ ⟨?_, ?_⟩))
      (within_swapAt a b _ _ _ ⟨?_, ?_⟩ ⟨?_, ?_⟩)
    all_goals first
      | omega
      | (have hlt := breakPatterns_other_lt (xorshiftNext (b - a)) (b - a) hpos; omega)
      | (have hlt := breakPatterns_other_lt (xorshiftNext (xorshiftNext (b - a))) (b - a) hpos
         omega)
      | (have hlt := breakPatterns_other_lt
           (xorshiftNext (xorshiftNext (xorshiftNext (b - a)))) (b - a) hpos
         omega)
  · exact Within.refl _ _ _

theorem order2_func_mem (d : List α) (a b s : Nat) :
    ((order2_func less d a b s).1 = a ∧ (order2_func less d a b s).2.1 = b) ∨
      ((order2_func less d a b s).1 = b ∧ (order2_func less d a b s).2.1 = a) := by
  unfold order2_func
  split
  · exact Or.inr ⟨rfl, rfl⟩
  · exact Or.inl ⟨rfl, rfl⟩

theorem median_func_mem (d : List α) (a b c s : Nat) :
    (median_func less d a b c s).1 = a ∨ (median_func less d a b c s).1 = b ∨
      (median_func less d a b c s).1 = c := by
  unfold median_func
  simp only
  have h1 := order2_func_mem less d a b s
  generalize order2_func less d a b s = r1 at *
  obtain ⟨x1, y1, s1⟩ := r1
  simp only at h1 ⊢
  have h2 := order2_func_mem less d y1 c s1
  generalize order2_func less d y1 c s1 = r2 at *
  obtain ⟨x2, y2, s2⟩ := r2
  simp only at h2 ⊢
  have h3 := order2_func_mem less d x1 x2 s2
  generalize order2_func less d x1 x2 s2 = r3 at *
  obtain ⟨x3, y3, s3⟩ := r3
  simp only at h3 ⊢
  omega

theorem choosePivot_func_bounds (d : List α) (a b : Nat) (h : a < b) :
    a ≤ (choosePivot_func less d a b).1 ∧ (choosePivot_func less d a b).1 < b := by
  unfold choosePivot_func choosePivotIndex
  simp only
  by_cases h8 : 8 ≤ b - a
  · by_cases h50 : 50 ≤ b - a
    · simp only [if_pos h8, if_pos h50, medianAdjacent_func]
      have m1 := median_func_mem less d (a + (b - a) / 4 * 1 - 1) (a + (b - a) / 4 * 1)
        (a + (b - a) / 4 * 1 + 1) 0
      generalize median_func less d (a + (b - a) / 4 * 1 - 1) (a + (b - a) / 4 * 1)
        (a + (b - a) / 4 * 1 + 1) 0 = r1 at *
      have m2 := median_func_mem less d (a + (b - a) / 4 * 2 - 1) (a + (b - a) / 4 * 2)
        (a + (b - a) / 4 * 2 + 1) r1.2
      generalize median_func less d (a + (b - a) / 4 * 2 - 1) (a + (b - a) / 4 * 2)
        (a + (b - a) / 4 * 2 + 1) r1.2 = r2 at *
      have m3 := median_func_mem less d (a + (b - a) / 4 * 3 - 1) (a + (b - a) / 4 * 3)
        (a + (b - a) / 4 * 3 + 1) r2.2
      generalize median_func less d (a + (b - a) / 4 * 3 - 1) (a + (b - a) / 4 * 3)
        (a + (b - a) / 4 * 3 + 1) r2.2 = r3 at *
      have m4 := median_func_mem less d r1.1 r2.1 r3.1 r3.2
      omega
    · simp only [if_pos h8, if_neg h50]
      have m4 := median_func_mem less d (a + (b - a) / 4 * 1) (a + (b - a) / 4 * 2)
        (a + (b - a) / 4 * 3) 0
      omega
  · simp only [if_neg h8]
    omega

theorem reverseRangeLoop_within (a b : Nat) : ∀ (fuel i j : Nat) (d : List α),
    a ≤ i → j < b → Within a b d (reverseRangeLoop fuel i j d) := by
  intro fuel
  induction fuel with
  | zero => intro i j d _ _; exact Within.refl _ _ _
  | succ fuel ih =>
    intro i j d hi hj
    unfold reverseRangeLoop
    split
    · exact (within_swapAt a b d i j ⟨hi, by omega⟩ ⟨by omega, hj⟩).trans
        (ih _ _ _ (by omega) (by omega))
    · exact Within.refl _ _ _

theorem reverseRange_func_within (d : List α) (a b : Nat) :
    Within a b d (reverseRange_func d a b) := by
  unfold reverseRange_func
  split
  · exact Within.refl _ _ _
  · exact reverseRangeLoop_within a b _ _ _ _ (Nat.le_refl _) (by omega)


theorem PredLE.preserved {d d' : List α} {a b : Nat} (h : PredLE less d a b)
    (hw : Within a b d d') : PredLE less d' a b := by
  rcases h with h | ⟨y, hy, hall⟩
  · exact Or.inl h
  · by_cases h0 : a = 0
    · exact Or.inl h0
    · exact Or.inr ⟨y, by rw [hw.2.1 (a - 1) (Or.inl (by omega))]; exact hy, hall.transport hw⟩

theorem SortedOn.outside {d d' : List α} {a i lo b : Nat} (h : SortedOn less d a i)
    (hw : Within lo b d d') (hlo : i ≤ lo ∨ b ≤ a) : SortedOn less d' a i := by
  intro k l hk hkl hl x y hx hy
  rw [hw.2.1 k (by omega)] at hx
  rw [hw.2.1 l (by omega)] at hy
  exact h k l hk hkl hl x y hx hy

theorem shiftLeft_eq_insertionInner (a b : Nat) : ∀ (j : Nat) (d : List α),
    PredLE less d a b → a ≤ j → j < b → b ≤ d.length →
    shiftLeft less j d = insertionInner less a j d := by
  intro j
  induction j with
  | zero => intro d _ _ _ _; rfl
  | succ j ih =>
    intro d hP haj hjb hb
    have e1 : shiftLeft less (j + 1) d = if lessAt less d (j + 1) j = false then d
        else shiftLeft less j (swapAt d (j + 1) j) := by rw [shiftLeft]
    have e2 : insertionInner less a (j + 1) d =
        if a < j + 1 ∧ lessAt less d (j + 1) j = true then
          insertionInner less a j (swapAt d (j + 1) j) else d := by rw [insertionInner]
    rw [e1, e2]
    by_cases ha : a < j + 1
    · by_cases hl : lessAt less d (j + 1) j = true
      · simp only [hl, ha, and_self, if_true, Bool.true_eq_false, if_false]
        exact ih _ (hP.preserved less (within_swapAt a b d (j + 1) j ⟨by omega, hjb⟩
          ⟨by omega, by omega⟩)) (by omega) (by omega) (by rw [swapAt_length]; exact hb)
      · have hl' : lessAt less d (j + 1) j = false := by simpa using hl
        simp only [hl', if_true, Bool.false_eq_true, and_false, if_false]
    · have ha' : a = j + 1 := by omega
      rcases hP with h0 | ⟨y, hy, hall⟩
      · omega
      · have hx : d[j + 1]? = some d[j + 1] := List.getElem?_eq_getElem (by omega)
        have hy' : d[j]? = some y := by
          rw [show j = a - 1 by omega]; exact hy
        have hnl : less d[j + 1] y = false := hall (j + 1) (by omega) hjb _ hx
        have hl' : lessAt less d (j + 1) j = false := by rw [lessAt_eq hx hy']; exact hnl
        simp only [hl', if_true, Bool.false_eq_true, and_false, if_false]

theorem shiftRight_within (lo b : Nat) : ∀ (fuel j : Nat) (d : List α),
    lo + 1 ≤ j → Within lo b d (shiftRight less b fuel j d) := by
  intro fuel
  induction fuel with
  | zero => intro j d _; exact Within.refl _ _ _
  | succ fuel ih =>
    intro j d hj
    unfold shiftRight
    split
    · split
      · exact Within.refl _ _ _
      · exact (within_swapAt lo b d j (j - 1) ⟨by omega, by omega⟩
          ⟨by omega, by omega⟩).trans (ih _ _ (by omega))
    · exact Within.refl _ _ _

theorem scanSorted_spec (d : List α) (ho : TransitiveOrdering less d) (a b : Nat)
    (hb : b ≤ d.length) : ∀ (fuel i : Nat), a < i → i ≤ b → b - i ≤ fuel →
    SortedOn less d a i →
    i ≤ scanSorted less d b fuel i ∧ scanSorted less d b fuel i ≤ b ∧
      SortedOn less d a (scanSorted less d b fuel i) ∧
      (scanSorted less d b fuel i < b →
        lessAt less d (scanSorted less d b fuel i) (scanSorted less d b fuel i - 1) = true) := by
  intro fuel
  induction fuel with
  | zero =>
    intro i hai hib hf hs
    simp only [scanSorted]
    exact ⟨Nat.le_refl _, hib, hs, fun h => by omega⟩
  | succ fuel ih =>
    intro i hai hib hf hs
    unfold scanSorted
    by_cases hc : i < b ∧ lessAt less d i (i - 1) = false
    · rw [if_pos hc]
      have hxi : d[i]? = some d[i] := List.getElem?_eq_getElem (by omega)
      have hxp : d[i - 1]? = some d[i - 1] := List.getElem?_eq_getElem (by omega)
      have hnl : less d[i] d[i - 1] = false := by
        have := hc.2
        rwa [lessAt_eq hxi hxp] at this
      have hs' : SortedOn less d a (i + 1) := by
        intro k l hk hkl hl x y hx hy
        by_cases e : l = i
        · subst e
          rw [hxi] at hy
          rw [← Option.some.inj hy]
          by_cases e2 : k = l - 1
          · subst e2
            rw [hxp] at hx
            rw [← Option.some.inj hx]
            exact hnl
          · have := hs k (l - 1) hk (by omega) (by omega) x _ hx hxp
            exact ho.2.2 _ (mem_of_getElem? hxi) _ (mem_of_getElem? hxp) x
              (mem_of_getElem? hx) hnl this
        · exact hs k l hk hkl (by omega) x y hx hy
      obtain ⟨h1, h2, h3, h4⟩ := ih (i + 1) (by omega) (by omega) (by omega) hs'
      exact ⟨by omega, h2, h3, h4⟩
    · rw [if_neg hc]
      refine ⟨Nat.le_refl _, hib, hs, ?_⟩
      intro hlt
      have : ¬ lessAt less d i (i - 1) = false := fun h => hc ⟨hlt, h⟩
      simpa using this

theorem partialInsertionLoop_spec (a b : Nat) : ∀ (steps i : Nat) (d : List α),
    TransitiveOrdering less d → a < i → i ≤ b → b ≤ d.length → PredLE less d a b →
    SortedOn less d a i →
    Within a b d (partialInsertionLoop less a b steps i d).1 ∧
      ((partialInsertionLoop less a b steps i d).2 = true →
        SortedOn less (partialInsertionLoop less a b steps i d).1 a b) := by
  intro steps
  induction steps with
  | zero =>
    intro i d _ _ _ _ _ _
    exact ⟨Within.refl _ _ _, fun h => by simp [partialInsertionLoop] at h⟩
  | succ steps ih =>
    intro i d ho hai hib hb hP hs
    unfold partialInsertionLoop
    simp only
    obtain ⟨s1, s2, s3, s4⟩ := scanSorted_spec less d ho a b hb b i hai hib (by omega) hs
    generalize scanSorted less d b b i = i' at *
    by_cases he : i' = b
    · rw [if_pos he]
      exact ⟨Within.refl _ _ _, fun _ => he ▸ s3⟩
    · rw [if_neg he]
      by_cases h50 : b - a < 50
      · rw [if_pos h50]
        exact ⟨Within.refl _ _ _, fun h => by simp at h⟩
      · rw [if_neg h50]
        have hw1 : Within a b d (swapAt d i' (i' - 1)) :=
          within_swapAt a b d i' (i' - 1) ⟨by omega, by omega⟩ ⟨by omega, by omega⟩
        have ho1 := ho.of_perm (swapAt_perm d i' (i' - 1))
        have hP1 := hP.preserved less hw1
        have hl1 : b ≤ (swapAt d i' (i' - 1)).length := by rw [swapAt_length]; exact hb
        have hs1 : SortedOn less (swapAt d i' (i' - 1)) a (i' - 1) :=
          SortedOn.outside less (fun k l hk hkl hl => s3 k l hk hkl (by omega))
            (within_swapAt (i' - 1) b d i' (i' - 1) ⟨by omega, by omega⟩
              ⟨by omega, by omega⟩) (Or.inl (Nat.le_refl _))
        generalize swapAt d i' (i' - 1) = d1 at *
        have h2 : Within a b d1 (if 2 ≤ i' - a then shiftLeft less (i' - 1) d1 else d1) ∧
            SortedOn less (if 2 ≤ i' - a then shiftLeft less (i' - 1) d1 else d1) a i' := by
          by_cases h : 2 ≤ i' - a
          · rw [if_pos h, shiftLeft_eq_insertionInner less a b (i' - 1) d1 hP1 (by omega)
              (by omega) hl1]
            have := insertionInner_spec less a (i' - 1) (i' - 1) d1 ho1 (by omega) (by omega)
              (Nat.le_refl _)
              (fun k l hk hkl hl _ hne x y hx hy => hs1 k l hk hkl (by omega) x y hx hy)
              (fun k h1 h2 => by omega)
            rw [show i' - 1 + 1 = i' by omega] at this
            exact ⟨this.1.mono (Nat.le_refl _) (by omega), this.2⟩
          · rw [if_neg h]
            exact ⟨Within.refl _ _ _, fun k l hk hkl hl => by omega⟩
        have hp2 : (if 2 ≤ i' - a then shiftLeft less (i' - 1) d1 else d1).Perm d1 := by
          split
          · exact shiftLeft_perm _ _ _
          · exact List.Perm.refl _
        generalize (if 2 ≤ i' - a then shiftLeft less (i' - 1) d1 else d1) = d2 at *
        have h3 : Within i' b d2 (if 2 ≤ b - i' then shiftRight less b b (i' + 1) d2 else d2) := by
          split
          · exact shiftRight_within less i' b _ _ _ (by omega)
          · exact Within.refl _ _ _
        have hp3 : (if 2 ≤ b - i' then shiftRight less b b (i' + 1) d2 else d2).Perm d2 := by
          split
          · exact shiftRight_perm _ _ _ _ _
          · exact List.Perm.refl _
        generalize (if 2 ≤ b - i' then shiftRight less b b (i' + 1) d2 else d2) = d3 at *
        have hw3 : Within a b d1 d3 := h2.1.trans (h3.mono (by omega) (Nat.le_refl _))
        obtain ⟨r1, r2⟩ := ih i' d3 ((ho1.of_perm hp2).of_perm hp3) (by omega) s2
          (by rw [hw3.1]; exact hl1) (hP1.preserved less hw3)
          (SortedOn.outside less h2.2 h3 (Or.inl (Nat.le_refl _)))
        exact ⟨hw1.trans (hw3.trans r1), r2⟩

theorem partialInsertionSort_func_spec (d : List α) (ho : TransitiveOrdering less d)
    (a b : Nat) (hab : a < b) (hb : b ≤ d.length) (hP : PredLE less d a b) :
    Within a b d (partialInsertionSort_func less d a b).1 ∧
      ((partialInsertionSort_func less d a b).2 = true →
        SortedOn less (partialInsertionSort_func less d a b).1 a b) :=
  partialInsertionLoop_spec less a b 5 (a + 1) d ho (by omega) (by omega) hb hP
    (fun k l hk hkl hl => by omega)

theorem pdqsortPivot_spec (d : List α) (ho : TransitiveOrdering less d) (a b limit : Nat)
    (wasBalanced wasPartitioned : Bool) (hab : a < b) (hb : b ≤ d.length)
    (hP : PredLE less d a b) :
    Within a b d (pdqsortPivot less d a b limit wasBalanced wasPartitioned).1 ∧
      a ≤ (pdqsortPivot less d a b limit wasBalanced wasPartitioned).2.2.1 ∧
      (pdqsortPivot less d a b limit wasBalanced wasPartitioned).2.2.1 < b ∧
      ((pdqsortPivot less d a b limit wasBalanced wasPartitioned).2.2.2 = true →
        SortedOn less (pdqsortPivot less d a b limit wasBalanced wasPartitioned).1 a b) := by
  unfold pdqsortPivot
  simp only
  have hw1 : Within a b d (if wasBalanced = true then d else breakPatterns_func d a b) := by
    split
    · exact Within.refl _ _ _
    · exact breakPatterns_func_within d a b
  have hp1 : (if wasBalanced = true then d else breakPatterns_func d a b).Perm d := by
    split
    · exact List.Perm.refl _
    · exact breakPatterns_func_perm _ _ _
  generalize (if wasBalanced = true then d else breakPatterns_func d a b) = d1 at *
  have hpv := choosePivot_func_bounds less d1 a b hab
  generalize choosePivot_func less d1 a b = ph at *
  have hw2 : Within a b d1 (if ph.2 = SortedHint.decreasingHint then reverseRange_func d1 a b
      else d1) := by
    split
    · exact reverseRange_func_within d1 a b
    · exact Within.refl _ _ _
  have hp2 : (if ph.2 = SortedHint.decreasingHint then reverseRange_func d1 a b
      else d1).Perm d1 := by
    split
    · exact reverseRange_func_perm _ _ _
    · exact List.Perm.refl _
  generalize (if ph.2 = SortedHint.decreasingHint then reverseRange_func d1 a b else d1) = d2
    at *
  have hw12 := hw1.trans hw2
  have ho2 := (ho.of_perm hp1).of_perm hp2
  have hpiv : a ≤ (if ph.2 = SortedHint.decreasingHint then b - 1 - (ph.1 - a) else ph.1) ∧
      (if ph.2 = SortedHint.decreasingHint then b - 1 - (ph.1 - a) else ph.1) < b := by
    split <;> omega
  generalize (if ph.2 = SortedHint.decreasingHint then SortedHint.increasingHint else ph.2) =
    hint
  by_cases hc : (wasBalanced && wasPartitioned && decide (hint = SortedHint.increasingHint))
      = true
  · rw [if_pos hc]
    have hsp := partialInsertionSort_func_spec less d2 ho2 a b hab
      (by rw [hw12.1]; exact hb) (hP.preserved less hw12)
    exact ⟨hw12.trans hsp.1, hpiv.1, hpiv.2, hsp.2⟩
  · rw [if_neg hc]
    exact ⟨hw12, hpiv.1, hpiv.2, fun h => by simp at h⟩


theorem AllAt.untouched {P : α → Prop} {d d' : List α} {lo hi a b : Nat}
    (h : AllAt P d lo hi) (hw : Within a b d d') (hd : hi ≤ a ∨ b ≤ lo) : AllAt P d' lo hi := by
  intro k h1 h2 x hx
  rw [hw.2.1 k (by omega)] at hx
  exact h k h1 h2 x hx

theorem PredLE.mono_right {d : List α} {a b b' : Nat} (h : PredLE less d a b) (hb : b' ≤ b) :
    PredLE less d a b' := by
  rcases h with h | ⟨y, hy, hall⟩
  · exact Or.inl h
  · exact Or.inr ⟨y, hy, fun k h1 h2 => hall k h1 (by omega)⟩

/-- A range partitioned around the element at `mid`, with both sides sorted, is sorted. -/
theorem sorted_of_parts {d : List α} (ho : TransitiveOrdering less d) (a mid b : Nat) (p : α)
    (hp : d[mid]? = some p) (h1 : SortedOn less d a mid) (h2 : SortedOn less d (mid + 1) b)
    (hL : AllAt (fun x => less x p = true) d a mid)
    (hR : AllAt (fun x => less x p = false) d (mid + 1) b) : SortedOn less d a b := by
  intro i j hi hij hj x y hx hy
  have hpm := mem_of_getElem? hp
  have hxm := mem_of_getElem? hx
  have hym := mem_of_getElem? hy
  by_cases hjm : j < mid
  · exact h1 i j hi hij hjm x y hx hy
  · by_cases him : mid < i
    · exact h2 i j (by omega) hij hj x y hx hy
    · by_cases e1 : i = mid
      · subst e1
        rw [hp] at hx
        rw [← Option.some.inj hx]
        exact hR j (by omega) hj y hy
      · have hxl : less x p = true := hL i hi (by omega) x hx
        by_cases e2 : j = mid
        · subst e2
          rw [hp] at hy
          rw [← Option.some.inj hy]
          exact ho.asymm hxm hpm hxl
        · have hyr : less y p = false := hR j (by omega) hj y hy
          exact ho.asymm hxm hym (ho.lt_of_lt_of_nl hxm hpm hym hxl hyr)

/-- A range whose first part holds elements equivalent to `p`, followed by a sorted part
of elements greater than `p`, is sorted. -/
theorem sorted_of_equal_part {d : List α} (ho : TransitiveOrdering less d) (a mid b : Nat)
    (p : α) (hp : p ∈ d) (h2 : SortedOn less d mid b)
    (hE : AllAt (fun x => less p x = false ∧ less x p = false) d a mid)
    (hG : AllAt (fun x => less p x = true) d mid b) : SortedOn less d a b := by
  intro i j hi hij hj x y hx hy
  have hxm := mem_of_getElem? hx
  have hym := mem_of_getElem? hy
  by_cases him : mid ≤ i
  · exact h2 i j him hij hj x y hx hy
  · have hxe := hE i hi (by omega) x hx
    by_cases hjm : j < mid
    · have hye := hE j (by omega) hjm y hy
      exact ho.2.2 y hym p hp x hxm hye.2 hxe.1
    · have hyg := hG j (by omega) hj y hy
      exact ho.asymm hxm hym (ho.lt_of_nl_of_lt hxm hp hym hxe.1 hyg)

theorem pdqsort_func_sorted : ∀ (fuel : Nat) (d : List α) (a b limit : Nat)
    (wasBalanced wasPartitioned : Bool),
    TransitiveOrdering less d → a ≤ b → b ≤ d.length → b - a < fuel → PredLE less d a b →
    Within a b d (pdqsort_func less fuel d a b limit wasBalanced wasPartitioned) ∧
      SortedOn less (pdqsort_func less fuel d a b limit wasBalanced wasPartitioned) a b := by
  intro fuel
  induction fuel with
  | zero => intro d a b _ _ _ _ _ _ hf _; omega
  | succ fuel ih =>
    intro d a b limit wasBalanced wasPartitioned ho hab hb hf hP
    unfold pdqsort_func
    split
    · exact insertionSort_func_sorted less ho a b hb
    rename_i h12
    split
    · exact heapSort_func_sorted less ho a b hab hb
    split
    rename_i d1 l p dn hsetup
    have hab' : a < b := by omega
    have hsp := pdqsortPivot_spec less d ho a b limit wasBalanced wasPartitioned hab' hb hP
    have hperm1 := pdqsortPivot_perm less d a b limit wasBalanced wasPartitioned
    rw [hsetup] at hsp hperm1
    obtain ⟨hw1, hpa, hpb, hdone⟩ := hsp
    simp only at hw1 hpa hpb hdone hperm1
    have ho1 := ho.of_perm hperm1
    have hl1 : b ≤ d1.length := by rw [hw1.1]; exact hb
    have hP1 := hP.preserved less hw1
    split
    · rename_i hdn
      exact ⟨hw1, hdone hdn⟩
    split
    · rename_i hcond
      split
      rename_i d2 mid heq
      have hpe := partitionEqual_func_spec less d1 a b p hab' hl1 hpa hpb
      have hperm2 := partitionEqual_func_perm less d1 a b p
      rw [heq] at hpe hperm2
      obtain ⟨hw2, hm1, hm2, pv, hpv1, hpv2, hE, hG⟩ := hpe
      simp only at hw2 hm1 hm2 hpv2 hE hG hperm2
      have ho2 := ho1.of_perm hperm2
      have hl2 : b ≤ d2.length := by rw [hw2.1]; exact hl1
      have hP2 := hP1.preserved less hw2
      obtain ⟨y, hy, hally⟩ : ∃ y, d2[a - 1]? = some y ∧
          AllAt (fun x => less x y = false) d2 a b := by
        rcases hP2 with h0 | h
        · omega
        · exact h
      have hypv : less y pv = false := by
        have := hcond.2
        have hy1 : d1[a - 1]? = some y := by
          rw [← hw2.2.1 (a - 1) (Or.inl (by omega))]; exact hy
        rwa [lessAt_eq hy1 hpv1] at this
      have hym := mem_of_getElem? hy
      have hpvm := mem_of_getElem? hpv2
      -- the elements of `[a, mid)` are equivalent to the pivot
      have hE' : AllAt (fun x => less pv x = false ∧ less x pv = false) d2 a mid := by
        intro k h1 h2 x hx
        have hxm := mem_of_getElem? hx
        have hxy : less x y = false := hally k h1 (by omega) x hx
        refine ⟨?_, ho2.2.2 x hxm y hym pv hpvm hxy hypv⟩
        by_cases e : k = a
        · subst e
          rw [hpv2] at hx
          rw [← Option.some.inj hx]
          exact ho2.1 pv hpvm
        · exact hE k (by omega) h2 x hx
      have hP3 : PredLE less d2 mid b := by
        right
        have hz : d2[mid - 1]? = some d2[mid - 1] := List.getElem?_eq_getElem (by omega)
        refine ⟨_, hz, ?_⟩
        intro k h1 h2 x hx
        have hze := hE' (mid - 1) (by omega) (by omega) _ hz
        have hxg := hG k h1 h2 x hx
        exact ho2.asymm (mem_of_getElem? hz) (mem_of_getElem? hx)
          (ho2.lt_of_nl_of_lt (mem_of_getElem? hz) hpvm (mem_of_getElem? hx) hze.1 hxg)
      obtain ⟨hw3, hs3⟩ := ih d2 mid b l wasBalanced wasPartitioned ho2 hm2 hl2 (by omega) hP3
      have hperm3 := pdqsort_func_perm less fuel d2 mid b l wasBalanced wasPartitioned
      generalize pdqsort_func less fuel d2 mid b l wasBalanced wasPartitioned = d3 at *
      have ho3 := ho2.of_perm hperm3
      refine ⟨hw1.trans (hw2.trans (hw3.mono (by omega) (Nat.le_refl _))), ?_⟩
      refine sorted_of_equal_part less ho3 a mid b pv ?_ hs3
        (hE'.untouched hw3 (Or.inl (Nat.le_refl _))) (hG.transport hw3)
      have : d3[a]? = some pv := by rw [hw3.2.1 a (Or.inl (by omega))]; exact hpv2
      exact mem_of_getElem? this
    · split
      rename_i d2 mid ap heq
      have hpe := partition_func_spec less d1 a b p hab' hl1 hpa hpb
      have hperm2 := partition_func_perm less d1 a b p
      rw [heq] at hpe hperm2
      obtain ⟨hw2, hm1, hm2, pv, hpv, hL, hR⟩ := hpe
      simp only at hw2 hm1 hm2 hpv hL hR hperm2
      have ho2 := ho1.of_perm hperm2
      have hl2 : b ≤ d2.length := by rw [hw2.1]; exact hl1
      have hP2 := hP1.preserved less hw2
      have hw12 := hw1.trans hw2
      split
      · -- the left part first, then the right part
        obtain ⟨hwL, hsL⟩ := ih d2 a mid l true true ho2 hm1 (by omega) (by omega)
          (hP2.mono_right less (by omega))
        have hpermL := pdqsort_func_perm less fuel d2 a mid l true true
        generalize pdqsort_func less fuel d2 a mid l true true = dL at *
        have hoL := ho2.of_perm hpermL
        have hpvL : dL[mid]? = some pv := by
          rw [hwL.2.1 mid (Or.inr (Nat.le_refl _))]; exact hpv
        have hRL := hR.untouched hwL (Or.inr (by omega))
        obtain ⟨hwR, hsR⟩ := ih dL (mid + 1) b l (decide ((b - a) / 8 ≤ mid - a)) ap hoL
          (by omega) (by rw [hwL.1]; exact hl2) (by omega)
          (Or.inr ⟨pv, by rw [Nat.add_sub_cancel]; exact hpvL, hRL⟩)
        have hpermR := pdqsort_func_perm less fuel dL (mid + 1) b l
          (decide ((b - a) / 8 ≤ mid - a)) ap
        generalize pdqsort_func less fuel dL (mid + 1) b l
          (decide ((b - a) / 8 ≤ mid - a)) ap = dR at *
        have hoR := hoL.of_perm hpermR
        refine ⟨hw12.trans ((hwL.mono (Nat.le_refl _) (by omega)).trans
          (hwR.mono (by omega) (Nat.le_refl _))), ?_⟩
        refine sorted_of_parts less hoR a mid b pv ?_
          (SortedOn.outside less hsL hwR (Or.inl (by omega))) hsR
          ((hL.transport hwL).untouched hwR (Or.inl (by omega))) (hRL.transport hwR)
        rw [hwR.2.1 mid (Or.inl (by omega))]; exact hpvL
      · -- the right part first, then the left part
        obtain ⟨hwR, hsR⟩ := ih d2 (mid + 1) b l true true ho2 (by omega) hl2 (by omega)
          (Or.inr ⟨pv, by rw [Nat.add_sub_cancel]; exact hpv, hR⟩)
        have hpermR := pdqsort_func_perm less fuel d2 (mid + 1) b l true true
        generalize pdqsort_func less fuel d2 (mid + 1) b l true true = dR at *
        have hoR := ho2.of_perm hpermR
        have hpvR : dR[mid]? = some pv := by
          rw [hwR.2.1 mid (Or.inl (by omega))]; exact hpv
        have hLR := hL.untouched hwR (Or.inl (by omega))
        have hPR : PredLE less dR a mid := by
          have := (hP2.mono_right less (by omega : mid ≤ b))
          rcases this with h0 | ⟨y, hy, hall⟩
          · exact Or.inl h0
          · by_cases h0 : a = 0
            · exact Or.inl h0
            · exact Or.inr ⟨y, by rw [hwR.2.1 (a - 1) (Or.inl (by omega))]; exact hy,
                hall.untouched hwR (Or.inl (by omega))⟩
        obtain ⟨hwL, hsL⟩ := ih dR a mid l (decide ((b - a) / 8 ≤ b - mid)) ap hoR hm1
          (by rw [hwR.1]; omega) (by omega) hPR
        have hpermL := pdqsort_func_perm less fuel dR a mid l
          (decide ((b - a) / 8 ≤ b - mid)) ap
        generalize pdqsort_func less fuel dR a mid l
          (decide ((b - a) / 8 ≤ b - mid)) ap = dL at *
        have hoL := hoR.of_perm hpermL
        refine ⟨hw12.trans ((hwR.mono (by omega) (Nat.le_refl _)).trans
          (hwL.mono (Nat.le_refl _) (by omega))), ?_⟩
        refine sorted_of_parts less hoL a mid b pv ?_ hsL
          (SortedOn.outside less hsR hwL (Or.inr (by omega)))
          (hLR.transport hwL) ((hR.transport hwR).untouched hwL (Or.inr (by omega)))
        rw [hwL.2.1 mid (Or.inr (Nat.le_refl _))]; exact hpvR


/-- The algorithm of `sort.Slice` sorts: under a transitive ordering no element of the
result is less than an earlier one. -/
theorem sortSlice_pairwise (xs : List α) (ho : TransitiveOrdering less xs) :
    List.Pairwise (fun x y => less y x = false) (sortSlice less xs) := by
  have h := pdqsort_func_sorted less (xs.length + 1) xs 0 xs.length (bitLen xs.length)
    true true ho (Nat.zero_le _) (Nat.le_refl _) (by omega) (Or.inl rfl)
  have hlen : (sortSlice less xs).length = xs.length := (sortSlice_perm less xs).length_eq
  rw [List.pairwise_iff_getElem]
  intro i j hi hj hij
  exact h.2 i j (Nat.zero_le _) hij (by rw [← hlen]; exact hj) _ _
    (List.getElem?_eq_getElem hi) (List.getElem?_eq_getElem hj)

theorem sortSlice_sorted (xs : List α) (ho : TransitiveOrdering less xs) :
    List.Chain' (fun x y => less y x = false) (sortSlice less xs) :=
  (sortSlice_pairwise less xs ho).chain'

end SortCorrect

/-- The algorithm of `sort.Slice` meets the contract of `sort.Slice`. -/
theorem sortSlice_spec : SortSliceSpec sortSlice :=
  ⟨fun less xs => sortSlice_perm less xs, fun less xs h => sortSlice_sorted less xs h⟩

/-- The contract of `sort.Slice` does not fix the order of equal elements: the same
algorithm run on the slice reversed meets it as well. -/
theorem sortSlice_reverse_spec : SortSliceSpec (fun less xs => sortSlice less xs.reverse) :=
  ⟨fun less xs => (sortSlice_perm less xs.reverse).trans (List.reverse_perm xs),
    fun less xs h => sortSlice_spec.sorted less xs.reverse (h.of_perm (List.reverse_perm xs))⟩

/-! ## Scores without NaN are ordered -/

theorem Fl.ge_of_gt_eq_false (x y : Fl) (hx : x ≠ .nan) (hy : y ≠ .nan)
    (h : Fl.gt y x = false) : Fl.ge x y = true := by
  rw [Fl.ge_iff x y hx hy]
  have h' : ¬ (x.val < y.val) := by
    rw [← Fl.gt_iff y x hy hx, h]
    exact Bool.false_ne_true
  exact not_lt.mp h'

theorem Fl.ne_nan_of_eq (x s : Fl) (h : Fl.eq x s = true) : x ≠ .nan ∧ s ≠ .nan := by
  cases x <;> cases s <;> simp_all [Fl.eq]

theorem Fl.gt_eq_false_of_eq (x y s : Fl) (hx : Fl.eq x s = true) (hy : Fl.eq y s = true) :
    Fl.gt x y = false := by
  have ⟨hxn, hsn⟩ := Fl.ne_nan_of_eq x s hx
  have ⟨hyn, _⟩ := Fl.ne_nan_of_eq y s hy
  have h1 := (Fl.eq_iff x s hxn hsn).mp hx
  have h2 := (Fl.eq_iff y s hyn hsn).mp hy
  by_contra hgt
  have hgt' : Fl.gt x y = true := by simpa using hgt
  have := (Fl.gt_iff x y hxn hyn).mp hgt'
  rw [h1, h2] at this
  exact lt_irrefl _ this

theorem gt_transitiveOrdering (xs : List SearchResult)
    (h : ∀ x ∈ xs, x.Similarity ≠ .nan) :
    TransitiveOrdering (fun x y : SearchResult => Fl.gt x.Similarity y.Similarity) xs := by
  refine ⟨?_, ?_, ?_⟩
  · intro x hx
    by_contra hgt
    have hgt' : Fl.gt x.Similarity x.Similarity = true := by simpa using hgt
    exact lt_irrefl _ ((Fl.gt_iff _ _ (h x hx) (h x hx)).mp hgt')
  · intro x hx y hy z hz hxy hyz
    rw [Fl.gt_iff _ _ (h x hx) (h y hy)] at hxy
    rw [Fl.gt_iff _ _ (h y hy) (h z hz)] at hyz
    exact (Fl.gt_iff _ _ (h x hx) (h z hz)).mpr (lt_trans hyz hxy)
  · intro x hx y hy z hz hxy hyz
    change Fl.gt x.Similarity y.Similarity = false at hxy
    change Fl.gt y.Similarity z.Similarity = false at hyz
    have h1 : ¬ (y.Similarity.val < x.Similarity.val) := by
      rw [← Fl.gt_iff _ _ (h x hx) (h y hy), hxy]; exact Bool.false_ne_true
    have h2 : ¬ (z.Similarity.val < y.Similarity.val) := by
      rw [← Fl.gt_iff _ _ (h y hy) (h z hz), hyz]; exact Bool.false_ne_true
    by_contra hgt
    have hgt' : Fl.gt x.Similarity z.Similarity = true := by simpa using hgt
    have h3 := (Fl.gt_iff _ _ (h x hx) (h z hz)).mp hgt'
    exact absurd (lt_of_lt_of_le h3 (not_lt.mp h1)) h2

theorem scored_ne_nan (db : VectorDB) (q : List Fl)
    (h : ∀ v ∈ db.storage, CosineSimilarity q v.Values ≠ some .nan) :
    ∀ x ∈ scored db q, x.Similarity ≠ .nan := by
  intro x hx
  obtain ⟨v, hv, rfl⟩ := List.mem_map.mp hx
  have := h v hv
  rw [CosineSimilarity_eq] at this
  exact fun hc => this (congrArg some hc)

theorem mem_scored (db : VectorDB) (q : List Fl) (r : SearchResult) (h : r ∈ scored db q) :
    r.Vector ∈ db.storage ∧ CosineSimilarity q r.Vector.Values = some r.Similarity := by
  obtain ⟨v, hv, rfl⟩ := List.mem_map.mp h
  exact ⟨hv, CosineSimilarity_eq _ _⟩

theorem scored_map_Vector (db : VectorDB) (q : List Fl) :
    (scored db q).map (fun r => r.Vector) = db.storage := by
  simp [scored, List.map_map, Function.comp_def]

/-- The sorted results are pairwise in descending order when no score is NaN. -/
theorem sorted_pairwise (sort : SortSlice) (hs : SortSliceSpec sort) (db : VectorDB)
    (q : List Fl) (h : ∀ v ∈ db.storage, CosineSimilarity q v.Values ≠ some .nan) :
    List.Pairwise (fun x y : SearchResult => Fl.ge x.Similarity y.Similarity = true)
      (sort (fun x y => Fl.gt x.Similarity y.Similarity) (scored db q)) := by
  have hn := scored_ne_nan db q h
  have hc := hs.sorted _ _ (gt_transitiveOrdering _ hn)
  have hperm := hs.perm (fun x y => Fl.gt x.Similarity y.Similarity) (scored db q)
  have hn' : ∀ x ∈ sort (fun x y => Fl.gt x.Similarity y.Similarity) (scored db q),
      x.Similarity ≠ .nan := fun x hx => hn x (hperm.subset hx)
  generalize sort (fun x y => Fl.gt x.Similarity y.Similarity) (scored db q) = L at *
  have hc2 : List.Chain' (fun x y : SearchResult => y.Similarity.val ≤ x.Similarity.val) L := by
    rw [List.Chain'.iff_mem] at hc
    refine hc.imp ?_
    intro x y ⟨hx, hy, hxy⟩
    exact (Fl.ge_iff _ _ (hn' x hx) (hn' y hy)).mp
      (Fl.ge_of_gt_eq_false _ _ (hn' x hx) (hn' y hy) hxy)
  haveI : IsTrans SearchResult (fun x y => y.Similarity.val ≤ x.Similarity.val) :=
    ⟨fun _ _ _ h1 h2 => le_trans h2 h1⟩
  have hp := List.chain'_iff_pairwise.mp hc2
  exact hp.imp_of_mem (fun {x y} hx hy hxy => (Fl.ge_iff _ _ (hn' x hx) (hn' y hy)).mpr hxy)

/-! ## Zero vectors -/

theorem Fl.eq_zero_iff (x : Fl) : Fl.eq x zero64 = true ↔ ∃ s e, x = .fin s 0 e := by
  cases x with
  | nan => simp [Fl.eq, zero64]
  | inf a => simp [Fl.eq, zero64]
  | fin s m e =>
    simp only [Fl.eq, zero64, Fl.scaled, Fl.signed, decide_eq_true_eq, zero_mul,
      Nat.cast_zero, neg_zero, ite_self, Fl.fin.injEq]
    constructor
    · intro h
      have hm : m = 0 := by
        have hpos : 0 < 2 ^ (e - min e binary64.emin).toNat := by positivity
        cases s
        · simp only [Bool.false_eq_true, if_false] at h
          have h' : m * 2 ^ (e - min e binary64.emin).toNat = 0 := by exact_mod_cast h
          rcases Nat.mul_eq_zero.mp h' with h0 | h0
          · exact h0
          · omega
        · simp only [if_true, neg_eq_zero] at h
          have h' : m * 2 ^ (e - min e binary64.emin).toNat = 0 := by exact_mod_cast h
          rcases Nat.mul_eq_zero.mp h' with h0 | h0
          · exact h0
          · omega
      exact ⟨s, e, rfl, hm, rfl⟩
    · rintro ⟨s', e', -, hm, -⟩
      subst hm
      simp

theorem sq_zero (s : Bool) (e : Int) :
    toFloat64 (Fl.mul binary32 (.fin s 0 e) (.fin s 0 e)) = zero64 := by
  cases s <;> simp [Fl.mul, Fl.round, toFloat64, zero64]

theorem add_zero64_zero64 : Fl.add binary64 zero64 zero64 = zero64 := by decide

theorem sqNorm_zero (a : List Fl) (h : ∀ x ∈ a, Fl.eq x zero64 = true) :
    sqNorm a = zero64 := by
  unfold sqNorm dotProduct
  induction a with
  | nil => rfl
  | cons x a ih =>
    obtain ⟨s, e, rfl⟩ := (Fl.eq_zero_iff x).mp (h x (List.mem_cons_self _ _))
    simp only [List.zipWith_cons_cons, List.foldl_cons, sq_zero, add_zero64_zero64]
    exact ih (fun y hy => h y (List.mem_cons_of_mem _ hy))

/-! ## The claims -/

/-- C1, where the code falls short: for `a = []float32{0x1.8p-74}`, `b = []float32{1}`
(equal length, both sums of squares non-zero) the dot product is `a[0]` and the norms are
`a[0]` and 1, so the dot product divided by the product of the norms is 1.  The code takes
`a[0] * a[0]` in `float32` before it widens it: `2.25 * 2^-148` is rounded to the subnormal
`2^-147`, where the product of the widened operands is exact, and `CosineSimilarity(a, b)`
returns about 1.0607.  With the operands widened before each product,
`float64(a[i]) * float64(b[i])`, the same formula gives 1.  So it is for
`a = []float32{1e30}`, `b = []float32{2e30}`, where the `float32` products overflow and the
result is NaN. -/
theorem CosineSimilarity_formula_diverges :
    [f32 3 (2 ^ 75)].length = [f32 1 1].length ∧
    Fl.eq (sqNorm [f32 3 (2 ^ 75)]) zero64 = false ∧ Fl.eq (sqNorm [f32 1 1]) zero64 = false ∧
    f32 3 (2 ^ 75) = .fin false (3 * 2 ^ 22) (-97) ∧ f32 1 1 = .fin false (2 ^ 23) (-23) ∧
    Fl.mul binary32 (f32 3 (2 ^ 75)) (f32 3 (2 ^ 75)) = .fin false 4 (-149) ∧
    Fl.mul binary64 (toFloat64 (f32 3 (2 ^ 75))) (toFloat64 (f32 3 (2 ^ 75))) =
      .fin false (9 * 2 ^ 49) (-199) ∧
    CosineSimilarity [f32 3 (2 ^ 75)] [f32 1 1] = some (.fin false 4776788754394329 (-52)) ∧
    Fl.eq (.fin false 4776788754394329 (-52)) one64 = false ∧
    [f32 (10 ^ 30) 1].length = [f32 (2 * 10 ^ 30) 1].length ∧
    Fl.eq (sqNorm [f32 (10 ^ 30) 1]) zero64 = false ∧
    Fl.eq (sqNorm [f32 (2 * 10 ^ 30) 1]) zero64 = false ∧
    CosineSimilarity [f32 (10 ^ 30) 1] [f32 (2 * 10 ^ 30) 1] = some .nan ∧
    Fl.eq .nan one64 = false ∧
    ∀ p ∈ [(f32 3 (2 ^ 75), f32 1 1), (f32 (10 ^ 30) 1, f32 (2 * 10 ^ 30) 1)],
      Fl.div binary64
        (Fl.add binary64 zero64 (Fl.mul binary64 (toFloat64 p.1) (toFloat64 p.2)))
        (Fl.mul binary64
          (Fl.sqrt binary64
            (Fl.add binary64 zero64 (Fl.mul binary64 (toFloat64 p.1) (toFloat64 p.1))))
          (Fl.sqrt binary64
            (Fl.add binary64 zero64 (Fl.mul binary64 (toFloat64 p.2) (toFloat64 p.2))))) =
        one64 := by
  decide!

/-- C9: for `a` and `b` of different lengths, `CosineSimilarity(a, b)` returns 0 and
does not fail. -/
theorem CosineSimilarity_length_mismatch (a b : List Fl) (h : a.length ≠ b.length) :
    CosineSimilarity a b = some zero64 := by
  simp [CosineSimilarity, h]

theorem CosineSimilarity_length_mismatch_witness :
    demoQuery.length ≠ [f32 1 1].length ∧ CosineSimilarity demoQuery [f32 1 1] = some zero64 :=
  ⟨by decide, CosineSimilarity_length_mismatch demoQuery [f32 1 1] (by decide)⟩

/-- C10: for equal-length `a` and `b` of which one has Euclidean norm 0 (every component
is zero, which includes two empty sequences, or the squared-norm sum is zero),
`CosineSimilarity(a, b)` returns 0: the division is never reached. -/
theorem CosineSimilarity_zero_norm (a b : List Fl) (hlen : a.length = b.length)
    (h : (∀ x ∈ a, Fl.eq x zero64 = true) ∨ (∀ y ∈ b, Fl.eq y zero64 = true) ∨
      Fl.eq (sqNorm a) zero64 = true ∨ Fl.eq (sqNorm b) zero64 = true) :
    CosineSimilarity a b = some zero64 := by
  have hz : Fl.eq zero64 zero64 = true := by decide
  have h' : Fl.eq (sqNorm a) zero64 = true ∨ Fl.eq (sqNorm b) zero64 = true := by
    rcases h with h | h | h | h
    · exact Or.inl (by rw [sqNorm_zero a h]; exact hz)
    · exact Or.inr (by rw [sqNorm_zero b h]; exact hz)
    · exact Or.inl h
    · exact Or.inr h
  rw [CosineSimilarity_eq]
  unfold cosineValue
  rcases h' with h' | h' <;> simp [hlen, h']

theorem CosineSimilarity_zero_norm_witness :
    demoQuery.length = [f32 0 1, f32 0 1, f32 0 1].length ∧
    (∀ y ∈ [f32 0 1, f32 0 1, f32 0 1], Fl.eq y zero64 = true) ∧
    CosineSimilarity demoQuery [f32 0 1, f32 0 1, f32 0 1] = some zero64 :=
  ⟨by decide, by decide!, CosineSimilarity_zero_norm demoQuery [f32 0 1, f32 0 1, f32 0 1]
    (by decide) (Or.inr (Or.inl (by decide!)))⟩

theorem sort_length (sort : SortSlice) (hperm : ∀ less xs, (sort less xs).Perm xs)
    (db : VectorDB) (q : List Fl) :
    (sort (fun x y => Fl.gt x.Similarity y.Similarity) (scored db q)).length =
      db.storage.length := by
  rw [(hperm _ _).length_eq]
  simp [scored]

theorem storage_foldl_Insert (vs : List Vector) (db : VectorDB) :
    (vs.foldl Insert db).storage = db.storage ++ vs := by
  induction vs generalizing db with
  | nil => simp
  | cons v vs ih => simp [ih, Insert]

/-- C2: when no stored vector scores NaN against the query, the sequence `Query` returns
is sorted by score descending: each result's similarity is `>=` that of the next. -/
theorem Query_sorted (sort : SortSlice) (hs : SortSliceSpec sort) (db : VectorDB)
    (q : List Fl) (topK : Int) (h0 : 0 ≤ topK)
    (hn : ∀ v ∈ db.storage, CosineSimilarity q v.Values ≠ some .nan) :
    ∃ res, Query sort db q topK = some res ∧
      ∀ (i : Nat) (h : i + 1 < res.length),
        Fl.ge (res[i]).Similarity (res[i + 1]).Similarity = true := by
  refine ⟨_, Query_of_nonneg sort db q topK h0, ?_⟩
  have hp := (sorted_pairwise sort hs db q hn).sublist (List.take_sublist topK.toNat _)
  intro i h
  exact List.pairwise_iff_getElem.mp hp i (i + 1) (by omega) h (by omega)

theorem Query_sorted_witness :
    SortSliceSpec sortSlice ∧ (0 : Int) ≤ 2 ∧
    (∀ v ∈ demoDB.storage, CosineSimilarity demoQuery v.Values ≠ some .nan) ∧
    ∃ res, Query sortSlice demoDB demoQuery 2 = some res ∧
      ∀ (i : Nat) (h : i + 1 < res.length),
        Fl.ge (res[i]).Similarity (res[i + 1]).Similarity = true :=
  ⟨sortSlice_spec, by decide, by decide!,
    Query_sorted sortSlice sortSlice_spec demoDB demoQuery 2 (by decide)
      (by decide!)⟩

/-- C2, as stated, fails: for the store `{"a", [1e30]}`, `{"b", [1]}` and the query
`[1e30]`, the products overflow `float32`, the score of "a" is NaN, `Query` returns "a"
then "b", and `NaN >= 0` is false. -/
theorem Query_sorted_counterexample :
    Query sortSlice overflowDB overflowQuery 2 =
      some [⟨⟨"a", [f32 (10 ^ 30) 1], "A"⟩, .nan⟩, ⟨⟨"b", [f32 1 1], "B"⟩, zero64⟩] ∧
    Fl.ge .nan zero64 = false := by
  decide!

/-- C3: when no stored vector scores NaN against the query, `Query` returns the first
`min(topK, n)` entries of the full ranking `Query(q, n)`, and every stored vector left out
has a similarity `<=` that of every returned result. -/
theorem Query_topK (sort : SortSlice) (hs : SortSliceSpec sort) (db : VectorDB)
    (q : List Fl) (topK : Int) (h0 : 0 ≤ topK)
    (hn : ∀ v ∈ db.storage, CosineSimilarity q v.Values ≠ some .nan) :
    ∃ res rest, Query sort db q topK = some res ∧
      Query sort db q db.storage.length = some (res ++ rest) ∧
      res.length = min topK.toNat db.storage.length ∧
      ((res ++ rest).map (fun r => r.Vector)).Perm db.storage ∧
      (∀ t ∈ rest, CosineSimilarity q t.Vector.Values = some t.Similarity) ∧
      ∀ r ∈ res, ∀ t ∈ rest, Fl.le t.Similarity r.Similarity = true := by
  have hlen := sort_length sort hs.perm db q
  have hperm := hs.perm (fun x y => Fl.gt x.Similarity y.Similarity) (scored db q)
  have hp := sorted_pairwise sort hs db q hn
  refine ⟨_, (sort (fun x y => Fl.gt x.Similarity y.Similarity) (scored db q)).drop topK.toNat,
    Query_of_nonneg sort db q topK h0, ?_, ?_, ?_, ?_, ?_⟩
  · rw [Query_of_nonneg sort db q _ (Int.ofNat_nonneg _), List.take_append_drop,
      Int.toNat_ofNat, ← hlen, List.take_length]
  · rw [List.length_take, hlen]
  · rw [List.take_append_drop]
    exact (hperm.map _).trans (by rw [scored_map_Vector])
  · intro t ht
    exact (mem_scored db q t (hperm.subset (List.mem_of_mem_drop ht))).2
  · rw [← List.take_append_drop topK.toNat
      (sort (fun x y => Fl.gt x.Similarity y.Similarity) (scored db q))] at hp
    intro r hr t ht
    exact (List.pairwise_append.mp hp).2.2 r hr t ht

theorem Query_topK_witness :
    SortSliceSpec sortSlice ∧ (0 : Int) ≤ 1 ∧
    (∀ v ∈ demoDB.storage, CosineSimilarity demoQuery v.Values ≠ some .nan) ∧
    ∃ res rest, Query sortSlice demoDB demoQuery 1 = some res ∧
      Query sortSlice demoDB demoQuery demoDB.storage.length = some (res ++ rest) ∧
      res.length = min (1 : Int).toNat demoDB.storage.length ∧
      ((res ++ rest).map (fun r => r.Vector)).Perm demoDB.storage ∧
      (∀ t ∈ rest, CosineSimilarity demoQuery t.Vector.Values = some t.Similarity) ∧
      ∀ r ∈ res, ∀ t ∈ rest, Fl.le t.Similarity r.Similarity = true :=
  ⟨sortSlice_spec, by decide, by decide!,
    Query_topK sortSlice sortSlice_spec demoDB demoQuery 1 (by decide)
      (by decide!)⟩

/-- C3, as stated, fails: for the store `{"a", [1e30]}`, `{"b", [1]}`, the query `[1e30]`
and `topK = 1`, `Query` returns "a" alone with score NaN; the stored vector "b", which is
not returned, scores 0, and `0 <= NaN` is false. -/
theorem Query_topK_counterexample :
    Query sortSlice overflowDB overflowQuery 1 =
      some [⟨⟨"a", [f32 (10 ^ 30) 1], "A"⟩, .nan⟩] ∧
    (⟨"b", [f32 1 1], "B"⟩ : Vector) ∈ overflowDB.storage ∧
    CosineSimilarity overflowQuery [f32 1 1] = some zero64 ∧
    Fl.le zero64 .nan = false := by
  decide!

/-- C4: every result `Query` returns holds a vector of the store, and its similarity is
`CosineSimilarity(queryValues, r.Vector.Values)`; in particular a stored vector whose
length differs from the query's is scored 0.  (`sort.Slice` only permutes the slice.) -/
theorem Query_results_scored (sort : SortSlice) (hperm : ∀ less xs, (sort less xs).Perm xs)
    (db : VectorDB) (q : List Fl) (topK : Int) (h0 : 0 ≤ topK) :
    ∃ res, Query sort db q topK = some res ∧
      ∀ r ∈ res, r.Vector ∈ db.storage ∧
        CosineSimilarity q r.Vector.Values = some r.Similarity ∧
        (q.length ≠ r.Vector.Values.length → r.Similarity = zero64) := by
  refine ⟨_, Query_of_nonneg sort db q topK h0, ?_⟩
  intro r hr
  have hmem := mem_scored db q r ((hperm _ _).subset (List.mem_of_mem_take hr))
  refine ⟨hmem.1, hmem.2, fun hne => ?_⟩
  have := hmem.2
  rw [CosineSimilarity_eq] at this
  rw [← Option.some.inj this]
  simp [cosineValue, hne]

theorem Query_results_scored_witness :
    (∀ less xs, (sortSlice less xs : List SearchResult).Perm xs) ∧ (0 : Int) ≤ 2 ∧
    ∃ res, Query sortSlice demoDB demoQuery 2 = some res ∧
      ∀ r ∈ res, r.Vector ∈ demoDB.storage ∧
        CosineSimilarity demoQuery r.Vector.Values = some r.Similarity ∧
        (demoQuery.length ≠ r.Vector.Values.length → r.Similarity = zero64) :=
  ⟨sortSlice_perm, by decide,
    Query_results_scored sortSlice sortSlice_perm demoDB demoQuery 2 (by decide)⟩

/-- C5: for a store of size `n` and `topK >= 0`, `Query` returns exactly `min(topK, n)`
results: none when `topK == 0`, and `n` when `topK` is greater than `n`. -/
theorem Query_length (sort : SortSlice) (hperm : ∀ less xs, (sort less xs).Perm xs)
    (db : VectorDB) (q : List Fl) (topK : Int) (h0 : 0 ≤ topK) :
    ∃ res, Query sort db q topK = some res ∧
      (res.length : Int) = min topK db.storage.length ∧
      (topK = 0 → res = []) ∧
      ((db.storage.length : Int) < topK → res.length = db.storage.length) := by
  refine ⟨_, Query_of_nonneg sort db q topK h0, ?_, ?_, ?_⟩
  · rw [List.length_take, sort_length sort hperm]
    omega
  · intro h
    subst h
    simp
  · intro h
    rw [List.length_take, sort_length sort hperm]
    omega

theorem Query_length_witness :
    (∀ less xs, (sortSlice less xs : List SearchResult).Perm xs) ∧ (0 : Int) ≤ 2 ∧
    ∃ res, Query sortSlice demoDB demoQuery 2 = some res ∧
      (res.length : Int) = min 2 demoDB.storage.length ∧
      ((2 : Int) = 0 → res = []) ∧
      ((demoDB.storage.length : Int) < 2 → res.length = demoDB.storage.length) :=
  ⟨sortSlice_perm, by decide,
    Query_length sortSlice sortSlice_perm demoDB demoQuery 2 (by decide)⟩

/-- C6: round trip: after inserting the vectors `vs` into a new store, `Query` with
`topK = len(vs)` returns every inserted vector exactly once (the vectors of the results
are a permutation of `vs`), with id, values and metadata unchanged. -/
theorem Query_roundtrip (sort : SortSlice) (hperm : ∀ less xs, (sort less xs).Perm xs)
    (vs : List Vector) (q : List Fl) :
    ∃ res, Query sort (vs.foldl Insert NewVectorDB) q vs.length = some res ∧
      (res.map (fun r => r.Vector)).Perm vs := by
  have hst : (vs.foldl Insert NewVectorDB).storage = vs := by
    rw [storage_foldl_Insert]; rfl
  refine ⟨_, Query_of_nonneg sort _ q _ (Int.ofNat_nonneg _), ?_⟩
  have hlen := sort_length sort hperm (vs.foldl Insert NewVectorDB) q
  rw [hst] at hlen
  rw [Int.toNat_ofNat, ← hlen, List.take_length]
  have := ((hperm (fun x y => Fl.gt x.Similarity y.Similarity)
    (scored (vs.foldl Insert NewVectorDB) q)).map (fun r => r.Vector))
  rw [scored_map_Vector, hst] at this
  exact this

theorem Query_roundtrip_witness :
    (∀ less xs, (sortSlice less xs : List SearchResult).Perm xs) ∧
    ∃ res, Query sortSlice ([king, queen, apple].foldl Insert NewVectorDB) demoQuery
        [king, queen, apple].length = some res ∧
      (res.map (fun r => r.Vector)).Perm [king, queen, apple] :=
  ⟨sortSlice_perm, Query_roundtrip sortSlice sortSlice_perm [king, queen, apple] demoQuery⟩

theorem scored_demo : scored demoDB demoQuery =
    [⟨king, .fin false 8992605279867830 (-53)⟩, ⟨queen, .fin false 8989855523123836 (-53)⟩,
      ⟨apple, .fin false 7466312457237746 (-56)⟩] := by
  decide!

theorem sort_demo (sort : SortSlice) (hs : SortSliceSpec sort) :
    sort (fun x y => Fl.gt x.Similarity y.Similarity) (scored demoDB demoQuery) =
      [⟨king, .fin false 8992605279867830 (-53)⟩, ⟨queen, .fin false 8989855523123836 (-53)⟩,
        ⟨apple, .fin false 7466312457237746 (-56)⟩] := by
  have hp := sorted_pairwise sort hs demoDB demoQuery (by decide!)
  have hperm := hs.perm (fun x y => Fl.gt x.Similarity y.Similarity) (scored demoDB demoQuery)
  generalize sort (fun x y => Fl.gt x.Similarity y.Similarity) (scored demoDB demoQuery) = L
    at hp hperm ⊢
  rw [scored_demo] at hperm
  obtain ⟨x, y, z, rfl⟩ := List.length_eq_three.mp hperm.length_eq
  have hx := hperm.subset (List.mem_cons_self _ _)
  have hy := hperm.subset (List.mem_cons_of_mem _ (List.mem_cons_self _ _))
  have hz := hperm.subset
    (List.mem_cons_of_mem _ (List.mem_cons_of_mem _ (List.mem_cons_self _ _)))
  simp only [List.mem_cons, List.mem_singleton, List.not_mem_nil, or_false] at hx hy hz
  rcases hx with rfl | rfl | rfl <;> rcases hy with rfl | rfl | rfl <;>
    rcases hz with rfl | rfl | rfl <;>
    first
    | rfl
    | exact absurd hp (by decide!)
    | exact absurd hperm (by decide!)

/-- C7: when no stored vector scores NaN against the query, results of equal score are
adjacent in the sequence `Query` returns: between two results of equal score every result
has that score.  This holds for every sort that meets the contract of `sort.Slice`; which
of the equal results comes first is left to the sort. -/
theorem Query_ties_adjacent (sort : SortSlice) (hs : SortSliceSpec sort) (db : VectorDB)
    (q : List Fl) (topK : Int) (h0 : 0 ≤ topK)
    (hn : ∀ v ∈ db.storage, CosineSimilarity q v.Values ≠ some .nan) :
    ∃ res, Query sort db q topK = some res ∧
      ∀ (i l j : Nat) (_hil : i ≤ l) (_hlj : l ≤ j) (hj : j < res.length),
        Fl.eq (res[i]).Similarity (res[j]).Similarity = true →
        Fl.eq (res[l]).Similarity (res[i]).Similarity = true := by
  refine ⟨_, Query_of_nonneg sort db q topK h0, ?_⟩
  have hp := (sorted_pairwise sort hs db q hn).sublist (List.take_sublist topK.toNat _)
  have hnan : ∀ r ∈ (sort (fun x y => Fl.gt x.Similarity y.Similarity) (scored db q)).take
      topK.toNat, r.Similarity ≠ .nan := fun r hr =>
    scored_ne_nan db q hn r ((hs.perm _ _).subset (List.mem_of_mem_take hr))
  generalize (sort (fun x y => Fl.gt x.Similarity y.Similarity) (scored db q)).take
    topK.toNat = res at hp hnan
  have hne : ∀ (x : Nat) (hx : x < res.length), (res[x]).Similarity ≠ .nan :=
    fun x hx => hnan _ (List.getElem_mem _)
  have hle : ∀ (x y : Nat) (_hxy : x ≤ y) (hy : y < res.length),
      (res[y]).Similarity.val ≤ (res[x]).Similarity.val := by
    intro x y hxy hy
    rcases Nat.eq_or_lt_of_le hxy with h | h
    · subst h; exact le_refl _
    · exact (Fl.ge_iff _ _ (hne x (by omega)) (hne y hy)).mp
        (List.pairwise_iff_getElem.mp hp x y (by omega) hy h)
  intro i l j hil hlj hj heq
  have e := (Fl.eq_iff _ _ (hne i (by omega)) (hne j hj)).mp heq
  refine (Fl.eq_iff _ _ (hne l (by omega)) (hne i (by omega))).mpr
    (le_antisymm (hle i l hil (by omega)) ?_)
  rw [e]
  exact hle l j hlj hj

theorem Query_ties_adjacent_witness :
    SortSliceSpec sortSlice ∧ (0 : Int) ≤ 13 ∧
    (∀ v ∈ tieDB.storage, CosineSimilarity tieQuery v.Values ≠ some .nan) ∧
    (scored tieDB tieQuery).map (fun r => (r.Vector.ID, r.Similarity)) =
      [("1", zero64), ("2", one64), ("3", one64), ("4", one64), ("5", one64), ("6", one64),
        ("7", one64), ("8", one64), ("9", one64), ("10", one64), ("11", one64),
        ("12", one64), ("13", one64)] ∧
    ∃ res, Query sortSlice tieDB tieQuery 13 = some res ∧
      ∀ (i l j : Nat) (_hil : i ≤ l) (_hlj : l ≤ j) (hj : j < res.length),
        Fl.eq (res[i]).Similarity (res[j]).Similarity = true →
        Fl.eq (res[l]).Similarity (res[i]).Similarity = true :=
  ⟨sortSlice_spec, by decide, by decide!, by decide!,
    Query_ties_adjacent sortSlice sortSlice_spec tieDB tieQuery 13 (by decide) (by decide!)⟩

/-- C7, as stated, fails: of thirteen stored vectors, the first scores 0 and the other
twelve score 1 against the query; `Query` returns the vector inserted seventh first,
ahead of those inserted second to sixth, which have the same score.  Nor does the contract
of `sort.Slice` keep insertion order for fewer vectors: the algorithm run on the slice
reversed meets the contract too, and with it `Query` on two stored vectors of equal score
returns the one inserted second first. -/
theorem Query_ties_counterexample :
    (Query sortSlice tieDB tieQuery 13).map
        (fun res => res.map (fun r => (r.Vector.ID, r.Similarity))) =
      some [("7", one64), ("2", one64), ("3", one64), ("4", one64), ("5", one64),
        ("6", one64), ("8", one64), ("9", one64), ("10", one64), ("11", one64),
        ("12", one64), ("13", one64), ("1", zero64)] ∧
    tieDB.storage.map (fun v => v.ID) =
      ["1", "2", "3", "4", "5", "6", "7", "8", "9", "10", "11", "12", "13"] ∧
    (∀ res, Query sortSlice tieDB tieQuery 13 = some res →
      ¬ TiesKeepInsertionOrder tieDB tieQuery res) ∧
    SortSliceSpec (fun less xs => sortSlice less xs.reverse) ∧
    (Query (fun less xs => sortSlice less xs.reverse) twinDB tieQuery 2).map
        (fun res => res.map (fun r => (r.Vector.ID, r.Similarity))) =
      some [("2", one64), ("1", one64)] ∧
    twinDB.storage.map (fun v => v.ID) = ["1", "2"] ∧
    ∀ res, Query (fun less xs => sortSlice less xs.reverse) twinDB tieQuery 2 = some res →
      ¬ TiesKeepInsertionOrder twinDB tieQuery res := by
  refine ⟨by decide!, by decide, ?_, sortSlice_reverse_spec, by decide!, by decide, ?_⟩
  · intro res hres hties
    have h := hties one64
    have hq : Query sortSlice tieDB tieQuery 13 = some (sortSlice
        (fun x y => Fl.gt x.Similarity y.Similarity) (scored tieDB tieQuery)) := by
      rw [Query_of_nonneg _ _ _ _ (by decide)]
      exact congrArg some (List.take_of_length_le (by decide!))
    rw [hq] at hres
    have hres' := Option.some.inj hres
    subst hres'
    revert h
    decide!
  · intro res hres hties
    have h := hties one64
    have hq : Query (fun less xs => sortSlice less xs.reverse) twinDB tieQuery 2 =
        some (sortSlice (fun x y => Fl.gt x.Similarity y.Similarity)
          (scored twinDB tieQuery).reverse) := by
      rw [Query_of_nonneg _ _ _ _ (by decide)]
      exact congrArg some (List.take_of_length_le (by decide!))
    rw [hq] at hres
    have hres' := Option.some.inj hres
    subst hres'
    revert h
    decide!

/-- C8: after inserting ("1", [1.0, 0.1, 0.0], "King"), ("2", [0.9, 0.2, 0.0], "Queen"),
("3", [0.0, 0.8, 0.9], "Apple") into a new store, `Query([0.95, 0.15, 0.0], 2)` returns
exactly two results, "1" (King) then "2" (Queen), the score of "1" is strictly greater
than the score of "2", and "3" (Apple) is not in the result; so it is with the sort of
Go's library and with every sort that meets the contract of `sort.Slice`. -/
theorem main_scenario :
    demoDB = Insert (Insert (Insert NewVectorDB ⟨"1", [f32 1 1, f32 1 10, f32 0 1], "King"⟩)
      ⟨"2", [f32 9 10, f32 2 10, f32 0 1], "Queen"⟩)
      ⟨"3", [f32 0 1, f32 8 10, f32 9 10], "Apple"⟩ ∧
    Query sortSlice demoDB [f32 95 100, f32 15 100, f32 0 1] 2 =
      some [⟨king, .fin false 8992605279867830 (-53)⟩,
        ⟨queen, .fin false 8989855523123836 (-53)⟩] ∧
    (∀ sort, SortSliceSpec sort → Query sort demoDB [f32 95 100, f32 15 100, f32 0 1] 2 =
      some [⟨king, .fin false 8992605279867830 (-53)⟩,
        ⟨queen, .fin false 8989855523123836 (-53)⟩]) ∧
    Fl.gt (.fin false 8992605279867830 (-53)) (.fin false 8989855523123836 (-53)) = true ∧
    king.ID = "1" ∧ king.Metadata = "King" ∧ queen.ID = "2" ∧ queen.Metadata = "Queen" ∧
    apple.ID = "3" ∧
    ∀ r ∈ [(⟨king, .fin false 8992605279867830 (-53)⟩ : SearchResult),
        ⟨queen, .fin false 8989855523123836 (-53)⟩], r.Vector ≠ apple ∧ r.Vector.ID ≠ "3" := by
  refine ⟨rfl, by decide!, ?_, by decide!, rfl, rfl, rfl, rfl, rfl, by decide⟩
  intro sort hs
  have h := Query_of_nonneg sort demoDB demoQuery 2 (by decide)
  rw [sort_demo sort hs] at h
  exact h

/-! ## Symmetry, the memory of `Query`, prefixes -/

theorem foldlM_scoreStep (q : List Fl) (vs : List Vector) (s : QueryState) :
    vs.foldlM (scoreStep q) s =
      (vs.foldlM (queryStep q) s.results).map (fun r => ⟨s.db, r⟩) := by
  induction vs generalizing s with
  | nil => simp
  | cons v vs ih =>
    simp only [List.foldlM, scoreStep, queryStep, CosineSimilarity_eq, Option.bind_eq_bind,
      Option.some_bind, ih]

theorem QueryRun_eq (sort : SortSlice) (db : VectorDB) (q : List Fl) (topK : Int) :
    QueryRun sort db q topK = (Query sort db q topK).map (fun res => (db, res)) := by
  unfold QueryRun Query
  rw [foldlM_scoreStep, foldlM_queryStep]
  simp only [Option.map_some', List.nil_append]
  split <;> [split; skip] <;> rfl

theorem Fl.mul_symm (f : Fmt) (x y : Fl) : Fl.mul f x y = Fl.mul f y x := by
  cases x with
  | nan => cases y <;> rfl
  | inf a =>
    cases y with
    | nan => rfl
    | inf b => simp only [Fl.mul, Bool.xor_comm]
    | fin s m e => simp only [Fl.mul, Bool.xor_comm]
  | fin sx mx ex =>
    cases y with
    | nan => rfl
    | inf b => simp only [Fl.mul, Bool.xor_comm]
    | fin sy my ey =>
      show Fl.round f (xor sx sy) (mx * my) (ex + ey) false =
        Fl.round f (xor sy sx) (my * mx) (ey + ex) false
      rw [Bool.xor_comm, Nat.mul_comm, Int.add_comm]

theorem dotProduct_comm (a b : List Fl) : dotProduct a b = dotProduct b a := by
  unfold dotProduct
  have hf : (fun y x => toFloat64 (Fl.mul binary32 x y)) =
      (fun x y => toFloat64 (Fl.mul binary32 x y)) := by
    funext x y
    rw [Fl.mul_symm]
  rw [List.zipWith_comm, hf]

theorem cosineValue_comm (a b : List Fl) : cosineValue a b = cosineValue b a := by
  unfold cosineValue
  by_cases h : a.length = b.length
  · have h1 : ¬ a.length ≠ b.length := fun e => e h
    have h2 : ¬ b.length ≠ a.length := fun e => e h.symm
    rw [if_neg h1, if_neg h2, dotProduct_comm a b, Fl.mul_symm binary64 (euclideanNorm a),
      Bool.or_comm]
  · have h' : ¬ b.length = a.length := fun e => h e.symm
    simp [h, h']

theorem take_min_length {α : Type} (n : Nat) (xs : List α) :
    xs.take (min n xs.length) = xs.take n := by
  by_cases h : n ≤ xs.length
  · rw [Nat.min_eq_left h]
  · rw [Nat.min_eq_right (by omega), List.take_length, List.take_of_length_le (by omega)]

theorem Fl.eq_refl_of_ne_nan (x : Fl) (h : x ≠ .nan) : Fl.eq x x = true :=
  (Fl.eq_iff x x h h).mpr rfl

/-! ## The divisor is never zero -/

theorem bitLenAux_lt (fuel : Nat) : ∀ n, n ≤ fuel → n < 2 ^ bitLenAux fuel n := by
  induction fuel with
  | zero =>
    intro n h
    have h0 : n = 0 := by omega
    subst h0
    simp [bitLenAux]
  | succ fuel ih =>
    intro n h
    unfold bitLenAux
    by_cases h0 : n = 0
    · simp [h0]
    · rw [if_neg h0, Nat.pow_succ]
      have := ih (n / 2) (by omega)
      omega

theorem lt_two_pow_bitLen (n : Nat) : n < 2 ^ bitLen n := bitLenAux_lt n n (Nat.le_refl _)

theorem two_pow_bitLen_le (n : Nat) (h : 0 < n) : 2 ^ bitLen n ≤ 2 * n :=
  bitLenAux_le n n h (Nat.le_refl _)

theorem two_zpow_toNat (k : Int) (h : 0 ≤ k) : ((2 : ℚ) ^ k.toNat) = (2 : ℚ) ^ k := by
  rw [← zpow_natCast, Int.toNat_of_nonneg h]

/-- Rounding a value of at least `2^L`, with `2^L` in the range of the format, gives at
least `2^L`. -/
theorem Fl.round_atLeast (f : Fmt) (hprec : 1 ≤ f.prec) (L : Int) (hL : f.emin ≤ L)
    (m : Nat) (e : Int) (st : Bool) (h : (2 : ℚ) ^ L ≤ (m : ℚ) * (2 : ℚ) ^ e) :
    Fl.AtLeast L (Fl.round f false m e st) := by
  have hm : m ≠ 0 := by
    rintro rfl
    have : (0 : ℚ) < (2 : ℚ) ^ L := by positivity
    simp at h
    linarith
  have hmpos : 0 < m := Nat.pos_of_ne_zero hm
  unfold Fl.round
  rw [if_neg hm]
  simp only []
  generalize hq : max (e + ((bitLen m : Nat) : Int) - (f.prec : Int)) f.emin = q
  by_cases hqe : q ≤ e
  · rw [if_pos hqe]
    split
    · exact rfl
    · refine ⟨rfl, ?_⟩
      rw [Nat.cast_mul, Nat.cast_pow, Nat.cast_ofNat, mul_assoc,
        two_zpow_toNat _ (by omega), ← zpow_add₀ (by norm_num : (2 : ℚ) ≠ 0)]
      rw [show e - q + q = e by ring]
      exact h
  · rw [if_neg hqe]
    have hm1 : m / 2 ^ (q - e).toNat ≤
        (if (decide (2 ^ ((q - e).toNat - 1) < m % 2 ^ (q - e).toNat) ||
            decide (m % 2 ^ (q - e).toNat = 2 ^ ((q - e).toNat - 1)) &&
              (st || decide (m / 2 ^ (q - e).toNat % 2 = 1))) = true
          then m / 2 ^ (q - e).toNat + 1 else m / 2 ^ (q - e).toNat) := by
      split <;> omega
    generalize (if (decide (2 ^ ((q - e).toNat - 1) < m % 2 ^ (q - e).toNat) ||
            decide (m % 2 ^ (q - e).toNat = 2 ^ ((q - e).toNat - 1)) &&
              (st || decide (m / 2 ^ (q - e).toNat % 2 = 1))) = true
          then m / 2 ^ (q - e).toNat + 1 else m / 2 ^ (q - e).toNat) = m1 at hm1 ⊢
    -- the quotient is at least `2^L`
    have h0 : (2 : ℚ) ^ L ≤ ((m / 2 ^ (q - e).toNat : Nat) : ℚ) * (2 : ℚ) ^ q := by
      by_cases hLq : q ≤ L
      · have hle : (2 : ℚ) ^ (L - e) ≤ (m : ℚ) := by
          rw [zpow_sub₀ (by norm_num : (2 : ℚ) ≠ 0), div_le_iff₀ (by positivity)]
          exact h
        rw [← two_zpow_toNat _ (by omega : 0 ≤ L - e)] at hle
        have hle' : 2 ^ (L - e).toNat ≤ m := by exact_mod_cast hle
        have hsplit : (L - e).toNat = (L - q).toNat + (q - e).toNat := by omega
        have hdiv : 2 ^ (L - q).toNat ≤ m / 2 ^ (q - e).toNat := by
          rw [Nat.le_div_iff_mul_le (by positivity), ← Nat.pow_add, ← hsplit]
          exact hle'
        have hdiv' : ((2 : ℚ) ^ (L - q).toNat) ≤ ((m / 2 ^ (q - e).toNat : Nat) : ℚ) := by
          exact_mod_cast hdiv
        rw [two_zpow_toNat _ (by omega)] at hdiv'
        calc (2 : ℚ) ^ L = (2 : ℚ) ^ (L - q) * (2 : ℚ) ^ q := by
              rw [← zpow_add₀ (by norm_num : (2 : ℚ) ≠ 0)]; congr 1; ring
          _ ≤ _ := mul_le_mul_of_nonneg_right hdiv' (by positivity)
      · have hqv : q = e + ((bitLen m : Nat) : Int) - (f.prec : Int) := by omega
        have hb := two_pow_bitLen_le m hmpos
        have hsh : (q - e).toNat + 1 ≤ bitLen m := by omega
        have h2 : 2 ^ (q - e).toNat ≤ m := by
          have h3 : 2 ^ ((q - e).toNat + 1) ≤ 2 ^ bitLen m := Nat.pow_le_pow_right (by norm_num) hsh
          rw [Nat.pow_succ] at h3
          omega
        have h1 : 1 ≤ m / 2 ^ (q - e).toNat := by
          rw [Nat.le_div_iff_mul_le (by positivity)]
          omega
        have h1' : (1 : ℚ) ≤ ((m / 2 ^ (q - e).toNat : Nat) : ℚ) := by exact_mod_cast h1
        calc (2 : ℚ) ^ L ≤ (2 : ℚ) ^ q := zpow_le_zpow_right₀ (by norm_num) (by omega)
          _ = 1 * (2 : ℚ) ^ q := by ring
          _ ≤ _ := mul_le_mul_of_nonneg_right h1' (by positivity)
    have h1 : (2 : ℚ) ^ L ≤ (m1 : ℚ) * (2 : ℚ) ^ q := by
      have : ((m / 2 ^ (q - e).toNat : Nat) : ℚ) ≤ (m1 : ℚ) := by exact_mod_cast hm1
      exact le_trans h0 (mul_le_mul_of_nonneg_right this (by positivity))
    by_cases hc : m1 = 2 ^ f.prec
    · rw [if_pos hc, if_pos hc]
      split
      · exact rfl
      · refine ⟨rfl, ?_⟩
        have e1 : ((2 ^ (f.prec - 1) : Nat) : ℚ) * (2 : ℚ) ^ (q + 1) = (m1 : ℚ) * (2 : ℚ) ^ q := by
          rw [hc, zpow_add₀ (by norm_num : (2 : ℚ) ≠ 0)]
          have : f.prec = (f.prec - 1) + 1 := by omega
          conv_rhs => rw [this]
          push_cast
          ring
        rw [e1]
        exact h1
    · rw [if_neg hc, if_neg hc]
      split
      · exact rfl
      · exact ⟨rfl, h1⟩

theorem Fl.round_cases (f : Fmt) (neg : Bool) (m : Nat) (e : Int) (st : Bool) :
    Fl.round f neg m e st = .inf neg ∨
      ∃ m' e', Fl.round f neg m e st = .fin neg m' e' ∧ f.emin ≤ e' := by
  unfold Fl.round
  by_cases hm : m = 0
  · rw [if_pos hm]
    exact Or.inr ⟨0, f.emin, rfl, le_refl _⟩
  · rw [if_neg hm]
    simp only []
    have hq : f.emin ≤ max (e + ((bitLen m : Nat) : Int) - (f.prec : Int)) f.emin :=
      le_max_right _ _
    generalize max (e + ((bitLen m : Nat) : Int) - (f.prec : Int)) f.emin = q at hq
    repeat' split
    all_goals first
      | exact Or.inl rfl
      | exact Or.inr ⟨_, _, rfl, by omega⟩

theorem Fl.mul_self_zeroOrAtLeast (f : Fmt) (x : Fl) :
    Fl.ZeroOrAtLeast f.emin (Fl.mul f x x) := by
  cases x with
  | nan => exact Or.inr trivial
  | inf a =>
    refine Or.inr ?_
    show Fl.AtLeast f.emin (.inf (xor a a))
    rw [Bool.xor_self]
    exact rfl
  | fin s m e =>
    show Fl.ZeroOrAtLeast f.emin (Fl.round f (xor s s) (m * m) (e + e) false)
    rw [Bool.xor_self]
    rcases Fl.round_cases f false (m * m) (e + e) false with h | ⟨m', e', h, he⟩
    · rw [h]
      exact Or.inr rfl
    · rw [h]
      by_cases hm : m' = 0
      · subst hm
        exact Or.inl ⟨e', rfl⟩
      · refine Or.inr ⟨rfl, ?_⟩
        have h1 : (1 : ℚ) ≤ (m' : ℚ) := by exact_mod_cast Nat.pos_of_ne_zero hm
        calc (2 : ℚ) ^ f.emin ≤ (2 : ℚ) ^ e' := zpow_le_zpow_right₀ (by norm_num) he
          _ = 1 * (2 : ℚ) ^ e' := by ring
          _ ≤ _ := mul_le_mul_of_nonneg_right h1 (by positivity)

theorem toFloat64_zeroOrAtLeast (L : Int) (hL : binary64.emin ≤ L) (x : Fl)
    (h : Fl.ZeroOrAtLeast L x) : Fl.ZeroOrAtLeast L (toFloat64 x) := by
  rcases h with ⟨e, rfl⟩ | h
  · exact Or.inl ⟨binary64.emin, rfl⟩
  · cases x with
    | nan => exact Or.inr trivial
    | inf a => exact Or.inr h
    | fin s m e =>
      obtain ⟨rfl, hv⟩ := h
      exact Or.inr (Fl.round_atLeast binary64 (by decide) L hL m e false hv)

theorem Fl.scaled_false_cast (m : Nat) (e e0 : Int) (h : e0 ≤ e) :
    ((Fl.scaled false m e e0 : Int) : ℚ) = (m : ℚ) * (2 : ℚ) ^ e / (2 : ℚ) ^ e0 := by
  rw [Fl.scaled_cast false m e e0 h]
  simp [Fl.signed]

theorem Fl.scaled_false_nonneg (m : Nat) (e e0 : Int) : 0 ≤ Fl.scaled false m e e0 := by
  unfold Fl.scaled Fl.signed
  simp only [Bool.false_eq_true, if_false]
  exact Int.ofNat_nonneg _

theorem Fl.add_zeroOrAtLeast (L : Int) (hL : binary64.emin ≤ L) (x y : Fl)
    (hx : Fl.ZeroOrAtLeast L x) (hy : Fl.ZeroOrAtLeast L y) :
    Fl.ZeroOrAtLeast L (Fl.add binary64 x y) := by
  cases x with
  | nan =>
    have e : Fl.add binary64 .nan y = .nan := by cases y <;> rfl
    rw [e]
    exact Or.inr trivial
  | inf a =>
    have ha : a = false := by
      rcases hx with ⟨e, h⟩ | h
      · exact Fl.noConfusion h
      · exact h
    subst ha
    cases y with
    | nan => exact Or.inr trivial
    | inf b =>
      have hb : b = false := by
        rcases hy with ⟨e, h⟩ | h
        · exact Fl.noConfusion h
        · exact h
      subst hb
      exact Or.inr rfl
    | fin s m e => exact Or.inr rfl
  | fin sx mx ex =>
    have hx' : sx = false ∧ (mx = 0 ∨ (2 : ℚ) ^ L ≤ (mx : ℚ) * (2 : ℚ) ^ ex) := by
      rcases hx with ⟨e, h⟩ | h
      · injection h with h1 h2 h3
        exact ⟨h1, Or.inl h2⟩
      · exact ⟨h.1, Or.inr h.2⟩
    obtain ⟨rfl, hxv⟩ := hx'
    cases y with
    | nan => exact Or.inr trivial
    | inf b =>
      have hb : b = false := by
        rcases hy with ⟨e, h⟩ | h
        · exact Fl.noConfusion h
        · exact h
      subst hb
      exact Or.inr rfl
    | fin sy my ey =>
      have hy' : sy = false ∧ (my = 0 ∨ (2 : ℚ) ^ L ≤ (my : ℚ) * (2 : ℚ) ^ ey) := by
        rcases hy with ⟨e, h⟩ | h
        · injection h with h1 h2 h3
          exact ⟨h1, Or.inl h2⟩
        · exact ⟨h.1, Or.inr h.2⟩
      obtain ⟨rfl, hyv⟩ := hy'
      show Fl.ZeroOrAtLeast L
        (if Fl.scaled false mx ex (min ex ey) + Fl.scaled false my ey (min ex ey) = 0 then
          .fin (false && false) 0 binary64.emin
        else Fl.round binary64
          (decide (Fl.scaled false mx ex (min ex ey) + Fl.scaled false my ey (min ex ey) < 0))
          (Fl.scaled false mx ex (min ex ey) + Fl.scaled false my ey (min ex ey)).natAbs
          (min ex ey) false)
      have h1 := Fl.scaled_false_nonneg mx ex (min ex ey)
      have h2 := Fl.scaled_false_nonneg my ey (min ex ey)
      have c1 := Fl.scaled_false_cast mx ex (min ex ey) (min_le_left _ _)
      have c2 := Fl.scaled_false_cast my ey (min ex ey) (min_le_right _ _)
      generalize Fl.scaled false mx ex (min ex ey) = u at h1 c1 ⊢
      generalize Fl.scaled false my ey (min ex ey) = v at h2 c2 ⊢
      by_cases hs : u + v = 0
      · rw [if_pos hs]
        exact Or.inl ⟨_, rfl⟩
      · rw [if_neg hs]
        have hneg : decide (u + v < 0) = false := by
          rw [decide_eq_false_iff_not]
          omega
        rw [hneg]
        refine Or.inr (Fl.round_atLeast binary64 (by decide) L hL _ _ false ?_)
        have hp : (0 : ℚ) < (2 : ℚ) ^ (min ex ey) := by positivity
        have hcast : (((u + v).natAbs : Nat) : ℚ) = (u : ℚ) + (v : ℚ) := by
          have : (((u + v).natAbs : Nat) : Int) = u + v := Int.natAbs_of_nonneg (by omega)
          have h3 : ((((u + v).natAbs : Nat) : Int) : ℚ) = ((u + v : Int) : ℚ) := by rw [this]
          rw [Int.cast_natCast, Int.cast_add] at h3
          exact h3
        rw [hcast, c1, c2, add_mul, div_mul_cancel₀ _ (ne_of_gt hp),
          div_mul_cancel₀ _ (ne_of_gt hp)]
        have nx : (0 : ℚ) ≤ (mx : ℚ) * (2 : ℚ) ^ ex := by positivity
        have ny : (0 : ℚ) ≤ (my : ℚ) * (2 : ℚ) ^ ey := by positivity
        rcases hxv with hx0 | hxv
        · rcases hyv with hy0 | hyv
          · exfalso
            subst hx0 hy0
            apply hs
            have e1 : (u : ℚ) = 0 := by rw [c1]; simp
            have e2 : (v : ℚ) = 0 := by rw [c2]; simp
            have e3 : u = 0 := by exact_mod_cast e1
            have e4 : v = 0 := by exact_mod_cast e2
            omega
          · linarith
        · linarith

theorem foldl_add_zeroOrAtLeast (L : Int) (hL : binary64.emin ≤ L) (ts : List Fl) :
    ∀ acc, Fl.ZeroOrAtLeast L acc → (∀ t ∈ ts, Fl.ZeroOrAtLeast L t) →
      Fl.ZeroOrAtLeast L (ts.foldl (Fl.add binary64) acc) := by
  induction ts with
  | nil => intro acc h _; exact h
  | cons t ts ih =>
    intro acc h hts
    rw [List.foldl_cons]
    exact ih _ (Fl.add_zeroOrAtLeast L hL acc t h (hts t (List.mem_cons_self _ _)))
      (fun u hu => hts u (List.mem_cons_of_mem _ hu))

theorem mem_zipWith_self {α β : Type} (g : α → α → β) (a : List α) :
    ∀ t ∈ List.zipWith g a a, ∃ x, t = g x x := by
  induction a with
  | nil => intro t ht; simp at ht
  | cons x a ih =>
    intro t ht
    rw [List.zipWith_cons_cons, List.mem_cons] at ht
    rcases ht with rfl | ht
    · exact ⟨x, rfl⟩
    · exact ih t ht

/-- A sum of squares is NaN, `+Inf`, a positive zero, or at least `2^-149`, the least
positive `float32`. -/
theorem sqNorm_zeroOrAtLeast (a : List Fl) : Fl.ZeroOrAtLeast (-149) (sqNorm a) := by
  unfold sqNorm dotProduct
  refine foldl_add_zeroOrAtLeast (-149) (by decide) _ zero64 (Or.inl ⟨_, rfl⟩) ?_
  intro t ht
  obtain ⟨x, rfl⟩ := mem_zipWith_self _ a t ht
  exact toFloat64_zeroOrAtLeast (-149) (by decide) _ (Fl.mul_self_zeroOrAtLeast binary32 x)

theorem Fl.AtLeast.eq_zero (L : Int) (x : Fl) (h : Fl.AtLeast L x) :
    Fl.eq x zero64 = false := by
  by_contra hc
  have hc' : Fl.eq x zero64 = true := by simpa using hc
  obtain ⟨s, e, rfl⟩ := (Fl.eq_zero_iff x).mp hc'
  have hp : (0 : ℚ) < (2 : ℚ) ^ L := by positivity
  have := h.2
  simp at this
  linarith

theorem sqNorm_atLeast (a : List Fl) (h : Fl.eq (sqNorm a) zero64 = false) :
    Fl.AtLeast (-149) (sqNorm a) := by
  rcases sqNorm_zeroOrAtLeast a with ⟨e, he⟩ | h'
  · exfalso
    have : Fl.eq (sqNorm a) zero64 = true := (Fl.eq_zero_iff _).mpr ⟨false, e, he⟩
    rw [h] at this
    exact Bool.false_ne_true this
  · exact h'

theorem Fl.mul_atLeast (L1 L2 : Int) (hL : binary64.emin ≤ L1 + L2) (x y : Fl)
    (hx : Fl.AtLeast L1 x) (hy : Fl.AtLeast L2 y) :
    Fl.AtLeast (L1 + L2) (Fl.mul binary64 x y) := by
  cases x with
  | nan =>
    have e : Fl.mul binary64 .nan y = .nan := by cases y <;> rfl
    rw [e]
    exact trivial
  | inf a =>
    have ha : a = false := hx
    subst ha
    cases y with
    | nan => exact trivial
    | inf b =>
      have hb : b = false := hy
      subst hb
      exact rfl
    | fin s m e =>
      obtain ⟨rfl, hv⟩ := hy
      show Fl.AtLeast (L1 + L2) (if m = 0 then .nan else .inf (xor false false))
      split
      · exact trivial
      · exact rfl
  | fin sx mx ex =>
    obtain ⟨rfl, hxv⟩ := hx
    cases y with
    | nan => exact trivial
    | inf b =>
      have hb : b = false := hy
      subst hb
      show Fl.AtLeast (L1 + L2) (if mx = 0 then .nan else .inf (xor false false))
      split
      · exact trivial
      · exact rfl
    | fin sy my ey =>
      obtain ⟨rfl, hyv⟩ := hy
      show Fl.AtLeast (L1 + L2) (Fl.round binary64 (xor false false) (mx * my) (ex + ey) false)
      refine Fl.round_atLeast binary64 (by decide) _ hL _ _ false ?_
      rw [zpow_add₀ (by norm_num : (2 : ℚ) ≠ 0), zpow_add₀ (by norm_num : (2 : ℚ) ≠ 0)]
      push_cast
      have hp1 : (0 : ℚ) < (2 : ℚ) ^ L1 := by positivity
      have hp2 : (0 : ℚ) < (2 : ℚ) ^ L2 := by positivity
      calc (2 : ℚ) ^ L1 * (2 : ℚ) ^ L2 ≤ ((mx : ℚ) * (2 : ℚ) ^ ex) * ((my : ℚ) * (2 : ℚ) ^ ey) :=
            mul_le_mul hxv hyv (le_of_lt hp2) (le_trans (le_of_lt hp1) hxv)
        _ = _ := by ring

theorem sqrtBits_upper (n : Nat) : ∀ b r, n < (r + 2 ^ b) * (r + 2 ^ b) →
    n < (sqrtBits n b r + 1) * (sqrtBits n b r + 1) := by
  intro b
  induction b with
  | zero =>
    intro r h
    simpa [sqrtBits] using h
  | succ b ih =>
    intro r h
    unfold sqrtBits
    split
    · apply ih
      rw [Nat.pow_succ] at h
      have e : r + 2 ^ b + 2 ^ b = r + 2 ^ b * 2 := by omega
      rw [e]
      exact h
    · apply ih
      omega

theorem natSqrt_upper (n : Nat) : n < (natSqrt n + 1) * (natSqrt n + 1) := by
  unfold natSqrt
  apply sqrtBits_upper
  have h1 := lt_two_pow_bitLen n
  have h2 : 2 ^ bitLen n ≤ 2 ^ ((bitLen n / 2 + 1) + (bitLen n / 2 + 1)) :=
    Nat.pow_le_pow_right (by norm_num) (by omega)
  rw [Nat.pow_add] at h2
  simp only [Nat.zero_add]
  omega

theorem Fl.sqrt_core (f : Fmt) (hprec : 1 ≤ f.prec) (L : Int) (hL : f.emin ≤ L) (M : Nat)
    (E : Int) (st : Bool) (hE : E % 2 = 0) (hM : 16 ≤ M)
    (hv : (2 : ℚ) ^ (2 * L + 1) ≤ (M : ℚ) * (2 : ℚ) ^ E) :
    Fl.AtLeast L (Fl.round f false (natSqrt M) (E / 2) st) := by
  have hup := natSqrt_upper M
  generalize natSqrt M = r at hup ⊢
  have hr : 3 ≤ r := by
    by_contra hc
    have : r ≤ 2 := by omega
    have : (r + 1) * (r + 1) ≤ 9 := by nlinarith
    omega
  have h2 : M < 2 * (r * r) := by nlinarith
  have h2q : (M : ℚ) < 2 * ((r : ℚ) * (r : ℚ)) := by exact_mod_cast h2
  have hEh : E = E / 2 + E / 2 := by omega
  have hpE : (0 : ℚ) < (2 : ℚ) ^ E := by positivity
  have h3 : (2 : ℚ) ^ (2 * L + 1) < 2 * ((r : ℚ) * (r : ℚ)) * (2 : ℚ) ^ E :=
    lt_of_le_of_lt hv (mul_lt_mul_of_pos_right h2q hpE)
  have e1 : (2 : ℚ) ^ (2 * L + 1) = 2 * ((2 : ℚ) ^ L) ^ 2 := by
    rw [zpow_add₀ (by norm_num : (2 : ℚ) ≠ 0), show 2 * L = L + L by ring,
      zpow_add₀ (by norm_num : (2 : ℚ) ≠ 0)]
    ring
  have e2 : 2 * ((r : ℚ) * (r : ℚ)) * (2 : ℚ) ^ E = 2 * ((r : ℚ) * (2 : ℚ) ^ (E / 2)) ^ 2 := by
    conv_lhs => rw [hEh, zpow_add₀ (by norm_num : (2 : ℚ) ≠ 0)]
    ring
  rw [e1, e2] at h3
  have h4 : ((2 : ℚ) ^ L) ^ 2 < ((r : ℚ) * (2 : ℚ) ^ (E / 2)) ^ 2 := by linarith
  refine Fl.round_atLeast f hprec L hL r (E / 2) st ?_
  by_contra hc
  have hc' : (r : ℚ) * (2 : ℚ) ^ (E / 2) ≤ (2 : ℚ) ^ L := le_of_lt (not_le.mp hc)
  have := pow_le_pow_left₀ (by positivity : (0 : ℚ) ≤ (r : ℚ) * (2 : ℚ) ^ (E / 2)) hc' 2
  linarith

theorem two_zpow_shift (m n c : Nat) (e : Int) :
    ((m * 2 ^ n * c : Nat) : ℚ) * (2 : ℚ) ^ (e - (n : Int)) = (m : ℚ) * (c : ℚ) * (2 : ℚ) ^ e := by
  rw [zpow_sub₀ (by norm_num : (2 : ℚ) ≠ 0), zpow_natCast]
  push_cast
  field_simp
  ring

/-- The square root of a value of at least `2^(2L+1)` is at least `2^L`. -/
theorem Fl.sqrt_atLeast (f : Fmt) (hprec : 1 ≤ f.prec) (L : Int) (hL : f.emin ≤ L) (x : Fl)
    (h : Fl.AtLeast (2 * L + 1) x) : Fl.AtLeast L (Fl.sqrt f x) := by
  cases x with
  | nan => exact trivial
  | inf a =>
    have ha : a = false := h
    subst ha
    exact rfl
  | fin s m e =>
    obtain ⟨rfl, hv⟩ := h
    have hm : m ≠ 0 := by
      rintro rfl
      have : (0 : ℚ) < (2 : ℚ) ^ (2 * L + 1) := by positivity
      simp at hv
      linarith
    have hmpos : 1 ≤ m := Nat.pos_of_ne_zero hm
    unfold Fl.sqrt
    simp only [hm, if_false, Bool.false_eq_true]
    have hk : 16 ≤ 2 ^ (2 * (f.prec + 2)) := by
      have : 2 ^ 4 ≤ 2 ^ (2 * (f.prec + 2)) := Nat.pow_le_pow_right (by norm_num) (by omega)
      omega
    by_cases ho : (e - 2 * ((f.prec + 2 : Nat) : Int)) % 2 = 0
    · have hd : decide ((e - 2 * ((f.prec + 2 : Nat) : Int)) % 2 ≠ 0) = false := by
        rw [decide_eq_false_iff_not]; exact fun hc => hc ho
      simp only [hd, Bool.false_eq_true, if_false]
      refine Fl.sqrt_core f hprec L hL _ _ _ ho ?_ ?_
      · nlinarith
      · have key := two_zpow_shift m (2 * (f.prec + 2)) 1 e
        rw [show ((2 * (f.prec + 2) : Nat) : Int) = 2 * ((f.prec + 2 : Nat) : Int) by push_cast; ring]
          at key
        rw [key]
        simpa using hv
    · have hd : decide ((e - 2 * ((f.prec + 2 : Nat) : Int)) % 2 ≠ 0) = true := by
        rw [decide_eq_true_iff]; exact ho
      simp only [hd, if_true]
      refine Fl.sqrt_core f hprec L hL _ _ _ (by omega) ?_ ?_
      · nlinarith
      · have key := two_zpow_shift m (2 * (f.prec + 2)) 2 (e - 1)
        rw [show e - 1 - ((2 * (f.prec + 2) : Nat) : Int) =
          e - 2 * ((f.prec + 2 : Nat) : Int) - 1 by push_cast; ring] at key
        rw [key, zpow_sub₀ (by norm_num : (2 : ℚ) ≠ 0), zpow_one]
        have e3 : (m : ℚ) * ((2 : Nat) : ℚ) * ((2 : ℚ) ^ e / 2) = (m : ℚ) * (2 : ℚ) ^ e := by
          push_cast
          ring
        rw [e3]
        exact hv

/-- The divisor of `CosineSimilarity` is never zero: when both sums of squares are non-zero,
the product of their square roots is NaN, `+Inf`, or at least `2^-150`. -/
theorem divisor_ne_zero (a b : List Fl) (ha : Fl.eq (sqNorm a) zero64 = false)
    (hb : Fl.eq (sqNorm b) zero64 = false) :
    Fl.eq (Fl.mul binary64 (Fl.sqrt binary64 (sqNorm a)) (Fl.sqrt binary64 (sqNorm b)))
      zero64 = false := by
  have h1 : Fl.AtLeast (-75) (Fl.sqrt binary64 (sqNorm a)) :=
    Fl.sqrt_atLeast binary64 (by decide) (-75) (by decide) (sqNorm a) (sqNorm_atLeast a ha)
  have h2 : Fl.AtLeast (-75) (Fl.sqrt binary64 (sqNorm b)) :=
    Fl.sqrt_atLeast binary64 (by decide) (-75) (by decide) (sqNorm b) (sqNorm_atLeast b hb)
  exact Fl.AtLeast.eq_zero _ _ (Fl.mul_atLeast (-75) (-75) (by decide) _ _ h1 h2)

/-! ## The claims, continued -/

/-- C11: for `a` and `b` of equal length, `CosineSimilarity(a, b)` and
`CosineSimilarity(b, a)` return the same value, and the two values compare `==` in Go
unless that common value is NaN. -/
theorem CosineSimilarity_symm (a b : List Fl) (_hlen : a.length = b.length) :
    CosineSimilarity a b = CosineSimilarity b a ∧
    ∀ x y, CosineSimilarity a b = some x → CosineSimilarity b a = some y → x ≠ .nan →
      Fl.eq x y = true := by
  have hc : CosineSimilarity a b = CosineSimilarity b a := by
    rw [CosineSimilarity_eq, CosineSimilarity_eq, cosineValue_comm]
  refine ⟨hc, ?_⟩
  intro x y hx hy hn
  rw [hc, hy] at hx
  rw [Option.some.inj hx]
  exact Fl.eq_refl_of_ne_nan x hn

theorem CosineSimilarity_symm_witness :
    demoQuery.length = king.Values.length ∧
    CosineSimilarity demoQuery king.Values = some (.fin false 8992605279867830 (-53)) ∧
    CosineSimilarity demoQuery king.Values = CosineSimilarity king.Values demoQuery ∧
    ∀ x y, CosineSimilarity demoQuery king.Values = some x →
      CosineSimilarity king.Values demoQuery = some y → x ≠ .nan → Fl.eq x y = true :=
  ⟨by decide, by decide!, CosineSimilarity_symm demoQuery king.Values (by decide)⟩

/-- C11, as stated, fails: for `a = []float32{1e30}`, `b = []float32{2e30}` (equal length)
the products overflow `float32`, `CosineSimilarity(a, b)` and `CosineSimilarity(b, a)` are
both NaN, and `NaN == NaN` is false in Go; so it is for `a = b = []float32{1e30}`. -/
theorem CosineSimilarity_symm_counterexample :
    [f32 (10 ^ 30) 1].length = [f32 (2 * 10 ^ 30) 1].length ∧
    CosineSimilarity [f32 (10 ^ 30) 1] [f32 (2 * 10 ^ 30) 1] = some .nan ∧
    CosineSimilarity [f32 (2 * 10 ^ 30) 1] [f32 (10 ^ 30) 1] = some .nan ∧
    CosineSimilarity [f32 (10 ^ 30) 1] [f32 (10 ^ 30) 1] = some .nan ∧
    Fl.eq .nan .nan = false := by
  decide!

/-- C14: for every query vector and every `topK >= 0`, `Query` on an empty store returns an
empty sequence.  (`sort.Slice` only permutes the slice.) -/
theorem Query_empty_store (sort : SortSlice) (hperm : ∀ less xs, (sort less xs).Perm xs)
    (db : VectorDB) (q : List Fl) (topK : Int) (hdb : db.storage = []) (h0 : 0 ≤ topK) :
    Query sort db q topK = some [] := by
  rw [Query_of_nonneg sort db q topK h0]
  have hl := sort_length sort hperm db q
  rw [hdb] at hl
  rw [List.length_eq_zero.mp hl, List.take_nil]

theorem Query_empty_store_witness :
    (∀ less xs, (sortSlice less xs : List SearchResult).Perm xs) ∧
    NewVectorDB.storage = [] ∧ (0 : Int) ≤ 2 ∧
    Query sortSlice NewVectorDB demoQuery 2 = some [] :=
  ⟨sortSlice_perm, rfl, by decide,
    Query_empty_store sortSlice sortSlice_perm NewVectorDB demoQuery 2 rfl (by decide)⟩

/-- C14, as stated, fails: on the empty store with `topK = -1`, `len(results) > topK` is
`0 > -1`, and `results[:-1]` panics. -/
theorem Query_empty_store_counterexample :
    NewVectorDB.storage = [] ∧ Query sortSlice NewVectorDB demoQuery (-1) = none := by
  decide!

/-- C15: `Query` has no side effect on the store: for `topK >= 0`, the run of `Query` on
the memory ends with the store it started with (the same vectors in the same order), and
returns what `Query` returns; the sort acts on the local slice `results` alone. -/
theorem Query_no_side_effect (sort : SortSlice) (db : VectorDB) (q : List Fl) (topK : Int)
    (h0 : 0 ≤ topK) :
    ∃ res, QueryRun sort db q topK = some (db, res) ∧ Query sort db q topK = some res := by
  refine ⟨_, ?_, Query_of_nonneg sort db q topK h0⟩
  rw [QueryRun_eq, Query_of_nonneg sort db q topK h0]
  rfl

theorem Query_no_side_effect_witness :
    (0 : Int) ≤ 2 ∧ ∃ res, QueryRun sortSlice demoDB demoQuery 2 = some (demoDB, res) ∧
      Query sortSlice demoDB demoQuery 2 = some res :=
  ⟨by decide, Query_no_side_effect sortSlice demoDB demoQuery 2 (by decide)⟩

/-- C16: `Insert` appends, with no validation and no deduplication: for every store of
size `n` and every vector `v`, the store after `Insert(v)` has size `n + 1`, its first `n`
elements are the previous elements in their order, and its last element is `v`. -/
theorem Insert_appends (db : VectorDB) (v : Vector) :
    (Insert db v).storage.length = db.storage.length + 1 ∧
    (Insert db v).storage.take db.storage.length = db.storage ∧
    (∀ i, i < db.storage.length → (Insert db v).storage[i]? = db.storage[i]?) ∧
    (Insert db v).storage[db.storage.length]? = some v ∧
    (Insert db v).storage.getLast? = some v := by
  refine ⟨by simp [Insert], by simp [Insert], ?_, by simp [Insert], by simp [Insert]⟩
  intro i hi
  simp [Insert, List.getElem?_append_left hi]

/-- C19: no guard on negative `topK`: for every store, query and `topK < 0`, the test
`len(results) > topK` is true and `results[:topK]` panics; `Query` returns a result if and
only if `topK >= 0`. -/
theorem Query_negative_topK (sort : SortSlice) (db : VectorDB) (q : List Fl) (topK : Int) :
    (topK < 0 →
      topK < ((sort (fun x y => Fl.gt x.Similarity y.Similarity) (scored db q)).length : Int) ∧
      Query sort db q topK = none) ∧
    ((∃ res, Query sort db q topK = some res) ↔ 0 ≤ topK) := by
  constructor
  · intro h
    have hl : topK < ((sort (fun x y => Fl.gt x.Similarity y.Similarity)
        (scored db q)).length : Int) := by omega
    exact ⟨hl, by rw [Query_eq, if_pos ⟨h, hl⟩]⟩
  · constructor
    · rintro ⟨res, hres⟩
      by_contra hneg
      have h : topK < 0 := by omega
      have hl : topK < ((sort (fun x y => Fl.gt x.Similarity y.Similarity)
          (scored db q)).length : Int) := by omega
      rw [Query_eq, if_pos ⟨h, hl⟩] at hres
      exact Option.noConfusion hres
    · intro h
      exact ⟨_, Query_of_nonneg sort db q topK h⟩

/-- C20: prefix consistency: for `0 <= k <= k'`, `Query(q, k)` is the first `min(k, n)`
elements of `Query(q, k')`, and of the full ranking `Query(q, n)`, where `n` is the size of
the store.  (`sort.Slice` only permutes the slice.) -/
theorem Query_prefix (sort : SortSlice) (hperm : ∀ less xs, (sort less xs).Perm xs)
    (db : VectorDB) (q : List Fl) (k k' : Int) (h0 : 0 ≤ k) (hk : k ≤ k') :
    ∃ res res' full, Query sort db q k = some res ∧ Query sort db q k' = some res' ∧
      Query sort db q db.storage.length = some full ∧
      res = res'.take (min k.toNat db.storage.length) ∧
      res = full.take (min k.toNat db.storage.length) ∧
      res.length = min k.toNat db.storage.length := by
  have hl := sort_length sort hperm db q
  refine ⟨_, _, _, Query_of_nonneg sort db q k h0, Query_of_nonneg sort db q k' (by omega),
    Query_of_nonneg sort db q _ (Int.ofNat_nonneg _), ?_, ?_, ?_⟩
  · rw [List.take_take]
    have e : min (min k.toNat db.storage.length) k'.toNat = min k.toNat db.storage.length := by
      omega
    rw [e, ← hl, take_min_length]
  · rw [List.take_take, Int.toNat_ofNat]
    have e : min (min k.toNat db.storage.length) db.storage.length =
        min k.toNat db.storage.length := by omega
    rw [e, ← hl, take_min_length]
  · rw [List.length_take, hl]

theorem Query_prefix_witness :
    (∀ less xs, (sortSlice less xs : List SearchResult).Perm xs) ∧
    (0 : Int) ≤ 1 ∧ (1 : Int) ≤ 2 ∧
    ∃ res res' full, Query sortSlice demoDB demoQuery 1 = some res ∧
      Query sortSlice demoDB demoQuery 2 = some res' ∧
      Query sortSlice demoDB demoQuery demoDB.storage.length = some full ∧
      res = res'.take (min (1 : Int).toNat demoDB.storage.length) ∧
      res = full.take (min (1 : Int).toNat demoDB.storage.length) ∧
      res.length = min (1 : Int).toNat demoDB.storage.length :=
  ⟨sortSlice_perm, by decide, by decide,
    Query_prefix sortSlice sortSlice_perm demoDB demoQuery 1 2 (by decide) (by decide)⟩

/-- C17: `Query` never fails for `topK >= 0`, whatever the store and the query: it returns a
result sequence; every call of `CosineSimilarity` returns (no index is out of range), a
stored vector of another length than the query's scores 0, a zero sum of squares scores 0
before the division, and when the division is reached its divisor is not zero. -/
theorem Query_never_fails (sort : SortSlice) (db : VectorDB) (q : List Fl) (topK : Int)
    (h0 : 0 ≤ topK) :
    (∃ res, Query sort db q topK = some res) ∧
    ∀ v ∈ db.storage,
      (∃ s, CosineSimilarity q v.Values = some s) ∧
      (q.length ≠ v.Values.length → CosineSimilarity q v.Values = some zero64) ∧
      (Fl.eq (sqNorm q) zero64 = true ∨ Fl.eq (sqNorm v.Values) zero64 = true →
        CosineSimilarity q v.Values = some zero64) ∧
      (Fl.eq (sqNorm q) zero64 = false → Fl.eq (sqNorm v.Values) zero64 = false →
        Fl.eq (Fl.mul binary64 (Fl.sqrt binary64 (sqNorm q))
          (Fl.sqrt binary64 (sqNorm v.Values))) zero64 = false) := by
  refine ⟨⟨_, Query_of_nonneg sort db q topK h0⟩, ?_⟩
  intro v _
  refine ⟨⟨_, CosineSimilarity_eq q v.Values⟩, ?_, ?_, divisor_ne_zero q v.Values⟩
  · intro hne
    rw [CosineSimilarity_eq]
    simp [cosineValue, hne]
  · intro hz
    rw [CosineSimilarity_eq]
    unfold cosineValue
    rcases hz with hz | hz <;> simp [hz]

theorem Query_never_fails_witness :
    (0 : Int) ≤ 2 ∧ (∃ res, Query sortSlice demoDB demoQuery 2 = some res) ∧
    ∀ v ∈ demoDB.storage,
      (∃ s, CosineSimilarity demoQuery v.Values = some s) ∧
      (demoQuery.length ≠ v.Values.length → CosineSimilarity demoQuery v.Values = some zero64) ∧
      (Fl.eq (sqNorm demoQuery) zero64 = true ∨ Fl.eq (sqNorm v.Values) zero64 = true →
        CosineSimilarity demoQuery v.Values = some zero64) ∧
      (Fl.eq (sqNorm demoQuery) zero64 = false → Fl.eq (sqNorm v.Values) zero64 = false →
        Fl.eq (Fl.mul binary64 (Fl.sqrt binary64 (sqNorm demoQuery))
          (Fl.sqrt binary64 (sqNorm v.Values))) zero64 = false) :=
  ⟨by decide, Query_never_fails sortSlice demoDB demoQuery 2 (by decide)⟩

/-- C12, where the code falls short: `a = []float32{1e-30}` has a non-zero component, but
`a[0] * a[0]` is rounded to `float32` before it is widened and underflows to 0, so the sum
of squares is 0 and `CosineSimilarity(a, a)` returns 0; for `a = []float32{1e30}` the
product overflows to `+Inf` and `CosineSimilarity(a, a)` returns NaN.  Neither is 1.  With
the operands widened before the product, `float64(a[0]) * float64(a[0])`, the same formula
gives 1 on both. -/
theorem CosineSimilarity_self_not_one :
    Fl.eq (f32 1 (10 ^ 30)) zero64 = false ∧
    Fl.mul binary32 (f32 1 (10 ^ 30)) (f32 1 (10 ^ 30)) = .fin false 0 (-149) ∧
    CosineSimilarity [f32 1 (10 ^ 30)] [f32 1 (10 ^ 30)] = some zero64 ∧
    Fl.eq zero64 one64 = false ∧
    Fl.eq (f32 (10 ^ 30) 1) zero64 = false ∧
    Fl.mul binary32 (f32 (10 ^ 30) 1) (f32 (10 ^ 30) 1) = .inf false ∧
    CosineSimilarity [f32 (10 ^ 30) 1] [f32 (10 ^ 30) 1] = some .nan ∧
    Fl.eq .nan one64 = false ∧
    ∀ x ∈ [f32 1 (10 ^ 30), f32 (10 ^ 30) 1],
      Fl.div binary64 (Fl.add binary64 zero64 (Fl.mul binary64 (toFloat64 x) (toFloat64 x)))
        (Fl.mul binary64
          (Fl.sqrt binary64
            (Fl.add binary64 zero64 (Fl.mul binary64 (toFloat64 x) (toFloat64 x))))
          (Fl.sqrt binary64
            (Fl.add binary64 zero64 (Fl.mul binary64 (toFloat64 x) (toFloat64 x))))) =
        one64 := by
  decide!

/-- C13, where the code falls short: for `a = b = []float32{1e30}` (equal length, sums of
squares `+Inf`, not zero) the result is NaN, and neither `-1 <= NaN` nor `NaN <= 1` holds;
for `a = []float32{0x1.8p-74}`, `b = []float32{1}` the square of `a[0]` is rounded to the
subnormal `2^-147` and the result is about 1.06; for `a = b = []float32{1, 1, 1}` the result
is `1 + 2^-52`, since `sqrt(3) * sqrt(3)` is rounded below 3. -/
theorem CosineSimilarity_out_of_range :
    Fl.eq (sqNorm [f32 (10 ^ 30) 1]) zero64 = false ∧
    CosineSimilarity [f32 (10 ^ 30) 1] [f32 (10 ^ 30) 1] = some .nan ∧
    Fl.le (.fin true 4503599627370496 (-52)) .nan = false ∧ Fl.le .nan one64 = false ∧
    Fl.eq (sqNorm [f32 3 (2 ^ 75)]) zero64 = false ∧ Fl.eq (sqNorm [f32 1 1]) zero64 = false ∧
    CosineSimilarity [f32 3 (2 ^ 75)] [f32 1 1] = some (.fin false 4776788754394329 (-52)) ∧
    Fl.le (.fin false 4776788754394329 (-52)) one64 = false ∧
    Fl.eq (sqNorm [f32 1 1, f32 1 1, f32 1 1]) zero64 = false ∧
    CosineSimilarity [f32 1 1, f32 1 1, f32 1 1] [f32 1 1, f32 1 1, f32 1 1] =
      some (.fin false 4503599627370497 (-52)) ∧
    Fl.le (.fin false 4503599627370497 (-52)) one64 = false := by
  decide!

/-! ## Scaling by a power of two -/

/-- In the normal range `Fl.round` is `roundMant` and `roundExp`: the exponent `e` only
shifts the result. -/
theorem Fl.round_normal (f : Fmt) (neg : Bool) (m : Nat) (e : Int) (st : Bool) (hm : m ≠ 0)
    (hc : f.emin ≤ e + ((bitLen m : Nat) : Int) - (f.prec : Int)) :
    Fl.round f neg m e st =
      if f.emax < e + roundExp f.prec m st then .inf neg
      else .fin neg (roundMant f.prec m st) (e + roundExp f.prec m st) := by
  unfold Fl.round roundExp roundMant
  rw [if_neg hm]
  simp only []
  rw [max_eq_left hc]
  have e1 : e + ((bitLen m : Nat) : Int) - (f.prec : Int) =
      e + (((bitLen m : Nat) : Int) - (f.prec : Int)) := by ring
  rw [e1]
  generalize ((bitLen m : Nat) : Int) - (f.prec : Int) = d
  by_cases hd : d ≤ 0
  · have h1 : e + d ≤ e := by omega
    have h2 : (e - (e + d)).toNat = (-d).toNat := by congr 1; ring
    rw [if_pos h1, if_pos hd, if_pos hd, h2]
  · have h1 : ¬ e + d ≤ e := by omega
    have h2 : (e + d - e).toNat = d.toNat := by congr 1; ring
    rw [if_neg h1, if_neg hd, if_neg hd, h2]
    generalize (if (decide (2 ^ (d.toNat - 1) < m % 2 ^ d.toNat) ||
        decide (m % 2 ^ d.toNat = 2 ^ (d.toNat - 1)) && (st || decide (m / 2 ^ d.toNat % 2 = 1))) =
        true then m / 2 ^ d.toNat + 1 else m / 2 ^ d.toNat) = m1
    by_cases hc2 : m1 = 2 ^ f.prec
    · simp only [hc2, if_true, add_assoc]
    · simp only [hc2, if_false]

theorem bitLen_pos (m : Nat) (hm : m ≠ 0) : 1 ≤ bitLen m := by
  have h := lt_two_pow_bitLen m
  by_contra hc
  have h0 : bitLen m = 0 := by omega
  rw [h0] at h
  omega

theorem two_pow_bitLen_pred_le (m : Nat) (hm : m ≠ 0) : 2 ^ (bitLen m - 1) ≤ m := by
  have h := two_pow_bitLen_le m (Nat.pos_of_ne_zero hm)
  have hb := bitLen_pos m hm
  have e : bitLen m = (bitLen m - 1) + 1 := by omega
  rw [e, Nat.pow_succ] at h
  omega

theorem bitLen_eq (m b : Nat) (h1 : 2 ^ b ≤ m) (h2 : m < 2 ^ (b + 1)) : bitLen m = b + 1 := by
  have hm : m ≠ 0 := by
    have : 0 < 2 ^ b := by positivity
    omega
  have h3 := lt_two_pow_bitLen m
  have h4 := two_pow_bitLen_pred_le m hm
  have hb := bitLen_pos m hm
  have h5 : b < bitLen m := (Nat.pow_lt_pow_iff_right (by norm_num : 1 < 2)).mp (lt_of_le_of_lt h1 h3)
  have h6 : bitLen m - 1 < b + 1 :=
    (Nat.pow_lt_pow_iff_right (by norm_num : 1 < 2)).mp (lt_of_le_of_lt h4 h2)
  omega

theorem roundExp_of_le (prec m : Nat) (st : Bool)
    (hd : ((bitLen m : Nat) : Int) - (prec : Int) ≤ 0) :
    roundExp prec m st = ((bitLen m : Nat) : Int) - (prec : Int) := by
  unfold roundExp
  simp only []
  rw [if_pos hd]

theorem roundMant_of_le (prec m : Nat) (st : Bool)
    (hd : ((bitLen m : Nat) : Int) - (prec : Int) ≤ 0) :
    roundMant prec m st = m * 2 ^ (prec - bitLen m) := by
  unfold roundMant
  simp only []
  rw [if_pos hd]
  congr 2
  omega

/-- The parts of a rounding that drops `sh = bitLen m - prec > 0` bits: the significand
before renormalisation is the quotient `m / 2^sh` or its successor, and it is the quotient
when nothing is dropped. -/
theorem round_parts (prec m : Nat) (st : Bool) (hd : prec < bitLen m) :
    ∃ m1 : Nat, (m1 = m / 2 ^ (bitLen m - prec) ∨
        (m1 = m / 2 ^ (bitLen m - prec) + 1 ∧ (st = true ∨ 0 < m % 2 ^ (bitLen m - prec)))) ∧
      roundMant prec m st = (if m1 = 2 ^ prec then 2 ^ (prec - 1) else m1) ∧
      roundExp prec m st = (if m1 = 2 ^ prec then ((bitLen m - prec : Nat) : Int) + 1
        else ((bitLen m - prec : Nat) : Int)) := by
  have hd' : ¬ ((bitLen m : Nat) : Int) - (prec : Int) ≤ 0 := by omega
  have hsh : (((bitLen m : Nat) : Int) - (prec : Int)).toNat = bitLen m - prec := by omega
  have hdc : ((bitLen m : Nat) : Int) - (prec : Int) = ((bitLen m - prec : Nat) : Int) := by omega
  unfold roundMant roundExp
  simp only []
  rw [if_neg hd', if_neg hd', hsh, hdc]
  refine ⟨_, ?_, rfl, rfl⟩
  split
  · rename_i hup
    right
    refine ⟨rfl, ?_⟩
    simp only [Bool.or_eq_true, Bool.and_eq_true, decide_eq_true_eq] at hup
    have hpos : 0 < 2 ^ (bitLen m - prec - 1) := by positivity
    rcases hup with h | ⟨h, h' | _⟩
    · right; omega
    · left; exact h'
    · right; omega
  · left
    rfl

theorem quot_bounds (prec m : Nat) (hprec : 1 ≤ prec) (hd : prec < bitLen m) :
    2 ^ (prec - 1) ≤ m / 2 ^ (bitLen m - prec) ∧ m / 2 ^ (bitLen m - prec) < 2 ^ prec := by
  have hm : m ≠ 0 := by
    rintro rfl
    have : bitLen 0 = 0 := rfl
    omega
  have h1 := two_pow_bitLen_pred_le m hm
  have h2 := lt_two_pow_bitLen m
  constructor
  · rw [Nat.le_div_iff_mul_le (by positivity), ← Nat.pow_add]
    rw [show prec - 1 + (bitLen m - prec) = bitLen m - 1 by omega]
    exact h1
  · rw [Nat.div_lt_iff_lt_mul (by positivity), ← Nat.pow_add]
    rw [show prec + (bitLen m - prec) = bitLen m by omega]
    exact h2

/-- The significand of a rounding is normal: it has exactly `prec` bits. -/
theorem roundMant_bounds (prec m : Nat) (st : Bool) (hprec : 1 ≤ prec) (hm : m ≠ 0) :
    2 ^ (prec - 1) ≤ roundMant prec m st ∧ roundMant prec m st < 2 ^ prec := by
  by_cases hd : bitLen m ≤ prec
  · rw [roundMant_of_le prec m st (by omega)]
    have h1 := two_pow_bitLen_pred_le m hm
    have h2 := lt_two_pow_bitLen m
    have hb := bitLen_pos m hm
    constructor
    · calc 2 ^ (prec - 1) = 2 ^ (bitLen m - 1) * 2 ^ (prec - bitLen m) := by
            rw [← Nat.pow_add]; congr 1; omega
        _ ≤ m * 2 ^ (prec - bitLen m) := Nat.mul_le_mul_right _ h1
    · calc m * 2 ^ (prec - bitLen m) < 2 ^ bitLen m * 2 ^ (prec - bitLen m) :=
            Nat.mul_lt_mul_of_pos_right h2 (by positivity)
        _ = 2 ^ prec := by rw [← Nat.pow_add]; congr 1; omega
  · obtain ⟨m1, hm1, hM, -⟩ := round_parts prec m st (by omega)
    have hq := quot_bounds prec m hprec (by omega)
    have hp : 2 ^ (prec - 1) < 2 ^ prec := Nat.pow_lt_pow_right (by norm_num) (by omega)
    rw [hM]
    split
    · exact ⟨le_refl _, hp⟩
    · rename_i hne
      rcases hm1 with h | ⟨h, -⟩ <;> omega

theorem roundExp_bounds (prec m : Nat) (st : Bool) :
    ((bitLen m : Nat) : Int) - (prec : Int) ≤ roundExp prec m st ∧
      roundExp prec m st ≤ ((bitLen m : Nat) : Int) - (prec : Int) + 1 := by
  by_cases hd : bitLen m ≤ prec
  · rw [roundExp_of_le prec m st (by omega)]
    omega
  · obtain ⟨m1, -, -, hE⟩ := round_parts prec m st (by omega)
    rw [hE]
    split <;> omega

theorem two_zpow_natCast_sub (a b : Nat) (h : b ≤ a) :
    ((2 : ℚ) ^ (a - b : Nat)) = (2 : ℚ) ^ ((a : Int) - (b : Int)) := by
  rw [← zpow_natCast, Nat.cast_sub h]

/-- The value of a rounding that drops no bit is the value rounded. -/
theorem round_val_exact (prec m : Nat) (st : Bool) (e : Int) (hd : bitLen m ≤ prec) :
    (roundMant prec m st : ℚ) * (2 : ℚ) ^ (e + roundExp prec m st) = (m : ℚ) * (2 : ℚ) ^ e := by
  rw [roundMant_of_le prec m st (by omega), roundExp_of_le prec m st (by omega)]
  push_cast
  rw [two_zpow_natCast_sub _ _ hd, mul_assoc, ← zpow_add₀ (by norm_num : (2 : ℚ) ≠ 0)]
  congr 2
  ring

/-- The value of a rounding that drops `sh > 0` bits is `m1 * 2^(e + sh)` for the quotient
`m1 = m / 2^sh` or its successor. -/
theorem round_val_parts (prec m : Nat) (st : Bool) (e : Int) (hprec : 1 ≤ prec)
    (hd : prec < bitLen m) :
    ∃ m1 : Nat, (m1 = m / 2 ^ (bitLen m - prec) ∨
        (m1 = m / 2 ^ (bitLen m - prec) + 1 ∧ (st = true ∨ 0 < m % 2 ^ (bitLen m - prec)))) ∧
      (roundMant prec m st : ℚ) * (2 : ℚ) ^ (e + roundExp prec m st) =
        (m1 : ℚ) * (2 : ℚ) ^ (e + ((bitLen m - prec : Nat) : Int)) := by
  obtain ⟨m1, hm1, hM, hE⟩ := round_parts prec m st hd
  refine ⟨m1, hm1, ?_⟩
  rw [hM, hE]
  by_cases hc : m1 = 2 ^ prec
  · rw [if_pos hc, if_pos hc, hc]
    push_cast
    have e1 : (2 : ℚ) ^ prec = (2 : ℚ) ^ (prec - 1) * 2 := by
      rw [← pow_succ]; congr 1; omega
    rw [e1, ← add_assoc, zpow_add₀ (by norm_num : (2 : ℚ) ≠ 0) _ 1, zpow_one]
    ring
  · rw [if_neg hc, if_neg hc]

theorem quot_mul_le (m sh : Nat) (e : Int) :
    ((m / 2 ^ sh : Nat) : ℚ) * (2 : ℚ) ^ (e + (sh : Int)) ≤ (m : ℚ) * (2 : ℚ) ^ e := by
  have h : m / 2 ^ sh * 2 ^ sh ≤ m := Nat.div_mul_le_self m (2 ^ sh)
  have hq : ((m / 2 ^ sh : Nat) : ℚ) * (2 : ℚ) ^ sh ≤ (m : ℚ) := by exact_mod_cast h
  rw [add_comm, zpow_add₀ (by norm_num : (2 : ℚ) ≠ 0), zpow_natCast, ← mul_assoc]
  exact mul_le_mul_of_nonneg_right hq (by positivity)

/-- Rounding does not cross a representable bound: a value of at most `B * 2^U`, with
`B < 2^prec`, is rounded to at most `B * 2^U`. -/
theorem round_atMost (prec m : Nat) (hprec : 1 ≤ prec) (e U : Int) (B : Nat)
    (hB : B < 2 ^ prec) (h : (m : ℚ) * (2 : ℚ) ^ e ≤ (B : ℚ) * (2 : ℚ) ^ U) :
    (roundMant prec m false : ℚ) * (2 : ℚ) ^ (e + roundExp prec m false) ≤
      (B : ℚ) * (2 : ℚ) ^ U := by
  by_cases hd : bitLen m ≤ prec
  · rw [round_val_exact prec m false e hd]
    exact h
  · obtain ⟨m1, hm1, hv⟩ := round_val_parts prec m false e hprec (by omega)
    rw [hv]
    have hq := quot_bounds prec m hprec (by omega)
    have hle := quot_mul_le m (bitLen m - prec) e
    rcases hm1 with h1 | ⟨h1, hr⟩
    · rw [h1]
      exact le_trans hle h
    · have hr' : 0 < m % 2 ^ (bitLen m - prec) := by
        rcases hr with hr | hr
        · exact absurd hr Bool.false_ne_true
        · exact hr
      have hpe : (0 : ℚ) < (2 : ℚ) ^ e := by positivity
      by_cases hU : e + ((bitLen m - prec : Nat) : Int) ≤ U
      · -- the bound is a multiple of the quantum of the result
        have hX : (B : ℚ) * (2 : ℚ) ^ U =
            ((B * 2 ^ (U - (e + ((bitLen m - prec : Nat) : Int))).toNat : Nat) : ℚ) *
              (2 : ℚ) ^ (e + ((bitLen m - prec : Nat) : Int)) := by
          push_cast
          rw [two_zpow_toNat _ (by omega), mul_assoc, ← zpow_add₀ (by norm_num : (2 : ℚ) ≠ 0)]
          congr 2
          ring
        rw [hX] at h ⊢
        generalize B * 2 ^ (U - (e + ((bitLen m - prec : Nat) : Int))).toNat = X at h ⊢
        have h2 : (m : ℚ) ≤ ((X * 2 ^ (bitLen m - prec) : Nat) : ℚ) := by
          rw [add_comm, zpow_add₀ (by norm_num : (2 : ℚ) ≠ 0), zpow_natCast, ← mul_assoc] at h
          have := le_of_mul_le_mul_right h hpe
          push_cast
          exact this
        have h3 : m ≤ X * 2 ^ (bitLen m - prec) := by exact_mod_cast h2
        have h4 := Nat.div_add_mod m (2 ^ (bitLen m - prec))
        have h5 : m / 2 ^ (bitLen m - prec) < X := by
          by_contra hc
          have : X * 2 ^ (bitLen m - prec) ≤ m / 2 ^ (bitLen m - prec) * 2 ^ (bitLen m - prec) :=
            Nat.mul_le_mul_right _ (by omega)
          rw [Nat.mul_comm] at h4
          omega
        have h6 : (m1 : ℚ) ≤ (X : ℚ) := by
          rw [h1]
          exact_mod_cast h5
        exact mul_le_mul_of_nonneg_right h6 (by positivity)
      · -- the bound is below the least value with this quantum
        exfalso
        have hBq : (B : ℚ) < (2 : ℚ) ^ (prec : Int) := by
          rw [zpow_natCast]
          exact_mod_cast hB
        have hpU : (0 : ℚ) < (2 : ℚ) ^ U := by positivity
        have h1' : (B : ℚ) * (2 : ℚ) ^ U < (2 : ℚ) ^ ((prec : Int) + U) := by
          rw [zpow_add₀ (by norm_num : (2 : ℚ) ≠ 0)]
          exact mul_lt_mul_of_pos_right hBq hpU
        have h2 : (2 : ℚ) ^ ((prec : Int) + U) ≤
            (2 : ℚ) ^ (((prec - 1 : Nat) : Int) + (e + ((bitLen m - prec : Nat) : Int))) :=
          zpow_le_zpow_right₀ (by norm_num) (by omega)
        have h3 : (2 : ℚ) ^ (((prec - 1 : Nat) : Int) + (e + ((bitLen m - prec : Nat) : Int))) ≤
            ((m / 2 ^ (bitLen m - prec) : Nat) : ℚ) *
              (2 : ℚ) ^ (e + ((bitLen m - prec : Nat) : Int)) := by
          rw [zpow_add₀ (by norm_num : (2 : ℚ) ≠ 0), zpow_natCast]
          have : ((2 : ℚ) ^ (prec - 1)) ≤ ((m / 2 ^ (bitLen m - prec) : Nat) : ℚ) := by
            exact_mod_cast hq.1
          exact mul_le_mul_of_nonneg_right this (by positivity)
        linarith

/-- Rounding keeps the multiples of `2^L`. -/
theorem round_multiple (prec m : Nat) (hprec : 1 ≤ prec) (e L : Int) (N : Nat)
    (h : (m : ℚ) * (2 : ℚ) ^ e = (N : ℚ) * (2 : ℚ) ^ L) :
    ∃ N' : Nat, (roundMant prec m false : ℚ) * (2 : ℚ) ^ (e + roundExp prec m false) =
      (N' : ℚ) * (2 : ℚ) ^ L := by
  by_cases hd : bitLen m ≤ prec
  · rw [round_val_exact prec m false e hd]
    exact ⟨N, h⟩
  · obtain ⟨m1, hm1, hv⟩ := round_val_parts prec m false e hprec (by omega)
    rw [hv]
    by_cases hL : L ≤ e + ((bitLen m - prec : Nat) : Int)
    · refine ⟨m1 * 2 ^ (e + ((bitLen m - prec : Nat) : Int) - L).toNat, ?_⟩
      push_cast
      rw [two_zpow_toNat _ (by omega), mul_assoc, ← zpow_add₀ (by norm_num : (2 : ℚ) ≠ 0)]
      congr 2
      ring
    · -- the value is a multiple of a higher power of two: nothing is dropped
      refine ⟨N, ?_⟩
      rw [← h]
      have hpe : (0 : ℚ) < (2 : ℚ) ^ e := by positivity
      have hm' : (m : ℚ) = ((N * 2 ^ (L - e).toNat : Nat) : ℚ) := by
        push_cast
        rw [two_zpow_toNat _ (by omega), zpow_sub₀ (by norm_num : (2 : ℚ) ≠ 0)]
        field_simp
        exact h
      have hmN : m = N * 2 ^ (L - e).toNat := by exact_mod_cast hm'
      have hdvd : 2 ^ (bitLen m - prec) ∣ m := by
        have h7 : 2 ^ (bitLen m - prec) ∣ N * 2 ^ (L - e).toNat :=
          Dvd.dvd.mul_left (Nat.pow_dvd_pow 2 (by omega)) N
        rwa [← hmN] at h7
      have hr : m % 2 ^ (bitLen m - prec) = 0 := Nat.mod_eq_zero_of_dvd hdvd
      have hm1' : m1 = m / 2 ^ (bitLen m - prec) := by
        rcases hm1 with h1 | ⟨-, hr'⟩
        · exact h1
        · rcases hr' with hr' | hr'
          · exact absurd hr' Bool.false_ne_true
          · omega
      have hex : m / 2 ^ (bitLen m - prec) * 2 ^ (bitLen m - prec) = m :=
        Nat.div_mul_cancel hdvd
      have hexq : ((m / 2 ^ (bitLen m - prec) : Nat) : ℚ) * (2 : ℚ) ^ (bitLen m - prec) = (m : ℚ) := by
        exact_mod_cast hex
      rw [hm1', add_comm, zpow_add₀ (by norm_num : (2 : ℚ) ≠ 0), zpow_natCast, ← mul_assoc, hexq]

theorem bitLen_bounds (m a b : Nat) (h1 : 2 ^ a ≤ m) (h2 : m < 2 ^ b) :
    a < bitLen m ∧ bitLen m ≤ b := by
  have hm : m ≠ 0 := by
    have : 0 < 2 ^ a := by positivity
    omega
  have h3 := lt_two_pow_bitLen m
  have h4 := two_pow_bitLen_pred_le m hm
  have hb := bitLen_pos m hm
  have h5 : a < bitLen m := (Nat.pow_lt_pow_iff_right (by norm_num : 1 < 2)).mp (lt_of_le_of_lt h1 h3)
  have h6 : bitLen m - 1 < b :=
    (Nat.pow_lt_pow_iff_right (by norm_num : 1 < 2)).mp (lt_of_le_of_lt h4 h2)
  omega

/-- Rounding `m * 2^j`, for a normal significand `m`, drops the `j` zero bits. -/
theorem round_exact_shifted (prec m j : Nat) (hprec : 1 ≤ prec) (h1 : 2 ^ (prec - 1) ≤ m)
    (h2 : m < 2 ^ prec) :
    roundMant prec (m * 2 ^ j) false = m ∧ roundExp prec (m * 2 ^ j) false = (j : Int) := by
  have hb : bitLen (m * 2 ^ j) = prec + j := by
    have := bitLen_eq (m * 2 ^ j) (prec - 1 + j)
      (by rw [Nat.pow_add]; exact Nat.mul_le_mul_right _ h1)
      (by
        rw [show prec - 1 + j + 1 = prec + j by omega, Nat.pow_add]
        exact Nat.mul_lt_mul_of_pos_right h2 (by positivity))
    omega
  by_cases hj : j = 0
  · subst hj
    rw [roundMant_of_le _ _ _ (by omega), roundExp_of_le _ _ _ (by omega), hb]
    simp
  · obtain ⟨m1, hm1, hM, hE⟩ := round_parts prec (m * 2 ^ j) false (by omega)
    rw [hb, show prec + j - prec = j by omega, Nat.mul_div_cancel _ (by positivity),
      Nat.mul_mod_left] at hm1
    have hm1' : m1 = m := by
      rcases hm1 with h | ⟨-, h | h⟩
      · exact h
      · exact absurd h Bool.false_ne_true
      · omega
    rw [hm1', if_neg (by omega)] at hM
    rw [hb, show prec + j - prec = j by omega, hm1', if_neg (by omega)] at hE
    exact ⟨hM, hE⟩

theorem Fl.shift_fin (k : Int) (s : Bool) (m : Nat) (e : Int) :
    Fl.shift k (.fin s m e) = if m = 0 then .fin s m e else .fin s m (e + k) := rfl

theorem Fl.shift_zero (x : Fl) : Fl.shift 0 x = x := by
  cases x with
  | nan => rfl
  | inf a => rfl
  | fin s m e =>
    rw [Fl.shift_fin, add_zero]
    split <;> rfl

/-- In the normal range, adding `k` to the exponent of the value rounded adds `k` to the
exponent of the result. -/
theorem Fl.round_shift (f : Fmt) (neg : Bool) (m : Nat) (e k : Int) (st : Bool)
    (hprec : 1 ≤ f.prec) (hm : m ≠ 0)
    (h1 : f.emin ≤ e + ((bitLen m : Nat) : Int) - (f.prec : Int))
    (h2 : f.emin ≤ e + k + ((bitLen m : Nat) : Int) - (f.prec : Int))
    (h3 : e + ((bitLen m : Nat) : Int) - (f.prec : Int) + 1 ≤ f.emax)
    (h4 : e + k + ((bitLen m : Nat) : Int) - (f.prec : Int) + 1 ≤ f.emax) :
    Fl.round f neg m (e + k) st = Fl.shift k (Fl.round f neg m e st) := by
  have hE := roundExp_bounds f.prec m st
  have hM := roundMant_bounds f.prec m st hprec hm
  have hM0 : roundMant f.prec m st ≠ 0 := by
    have : 0 < 2 ^ (f.prec - 1) := by positivity
    omega
  rw [Fl.round_normal f neg m (e + k) st hm h2, Fl.round_normal f neg m e st hm h1,
    if_neg (by omega), if_neg (by omega)]
  rw [Fl.shift_fin, if_neg hM0]
  congr 1
  ring

/-- In the normal range the result of `Fl.round` is a normal number. -/
theorem Fl.round_norm (f : Fmt) (neg : Bool) (m : Nat) (e : Int) (st : Bool) (hm : m ≠ 0)
    (h1 : f.emin ≤ e + ((bitLen m : Nat) : Int) - (f.prec : Int))
    (h3 : e + ((bitLen m : Nat) : Int) - (f.prec : Int) + 1 ≤ f.emax) :
    Fl.round f neg m e st = .fin neg (roundMant f.prec m st) (e + roundExp f.prec m st) := by
  have hE := roundExp_bounds f.prec m st
  rw [Fl.round_normal f neg m e st hm h1, if_neg (by omega)]

theorem binary32_prec : binary32.prec = 24 := rfl
theorem binary32_emin : binary32.emin = -149 := rfl
theorem binary32_emax : binary32.emax = 104 := rfl
theorem binary64_prec : binary64.prec = 53 := rfl
theorem binary64_emin : binary64.emin = -1074 := rfl
theorem binary64_emax : binary64.emax = 971 := rfl

theorem Fl.InWindow_iff (x : Fl) : Fl.InWindow x = true ↔ Fl.W32 (-53) 6 x := by
  cases x with
  | nan => simp [Fl.InWindow, Fl.W32]
  | inf a => simp [Fl.InWindow, Fl.W32]
  | fin s m e =>
    simp only [Fl.InWindow, Fl.W32, Bool.or_eq_true, Bool.and_eq_true, decide_eq_true_eq,
      Fl.fin.injEq]
    constructor
    · intro h
      refine ⟨s, m, e, ⟨rfl, rfl, rfl⟩, ?_⟩
      rcases h with h | h
      · exact Or.inl h
      · exact Or.inr ⟨h.1.1.1, h.1.1.2, h.1.2, h.2⟩
    · rintro ⟨s', m', e', ⟨-, rfl, rfl⟩, h⟩
      rcases h with h | h
      · exact Or.inl h
      · exact Or.inr ⟨⟨⟨h.1, h.2.1⟩, h.2.2.1⟩, h.2.2.2⟩

theorem Fl.round_zero (f : Fmt) (neg : Bool) (e : Int) (st : Bool) :
    Fl.round f neg 0 e st = .fin neg 0 f.emin := by
  simp [Fl.round]

/-- Scaling by `2^k` in `float32` adds `k` to the exponent. -/
theorem mul_pow2 (k : Int) (lo hi : Int) (x : Fl) (hx : Fl.W32 lo hi x) (h1 : -149 ≤ lo + k)
    (h2 : hi + k ≤ 103) : Fl.mul binary32 (pow2 k) x = Fl.shift k x := by
  obtain ⟨s, m, e, rfl, h | ⟨hm1, hm2, hlo, hhi⟩⟩ := hx
  · obtain ⟨rfl, rfl⟩ := h
    show Fl.round binary32 (xor false s) (2 ^ 23 * 0) (k - 23 + -149) false = _
    rw [Nat.mul_zero, Fl.round_zero, Fl.shift_fin, if_pos rfl, Bool.false_xor]
    rfl
  · have hm0 : m ≠ 0 := by omega
    show Fl.round binary32 (xor false s) (2 ^ 23 * m) (k - 23 + e) false = _
    have hx := round_exact_shifted 24 m 23 (by norm_num) hm1 hm2
    have hb : bitLen (m * 2 ^ 23) = 47 := bitLen_eq _ 46
      (by have := Nat.mul_le_mul_right (2 ^ 23) hm1; omega)
      (by have := Nat.mul_lt_mul_of_pos_right hm2 (by norm_num : 0 < 2 ^ 23); omega)
    rw [Nat.mul_comm, Fl.round_norm binary32 _ _ _ _ (by omega)
      (by rw [hb, binary32_prec, binary32_emin]; omega)
      (by rw [hb, binary32_prec, binary32_emax]; omega)]
    rw [binary32_prec, hx.1, hx.2, Fl.shift_fin, if_neg hm0, Bool.false_xor]
    congr 1
    omega

theorem w32_shift (lo hi k : Int) (x : Fl) (hx : Fl.W32 lo hi x) :
    Fl.W32 (lo + k) (hi + k) (Fl.shift k x) := by
  obtain ⟨s, m, e, rfl, h | ⟨hm1, hm2, hlo, hhi⟩⟩ := hx
  · obtain ⟨rfl, rfl⟩ := h
    exact ⟨s, 0, -149, rfl, Or.inl ⟨rfl, rfl⟩⟩
  · have hm0 : m ≠ 0 := by omega
    rw [Fl.shift_fin, if_neg hm0]
    exact ⟨s, m, e + k, rfl, Or.inr ⟨hm1, hm2, by omega, by omega⟩⟩

/-- The `float32` product of two normal numbers, away from overflow and underflow. -/
theorem mul32_form (sx sy : Bool) (mx my : Nat) (ex ey : Int) (hx1 : 2 ^ 23 ≤ mx)
    (hx2 : mx < 2 ^ 24) (hy1 : 2 ^ 23 ≤ my) (hy2 : my < 2 ^ 24) (h1 : -172 ≤ ex + ey)
    (h2 : ex + ey ≤ 78) :
    Fl.mul binary32 (.fin sx mx ex) (.fin sy my ey) =
        .fin (xor sx sy) (roundMant 24 (mx * my) false) (ex + ey + roundExp 24 (mx * my) false) ∧
      2 ^ 23 ≤ roundMant 24 (mx * my) false ∧ roundMant 24 (mx * my) false < 2 ^ 24 ∧
      23 ≤ roundExp 24 (mx * my) false ∧ roundExp 24 (mx * my) false ≤ 25 := by
  have hlo : 2 ^ 46 ≤ mx * my := by
    have := Nat.mul_le_mul hx1 hy1
    omega
  have hhi : mx * my < 2 ^ 48 := by
    have := Nat.mul_lt_mul'' hx2 hy2
    omega
  have hb := bitLen_bounds (mx * my) 46 48 hlo hhi
  have hm0 : mx * my ≠ 0 := by omega
  have hE := roundExp_bounds 24 (mx * my) false
  have hM := roundMant_bounds 24 (mx * my) false (by norm_num) hm0
  refine ⟨?_, by omega, by omega, by omega, by omega⟩
  show Fl.round binary32 (xor sx sy) (mx * my) (ex + ey) false = _
  rw [Fl.round_norm binary32 _ _ _ _ hm0 (by rw [binary32_prec, binary32_emin]; omega)
    (by rw [binary32_prec, binary32_emax]; omega), binary32_prec]

/-- Widening a normal `float32` to `float64` is exact. -/
theorem toFloat64_form (s : Bool) (m : Nat) (e : Int) (h1 : 2 ^ 23 ≤ m) (h2 : m < 2 ^ 24)
    (hlo : -1045 ≤ e) (hhi : e ≤ 999) :
    toFloat64 (.fin s m e) = .fin s (m * 2 ^ 29) (e - 29) := by
  have hb : bitLen m = 24 := bitLen_eq m 23 h1 h2
  have hm0 : m ≠ 0 := by omega
  show Fl.round binary64 s m e false = _
  rw [Fl.round_norm binary64 _ _ _ _ hm0 (by rw [hb, binary64_prec, binary64_emin]; omega)
    (by rw [hb, binary64_prec, binary64_emax]; omega), binary64_prec,
    roundMant_of_le 53 m false (by rw [hb]; omega), roundExp_of_le 53 m false (by rw [hb]; omega),
    hb]
  rfl

theorem mul32_zero_left (s sy : Bool) (e : Int) (my : Nat) (ey : Int) :
    Fl.mul binary32 (.fin s 0 e) (.fin sy my ey) = .fin (xor s sy) 0 (-149) := by
  show Fl.round binary32 (xor s sy) (0 * my) (e + ey) false = _
  rw [Nat.zero_mul, Fl.round_zero]
  rfl

theorem mul32_zero_right (sx s : Bool) (mx : Nat) (ex e : Int) :
    Fl.mul binary32 (.fin sx mx ex) (.fin s 0 e) = .fin (xor sx s) 0 (-149) := by
  show Fl.round binary32 (xor sx s) (mx * 0) (ex + e) false = _
  rw [Nat.mul_zero, Fl.round_zero]
  rfl

theorem toFloat64_zero (s : Bool) (e : Int) : toFloat64 (.fin s 0 e) = .fin s 0 (-1074) := by
  show Fl.round binary64 s 0 e false = _
  rw [Fl.round_zero]
  rfl

/-- Scaling the factors by powers of two scales the widened `float32` product. -/
theorem prod_shift (x y : Fl) (k1 k2 : Int) (hx : Fl.W32 (-53) 6 x) (hy : Fl.W32 (-53) 6 y)
    (hk1 : -60 ≤ k1 + k2) (hk2 : k1 + k2 ≤ 60) :
    toFloat64 (Fl.mul binary32 (Fl.shift k1 x) (Fl.shift k2 y)) =
      Fl.shift (k1 + k2) (toFloat64 (Fl.mul binary32 x y)) := by
  obtain ⟨sx, mx, ex, rfl, hx' | ⟨hx1, hx2, hx3, hx4⟩⟩ := hx
  · obtain ⟨rfl, rfl⟩ := hx'
    obtain ⟨sy, my, ey, rfl, -⟩ := hy
    rw [Fl.shift_fin, if_pos rfl, Fl.shift_fin]
    split <;> simp only [mul32_zero_left, toFloat64_zero, Fl.shift_fin, if_true]
  · have hmx : mx ≠ 0 := by omega
    obtain ⟨sy, my, ey, rfl, hy' | ⟨hy1, hy2, hy3, hy4⟩⟩ := hy
    · obtain ⟨rfl, rfl⟩ := hy'
      simp only [Fl.shift_fin, if_neg hmx, if_true, mul32_zero_right, toFloat64_zero]
    · have hmy : my ≠ 0 := by omega
      obtain ⟨e1, hM1, hM2, hD1, hD2⟩ := mul32_form sx sy mx my ex ey hx1 hx2 hy1 hy2
        (by omega) (by omega)
      obtain ⟨e2, -⟩ := mul32_form sx sy mx my (ex + k1) (ey + k2) hx1 hx2 hy1 hy2
        (by omega) (by omega)
      rw [Fl.shift_fin, if_neg hmx, Fl.shift_fin, if_neg hmy, e1, e2,
        toFloat64_form _ _ _ hM1 hM2 (by omega) (by omega),
        toFloat64_form _ _ _ hM1 hM2 (by omega) (by omega), Fl.shift_fin,
        if_neg (by omega)]
      congr 1
      ring

theorem onGrid_shift (L T k : Int) (j : Nat) (x : Fl) (hx : Fl.OnGrid L T j x) :
    Fl.OnGrid (L + k) (T + k) j (Fl.shift k x) := by
  obtain ⟨s, m, e, rfl, h | ⟨hm1, hm2, ⟨N, hN⟩, hT⟩⟩ := hx
  · obtain ⟨rfl, rfl⟩ := h
    exact ⟨s, 0, -1074, rfl, Or.inl ⟨rfl, rfl⟩⟩
  · have hm0 : m ≠ 0 := by omega
    have hk : (0 : ℚ) < (2 : ℚ) ^ k := by positivity
    rw [Fl.shift_fin, if_neg hm0]
    refine ⟨s, m, e + k, rfl, Or.inr ⟨hm1, hm2, ⟨N, ?_⟩, ?_⟩⟩
    · rw [zpow_add₀ (by norm_num : (2 : ℚ) ≠ 0), zpow_add₀ (by norm_num : (2 : ℚ) ≠ 0),
        ← mul_assoc, ← mul_assoc, hN]
    · rw [zpow_add₀ (by norm_num : (2 : ℚ) ≠ 0), zpow_add₀ (by norm_num : (2 : ℚ) ≠ 0),
        ← mul_assoc, ← mul_assoc]
      exact mul_le_mul_of_nonneg_right hT (le_of_lt hk)

theorem onGrid_mono (L T : Int) (i j : Nat) (x : Fl) (hij : i ≤ j) (hx : Fl.OnGrid L T i x) :
    Fl.OnGrid L T j x := by
  obtain ⟨s, m, e, rfl, h | ⟨hm1, hm2, hN, hT⟩⟩ := hx
  · exact ⟨s, m, e, rfl, Or.inl h⟩
  · refine ⟨s, m, e, rfl, Or.inr ⟨hm1, hm2, hN, le_trans hT ?_⟩⟩
    have : (i : ℚ) ≤ (j : ℚ) := by exact_mod_cast hij
    exact mul_le_mul_of_nonneg_right this (by positivity)

/-- The widened `float32` product of two numbers of the window is a multiple of `2^-83` of
magnitude at most `2^62`. -/
theorem prod_onGrid (x y : Fl) (hx : Fl.W32 (-53) 6 x) (hy : Fl.W32 (-53) 6 y) :
    Fl.OnGrid (-83) 62 1 (toFloat64 (Fl.mul binary32 x y)) := by
  obtain ⟨sx, mx, ex, rfl, hx' | ⟨hx1, hx2, hx3, hx4⟩⟩ := hx
  · obtain ⟨rfl, rfl⟩ := hx'
    obtain ⟨sy, my, ey, rfl, -⟩ := hy
    rw [mul32_zero_left, toFloat64_zero]
    exact ⟨_, 0, -1074, rfl, Or.inl ⟨rfl, rfl⟩⟩
  · obtain ⟨sy, my, ey, rfl, hy' | ⟨hy1, hy2, hy3, hy4⟩⟩ := hy
    · obtain ⟨rfl, rfl⟩ := hy'
      rw [mul32_zero_right, toFloat64_zero]
      exact ⟨_, 0, -1074, rfl, Or.inl ⟨rfl, rfl⟩⟩
    · obtain ⟨e1, hM1, hM2, hD1, hD2⟩ := mul32_form sx sy mx my ex ey hx1 hx2 hy1 hy2
        (by omega) (by omega)
      rw [e1, toFloat64_form _ _ _ hM1 hM2 (by omega) (by omega)]
      generalize roundMant 24 (mx * my) false = M at hM1 hM2
      generalize roundExp 24 (mx * my) false = D at hD1 hD2
      have hval : ((M * 2 ^ 29 : Nat) : ℚ) * (2 : ℚ) ^ (ex + ey + D - 29) =
          (M : ℚ) * (2 : ℚ) ^ (ex + ey + D) := by
        have h29 : (2 : ℚ) ^ (ex + ey + D - 29) = (2 : ℚ) ^ (ex + ey + D) / 2 ^ 29 := by
          rw [zpow_sub₀ (by norm_num : (2 : ℚ) ≠ 0)]
          norm_num
        rw [h29]
        push_cast
        field_simp
        norm_num
        ring
      refine ⟨_, _, _, rfl, Or.inr ⟨?_, ?_, ⟨M * 2 ^ (ex + ey + D + 83).toNat, ?_⟩, ?_⟩⟩
      · omega
      · omega
      · rw [hval]
        push_cast
        rw [two_zpow_toNat _ (by omega), mul_assoc, ← zpow_add₀ (by norm_num : (2 : ℚ) ≠ 0)]
        congr 2
        ring
      · rw [hval]
        have h1 : (M : ℚ) ≤ (2 : ℚ) ^ 24 := by
          have : M ≤ 2 ^ 24 := by omega
          exact_mod_cast this
        have h2 : (2 : ℚ) ^ (ex + ey + D) ≤ (2 : ℚ) ^ (38 : Int) :=
          zpow_le_zpow_right₀ (by norm_num) (by omega)
        calc (M : ℚ) * (2 : ℚ) ^ (ex + ey + D) ≤ (2 : ℚ) ^ 24 * (2 : ℚ) ^ (38 : Int) :=
              mul_le_mul h1 h2 (by positivity) (by positivity)
          _ = ((1 : Nat) : ℚ) * (2 : ℚ) ^ (62 : Int) := by
              rw [← zpow_natCast, ← zpow_add₀ (by norm_num : (2 : ℚ) ≠ 0)]
              norm_num

theorem val_lt_two_zpow (m : Nat) (e : Int) :
    (m : ℚ) * (2 : ℚ) ^ e < (2 : ℚ) ^ (((bitLen m : Nat) : Int) + e) := by
  have h : (m : ℚ) < (2 : ℚ) ^ (bitLen m) := by exact_mod_cast lt_two_pow_bitLen m
  rw [zpow_add₀ (by norm_num : (2 : ℚ) ≠ 0), zpow_natCast]
  exact mul_lt_mul_of_pos_right h (by positivity)

theorem two_zpow_le_val (m : Nat) (e : Int) (hm : m ≠ 0) :
    (2 : ℚ) ^ (((bitLen m : Nat) : Int) - 1 + e) ≤ (m : ℚ) * (2 : ℚ) ^ e := by
  have h : ((2 : ℚ) ^ (bitLen m - 1)) ≤ (m : ℚ) := by exact_mod_cast two_pow_bitLen_pred_le m hm
  have hb := bitLen_pos m hm
  rw [zpow_add₀ (by norm_num : (2 : ℚ) ≠ 0),
    show ((bitLen m : Nat) : Int) - 1 = ((bitLen m - 1 : Nat) : Int) by omega, zpow_natCast]
  exact mul_le_mul_of_nonneg_right h (by positivity)

/-- The exponent range of a value between `2^L` and `B * 2^T`. -/
theorem exp_range (m : Nat) (e L T : Int) (B : Nat) (hB : B < 2 ^ 53)
    (h1 : (2 : ℚ) ^ L ≤ (m : ℚ) * (2 : ℚ) ^ e) (h2 : (m : ℚ) * (2 : ℚ) ^ e ≤ (B : ℚ) * (2 : ℚ) ^ T) :
    m ≠ 0 ∧ L < ((bitLen m : Nat) : Int) + e ∧ ((bitLen m : Nat) : Int) + e ≤ T + 53 := by
  have hm : m ≠ 0 := by
    rintro rfl
    have : (0 : ℚ) < (2 : ℚ) ^ L := by positivity
    simp at h1
    linarith
  refine ⟨hm, ?_, ?_⟩
  · have := lt_of_le_of_lt h1 (val_lt_two_zpow m e)
    exact (zpow_lt_zpow_iff_right₀ (by norm_num : (1 : ℚ) < 2)).mp this
  · have hBq : (B : ℚ) < (2 : ℚ) ^ (53 : Int) := by
      rw [show ((53 : Int)) = ((53 : Nat) : Int) from rfl, zpow_natCast]
      exact_mod_cast hB
    have h3 : (B : ℚ) * (2 : ℚ) ^ T < (2 : ℚ) ^ ((53 : Int) + T) := by
      rw [zpow_add₀ (by norm_num : (2 : ℚ) ≠ 0)]
      exact mul_lt_mul_of_pos_right hBq (by positivity)
    have := lt_of_le_of_lt (le_trans (two_zpow_le_val m e hm) h2) h3
    have := (zpow_lt_zpow_iff_right₀ (by norm_num : (1 : ℚ) < 2)).mp this
    omega

theorem Fl.add_fin (f : Fmt) (sx sy : Bool) (mx my : Nat) (ex ey : Int) :
    Fl.add f (.fin sx mx ex) (.fin sy my ey) =
      if Fl.scaled sx mx ex (min ex ey) + Fl.scaled sy my ey (min ex ey) = 0 then
        .fin (sx && sy) 0 f.emin
      else Fl.round f
        (decide (Fl.scaled sx mx ex (min ex ey) + Fl.scaled sy my ey (min ex ey) < 0))
        (Fl.scaled sx mx ex (min ex ey) + Fl.scaled sy my ey (min ex ey)).natAbs
        (min ex ey) false := rfl

theorem Fl.scaled_zero (s : Bool) (e e0 : Int) : Fl.scaled s 0 e e0 = 0 := by
  cases s <;> simp [Fl.scaled, Fl.signed]

theorem Fl.scaled_natAbs (s : Bool) (m : Nat) (e e0 : Int) :
    (Fl.scaled s m e e0).natAbs = m * 2 ^ (e - e0).toNat := by
  cases s
  · simp only [Fl.scaled, Fl.signed, Bool.false_eq_true, if_false]
    exact Int.natAbs_ofNat _
  · simp only [Fl.scaled, Fl.signed, if_true, Int.natAbs_neg]
    exact Int.natAbs_ofNat _

theorem Fl.scaled_neg_iff (s : Bool) (m : Nat) (e e0 : Int) (hm : m ≠ 0) :
    decide (Fl.scaled s m e e0 < 0) = s := by
  have hp : 0 < m * 2 ^ (e - e0).toNat := Nat.mul_pos (Nat.pos_of_ne_zero hm) (by positivity)
  cases s
  · simp only [Fl.scaled, Fl.signed, Bool.false_eq_true, if_false, decide_eq_false_iff_not]
    omega
  · simp only [Fl.scaled, Fl.signed, if_true, decide_eq_true_eq]
    omega

/-- Adding a `float64` zero to a normal `float64` returns the normal number. -/
theorem add64_zero_left (sx sy : Bool) (my : Nat) (ey : Int) (h1 : 2 ^ 52 ≤ my)
    (h2 : my < 2 ^ 53) (hlo : -1074 ≤ ey) (hhi : ey ≤ 970) :
    Fl.add binary64 (.fin sx 0 (-1074)) (.fin sy my ey) = .fin sy my ey := by
  have hm0 : my ≠ 0 := by omega
  have hmin : min (-1074) ey = -1074 := min_eq_left hlo
  have hne : Fl.scaled sy my ey (-1074) ≠ 0 := by
    intro h
    have := Fl.scaled_natAbs sy my ey (-1074)
    rw [h] at this
    have hp : 0 < my * 2 ^ (ey - -1074).toNat := Nat.mul_pos (Nat.pos_of_ne_zero hm0) (by positivity)
    simp at this
    omega
  rw [Fl.add_fin, hmin, Fl.scaled_zero, zero_add, if_neg hne, Fl.scaled_neg_iff _ _ _ _ hm0,
    Fl.scaled_natAbs]
  have hx := round_exact_shifted 53 my (ey - -1074).toNat (by norm_num) h1 h2
  have hb : bitLen (my * 2 ^ (ey - -1074).toNat) = 53 + (ey - -1074).toNat := by
    have := bitLen_eq (my * 2 ^ (ey - -1074).toNat) (52 + (ey - -1074).toNat)
      (by rw [Nat.pow_add]; exact Nat.mul_le_mul_right _ h1)
      (by
        rw [show 52 + (ey - -1074).toNat + 1 = 53 + (ey - -1074).toNat by omega, Nat.pow_add]
        exact Nat.mul_lt_mul_of_pos_right h2 (by positivity))
    omega
  rw [Fl.round_norm binary64 _ _ _ _ (Nat.mul_ne_zero hm0 (by positivity))
    (by rw [hb, binary64_prec, binary64_emin]; omega)
    (by rw [hb, binary64_prec, binary64_emax]; omega), binary64_prec, hx.1, hx.2]
  congr 1
  omega

theorem add64_zero_right (sx sy : Bool) (mx : Nat) (ex : Int) (h1 : 2 ^ 52 ≤ mx)
    (h2 : mx < 2 ^ 53) (hlo : -1074 ≤ ex) (hhi : ex ≤ 970) :
    Fl.add binary64 (.fin sx mx ex) (.fin sy 0 (-1074)) = .fin sx mx ex := by
  have hm0 : mx ≠ 0 := by omega
  have hmin : min ex (-1074) = -1074 := min_eq_right hlo
  have hne : Fl.scaled sx mx ex (-1074) ≠ 0 := by
    intro h
    have := Fl.scaled_natAbs sx mx ex (-1074)
    rw [h] at this
    have hp : 0 < mx * 2 ^ (ex - -1074).toNat := Nat.mul_pos (Nat.pos_of_ne_zero hm0) (by positivity)
    simp at this
    omega
  rw [Fl.add_fin, hmin, Fl.scaled_zero, add_zero, if_neg hne, Fl.scaled_neg_iff _ _ _ _ hm0,
    Fl.scaled_natAbs]
  have hx := round_exact_shifted 53 mx (ex - -1074).toNat (by norm_num) h1 h2
  have hb : bitLen (mx * 2 ^ (ex - -1074).toNat) = 53 + (ex - -1074).toNat := by
    have := bitLen_eq (mx * 2 ^ (ex - -1074).toNat) (52 + (ex - -1074).toNat)
      (by rw [Nat.pow_add]; exact Nat.mul_le_mul_right _ h1)
      (by
        rw [show 52 + (ex - -1074).toNat + 1 = 53 + (ex - -1074).toNat by omega, Nat.pow_add]
        exact Nat.mul_lt_mul_of_pos_right h2 (by positivity))
    omega
  rw [Fl.round_norm binary64 _ _ _ _ (Nat.mul_ne_zero hm0 (by positivity))
    (by rw [hb, binary64_prec, binary64_emin]; omega)
    (by rw [hb, binary64_prec, binary64_emax]; omega), binary64_prec, hx.1, hx.2]
  congr 1
  omega

theorem Fl.signed_abs (s : Bool) (n : Nat) : |((Fl.signed s n : Int) : ℚ)| = (n : ℚ) := by
  cases s <;> simp [Fl.signed]

/-- The magnitude of the exact sum of two multiples of `2^L` is a multiple of `2^L`, and it
is at most the sum of the bounds. -/
theorem add_core (L T : Int) (i j : Nat) (sx sy : Bool) (mx my : Nat) (ex ey : Int)
    (hNx : ∃ N : Nat, (mx : ℚ) * (2 : ℚ) ^ ex = (N : ℚ) * (2 : ℚ) ^ L)
    (hNy : ∃ N : Nat, (my : ℚ) * (2 : ℚ) ^ ey = (N : ℚ) * (2 : ℚ) ^ L)
    (hTx : (mx : ℚ) * (2 : ℚ) ^ ex ≤ (i : ℚ) * (2 : ℚ) ^ T)
    (hTy : (my : ℚ) * (2 : ℚ) ^ ey ≤ (j : ℚ) * (2 : ℚ) ^ T) :
    (∃ N : Nat, (((Fl.scaled sx mx ex (min ex ey) + Fl.scaled sy my ey (min ex ey)).natAbs : Nat) : ℚ) *
        (2 : ℚ) ^ (min ex ey) = (N : ℚ) * (2 : ℚ) ^ L) ∧
      (((Fl.scaled sx mx ex (min ex ey) + Fl.scaled sy my ey (min ex ey)).natAbs : Nat) : ℚ) *
        (2 : ℚ) ^ (min ex ey) ≤ ((i + j : Nat) : ℚ) * (2 : ℚ) ^ T := by
  obtain ⟨Nx, hNx⟩ := hNx
  obtain ⟨Ny, hNy⟩ := hNy
  have hp0 : (0 : ℚ) < (2 : ℚ) ^ (min ex ey) := by positivity
  have hpL : (0 : ℚ) < (2 : ℚ) ^ L := by positivity
  have hpx : (0 : ℚ) < (2 : ℚ) ^ ex := by positivity
  have hpy : (0 : ℚ) < (2 : ℚ) ^ ey := by positivity
  have c1 := Fl.scaled_cast sx mx ex (min ex ey) (min_le_left _ _)
  have c2 := Fl.scaled_cast sy my ey (min ex ey) (min_le_right _ _)
  generalize Fl.scaled sx mx ex (min ex ey) = u at c1 ⊢
  generalize Fl.scaled sy my ey (min ex ey) = v at c2 ⊢
  have hs : ((u + v : Int) : ℚ) * (2 : ℚ) ^ (min ex ey) =
      ((Fl.signed sx mx : Int) : ℚ) * (2 : ℚ) ^ ex + ((Fl.signed sy my : Int) : ℚ) * (2 : ℚ) ^ ey := by
    rw [Int.cast_add, c1, c2, add_mul, div_mul_cancel₀ _ (ne_of_gt hp0),
      div_mul_cancel₀ _ (ne_of_gt hp0)]
  have habs : (((u + v).natAbs : Nat) : ℚ) * (2 : ℚ) ^ (min ex ey) =
      |((u + v : Int) : ℚ) * (2 : ℚ) ^ (min ex ey)| := by
    rw [abs_mul, abs_of_pos hp0, Nat.cast_natAbs, Int.cast_abs]
  have hx1 : ((Fl.signed sx mx : Int) : ℚ) * (2 : ℚ) ^ ex =
      ((Fl.signed sx Nx : Int) : ℚ) * (2 : ℚ) ^ L := by
    cases sx
    · simpa [Fl.signed] using hNx
    · simp only [Fl.signed, if_true, Int.cast_neg, Int.cast_natCast, neg_mul, hNx]
  have hy1 : ((Fl.signed sy my : Int) : ℚ) * (2 : ℚ) ^ ey =
      ((Fl.signed sy Ny : Int) : ℚ) * (2 : ℚ) ^ L := by
    cases sy
    · simpa [Fl.signed] using hNy
    · simp only [Fl.signed, if_true, Int.cast_neg, Int.cast_natCast, neg_mul, hNy]
  constructor
  · refine ⟨(Fl.signed sx Nx + Fl.signed sy Ny).natAbs, ?_⟩
    rw [habs, hs, hx1, hy1, ← add_mul, abs_mul, abs_of_pos hpL, Nat.cast_natAbs, Int.cast_abs,
      Int.cast_add]
  · rw [habs, hs]
    have t1 : |((Fl.signed sx mx : Int) : ℚ) * (2 : ℚ) ^ ex| = (mx : ℚ) * (2 : ℚ) ^ ex := by
      rw [abs_mul, abs_of_pos hpx, Fl.signed_abs]
    have t2 : |((Fl.signed sy my : Int) : ℚ) * (2 : ℚ) ^ ey| = (my : ℚ) * (2 : ℚ) ^ ey := by
      rw [abs_mul, abs_of_pos hpy, Fl.signed_abs]
    have t3 := abs_add (((Fl.signed sx mx : Int) : ℚ) * (2 : ℚ) ^ ex)
      (((Fl.signed sy my : Int) : ℚ) * (2 : ℚ) ^ ey)
    rw [t1, t2] at t3
    push_cast
    rw [add_mul]
    linarith

theorem multiple_ge (m : Nat) (e L : Int) (hm : m ≠ 0)
    (hN : ∃ N : Nat, (m : ℚ) * (2 : ℚ) ^ e = (N : ℚ) * (2 : ℚ) ^ L) :
    (2 : ℚ) ^ L ≤ (m : ℚ) * (2 : ℚ) ^ e := by
  obtain ⟨N, hN⟩ := hN
  have hpL : (0 : ℚ) < (2 : ℚ) ^ L := by positivity
  have hpos : (0 : ℚ) < (m : ℚ) * (2 : ℚ) ^ e := by
    have : (0 : ℚ) < (m : ℚ) := by exact_mod_cast Nat.pos_of_ne_zero hm
    positivity
  have hN0 : N ≠ 0 := by
    rintro rfl
    rw [hN] at hpos
    simp at hpos
  have h1 : (1 : ℚ) ≤ (N : ℚ) := by exact_mod_cast Nat.pos_of_ne_zero hN0
  rw [hN]
  calc (2 : ℚ) ^ L = 1 * (2 : ℚ) ^ L := by ring
    _ ≤ _ := mul_le_mul_of_nonneg_right h1 (le_of_lt hpL)

/-- The exponent of a normal `float64` that is a multiple of `2^L` of magnitude at most
`j * 2^T`. -/
theorem onGrid_exp (L T : Int) (j : Nat) (m : Nat) (e : Int) (hj : j < 2 ^ 53) (h1 : 2 ^ 52 ≤ m)
    (h2 : m < 2 ^ 53) (hN : ∃ N : Nat, (m : ℚ) * (2 : ℚ) ^ e = (N : ℚ) * (2 : ℚ) ^ L)
    (hT : (m : ℚ) * (2 : ℚ) ^ e ≤ (j : ℚ) * (2 : ℚ) ^ T) : L - 52 ≤ e ∧ e ≤ T := by
  have hm : m ≠ 0 := by omega
  have hb : bitLen m = 53 := bitLen_eq m 52 h1 h2
  have := exp_range m e L T j hj (multiple_ge m e L hm hN) hT
  rw [hb] at this
  omega

theorem add64_zero_zero (sx sy : Bool) :
    Fl.add binary64 (.fin sx 0 (-1074)) (.fin sy 0 (-1074)) = .fin (sx && sy) 0 (-1074) := by
  rw [Fl.add_fin, Fl.scaled_zero, Fl.scaled_zero, if_pos (by rfl)]
  rfl

/-- The `float64` sum of two multiples of `2^L` is a multiple of `2^L`, and the bounds on
the magnitudes add up. -/
theorem add_onGrid (L T : Int) (i j : Nat) (x y : Fl) (hL : -1022 ≤ L) (hT : T ≤ 970)
    (hij : i + j < 2 ^ 53) (hx : Fl.OnGrid L T i x) (hy : Fl.OnGrid L T j y) :
    Fl.OnGrid L T (i + j) (Fl.add binary64 x y) := by
  obtain ⟨sx, mx, ex, rfl, hx' | ⟨hx1, hx2, hxN, hxT⟩⟩ := hx
  · obtain ⟨rfl, rfl⟩ := hx'
    obtain ⟨sy, my, ey, rfl, hy' | ⟨hy1, hy2, hyN, hyT⟩⟩ := hy
    · obtain ⟨rfl, rfl⟩ := hy'
      rw [add64_zero_zero]
      exact ⟨_, 0, -1074, rfl, Or.inl ⟨rfl, rfl⟩⟩
    · have he := onGrid_exp L T j my ey (by omega) hy1 hy2 hyN hyT
      rw [add64_zero_left sx sy my ey hy1 hy2 (by omega) (by omega)]
      exact onGrid_mono L T j (i + j) _ (by omega) ⟨sy, my, ey, rfl, Or.inr ⟨hy1, hy2, hyN, hyT⟩⟩
  · have hex := onGrid_exp L T i mx ex (by omega) hx1 hx2 hxN hxT
    obtain ⟨sy, my, ey, rfl, hy' | ⟨hy1, hy2, hyN, hyT⟩⟩ := hy
    · obtain ⟨rfl, rfl⟩ := hy'
      rw [add64_zero_right sx sy mx ex hx1 hx2 (by omega) (by omega)]
      exact onGrid_mono L T i (i + j) _ (by omega) ⟨sx, mx, ex, rfl, Or.inr ⟨hx1, hx2, hxN, hxT⟩⟩
    · obtain ⟨hN, hB⟩ := add_core L T i j sx sy mx my ex ey hxN hyN hxT hyT
      rw [Fl.add_fin]
      generalize Fl.scaled sx mx ex (min ex ey) + Fl.scaled sy my ey (min ex ey) = u at hN hB ⊢
      by_cases hu : u = 0
      · rw [if_pos hu]
        exact ⟨_, 0, -1074, rfl, Or.inl ⟨rfl, rfl⟩⟩
      · rw [if_neg hu]
        have hu' : u.natAbs ≠ 0 := Int.natAbs_ne_zero.mpr hu
        obtain ⟨-, r1, r2⟩ := exp_range u.natAbs (min ex ey) L T (i + j) hij
          (multiple_ge _ _ _ hu' hN) hB
        obtain ⟨N, hN⟩ := hN
        have hM := roundMant_bounds 53 u.natAbs false (by norm_num) hu'
        rw [Fl.round_norm binary64 _ _ _ _ hu' (by rw [binary64_prec, binary64_emin]; omega)
          (by rw [binary64_prec, binary64_emax]; omega), binary64_prec]
        exact ⟨_, _, _, rfl, Or.inr ⟨hM.1, hM.2,
          round_multiple 53 u.natAbs (by norm_num) (min ex ey) L N hN,
          round_atMost 53 u.natAbs (by norm_num) (min ex ey) T (i + j) hij hB⟩⟩

theorem Fl.scaled_shift (s : Bool) (m : Nat) (e e0 k : Int) :
    Fl.scaled s m (e + k) (e0 + k) = Fl.scaled s m e e0 := by
  unfold Fl.scaled
  rw [show e + k - (e0 + k) = e - e0 by ring]

/-- Scaling both terms by `2^k` scales their `float64` sum. -/
theorem add_shift (L T k : Int) (i j : Nat) (x y : Fl) (hL : -1022 ≤ L) (hLk : -1022 ≤ L + k)
    (hT : T ≤ 970) (hTk : T + k ≤ 970) (hij : i + j < 2 ^ 53) (hx : Fl.OnGrid L T i x)
    (hy : Fl.OnGrid L T j y) :
    Fl.add binary64 (Fl.shift k x) (Fl.shift k y) = Fl.shift k (Fl.add binary64 x y) := by
  obtain ⟨sx, mx, ex, rfl, hx' | ⟨hx1, hx2, hxN, hxT⟩⟩ := hx
  · obtain ⟨rfl, rfl⟩ := hx'
    obtain ⟨sy, my, ey, rfl, hy' | ⟨hy1, hy2, hyN, hyT⟩⟩ := hy
    · obtain ⟨rfl, rfl⟩ := hy'
      simp only [Fl.shift_fin, if_true, add64_zero_zero]
    · have he := onGrid_exp L T j my ey (by omega) hy1 hy2 hyN hyT
      have hm : my ≠ 0 := by omega
      rw [Fl.shift_fin, if_pos rfl, Fl.shift_fin, if_neg hm,
        add64_zero_left sx sy my ey hy1 hy2 (by omega) (by omega),
        add64_zero_left sx sy my (ey + k) hy1 hy2 (by omega) (by omega), Fl.shift_fin, if_neg hm]
  · have hex := onGrid_exp L T i mx ex (by omega) hx1 hx2 hxN hxT
    have hmx : mx ≠ 0 := by omega
    obtain ⟨sy, my, ey, rfl, hy' | ⟨hy1, hy2, hyN, hyT⟩⟩ := hy
    · obtain ⟨rfl, rfl⟩ := hy'
      rw [Fl.shift_fin, if_neg hmx, Fl.shift_fin, if_pos rfl,
        add64_zero_right sx sy mx ex hx1 hx2 (by omega) (by omega),
        add64_zero_right sx sy mx (ex + k) hx1 hx2 (by omega) (by omega), Fl.shift_fin,
        if_neg hmx]
    · have hmy : my ≠ 0 := by omega
      obtain ⟨hN, hB⟩ := add_core L T i j sx sy mx my ex ey hxN hyN hxT hyT
      rw [Fl.shift_fin, if_neg hmx, Fl.shift_fin, if_neg hmy, Fl.add_fin, Fl.add_fin,
        min_add_add_right, Fl.scaled_shift, Fl.scaled_shift]
      generalize Fl.scaled sx mx ex (min ex ey) + Fl.scaled sy my ey (min ex ey) = u at hN hB ⊢
      by_cases hu : u = 0
      · rw [if_pos hu, if_pos hu, Fl.shift_fin, if_pos rfl]
      · rw [if_neg hu, if_neg hu]
        have hu' : u.natAbs ≠ 0 := Int.natAbs_ne_zero.mpr hu
        obtain ⟨-, r1, r2⟩ := exp_range u.natAbs (min ex ey) L T (i + j) hij
          (multiple_ge _ _ _ hu' hN) hB
        exact Fl.round_shift binary64 _ _ _ _ _ (by norm_num [binary64]) hu'
          (by rw [binary64_prec, binary64_emin]; omega)
          (by rw [binary64_prec, binary64_emin]; omega)
          (by rw [binary64_prec, binary64_emax]; omega)
          (by rw [binary64_prec, binary64_emax]; omega)

/-- Scaling every term by `2^k` scales the `float64` sum, accumulated from the left. -/
theorem foldl_shift (L T k : Int) (hL : -1022 ≤ L) (hLk : -1022 ≤ L + k) (hT : T ≤ 970)
    (hTk : T + k ≤ 970) (ts : List Fl) :
    ∀ (acc : Fl) (i : Nat), Fl.OnGrid L T i acc → (∀ t ∈ ts, Fl.OnGrid L T 1 t) →
      i + ts.length < 2 ^ 53 →
      (ts.map (Fl.shift k)).foldl (Fl.add binary64) (Fl.shift k acc) =
          Fl.shift k (ts.foldl (Fl.add binary64) acc) ∧
        Fl.OnGrid L T (i + ts.length) (ts.foldl (Fl.add binary64) acc) := by
  induction ts with
  | nil =>
    intro acc i hacc _ _
    exact ⟨rfl, hacc⟩
  | cons t ts ih =>
    intro acc i hacc hts hlen
    rw [List.length_cons] at hlen
    have ht := hts t (List.mem_cons_self _ _)
    have h1 := add_shift L T k i 1 acc t hL hLk hT hTk (by omega) hacc ht
    have h2 := add_onGrid L T i 1 acc t hL hT (by omega) hacc ht
    have h3 := ih (Fl.add binary64 acc t) (i + 1) h2
      (fun u hu => hts u (List.mem_cons_of_mem _ hu)) (by omega)
    rw [List.map_cons, List.foldl_cons, List.foldl_cons, h1, List.length_cons,
      show i + (ts.length + 1) = i + 1 + ts.length by omega]
    exact h3

theorem zipWith_shift (k1 k2 : Int) (hk1 : -60 ≤ k1 + k2) (hk2 : k1 + k2 ≤ 60) (a : List Fl) :
    ∀ b : List Fl, (∀ x ∈ a, Fl.W32 (-53) 6 x) → (∀ y ∈ b, Fl.W32 (-53) 6 y) →
      List.zipWith (fun x y => toFloat64 (Fl.mul binary32 x y)) (a.map (Fl.shift k1))
          (b.map (Fl.shift k2)) =
        (List.zipWith (fun x y => toFloat64 (Fl.mul binary32 x y)) a b).map
          (Fl.shift (k1 + k2)) := by
  induction a with
  | nil => intro b _ _; rfl
  | cons x a ih =>
    intro b ha hb
    cases b with
    | nil => rfl
    | cons y b =>
      rw [List.map_cons, List.map_cons, List.zipWith_cons_cons, List.zipWith_cons_cons,
        List.map_cons, ih b (fun u hu => ha u (List.mem_cons_of_mem _ hu))
          (fun u hu => hb u (List.mem_cons_of_mem _ hu)),
        prod_shift x y k1 k2 (ha x (List.mem_cons_self _ _)) (hb y (List.mem_cons_self _ _))
          hk1 hk2]

theorem zipWith_onGrid (a : List Fl) :
    ∀ b : List Fl, (∀ x ∈ a, Fl.W32 (-53) 6 x) → (∀ y ∈ b, Fl.W32 (-53) 6 y) →
      ∀ t ∈ List.zipWith (fun x y => toFloat64 (Fl.mul binary32 x y)) a b,
        Fl.OnGrid (-83) 62 1 t := by
  induction a with
  | nil => intro b _ _ t ht; simp at ht
  | cons x a ih =>
    intro b ha hb t ht
    cases b with
    | nil => simp at ht
    | cons y b =>
      rw [List.zipWith_cons_cons, List.mem_cons] at ht
      rcases ht with rfl | ht
      · exact prod_onGrid x y (ha x (List.mem_cons_self _ _)) (hb y (List.mem_cons_self _ _))
      · exact ih b (fun u hu => ha u (List.mem_cons_of_mem _ hu))
          (fun u hu => hb u (List.mem_cons_of_mem _ hu)) t ht

theorem zero64_onGrid (L T : Int) : Fl.OnGrid L T 0 zero64 :=
  ⟨false, 0, -1074, rfl, Or.inl ⟨rfl, rfl⟩⟩

/-- The dot product of vectors of the window, the first scaled by `2^k1` and the second by
`2^k2`, is the dot product scaled by `2^(k1 + k2)`. -/
theorem dotProduct_shift (k1 k2 : Int) (hk1 : -60 ≤ k1 + k2) (hk2 : k1 + k2 ≤ 60)
    (a b : List Fl) (ha : ∀ x ∈ a, Fl.W32 (-53) 6 x) (hb : ∀ y ∈ b, Fl.W32 (-53) 6 y)
    (hn : a.length < 2 ^ 53) :
    dotProduct (a.map (Fl.shift k1)) (b.map (Fl.shift k2)) =
        Fl.shift (k1 + k2) (dotProduct a b) ∧
      Fl.OnGrid (-83) 62 a.length (dotProduct a b) := by
  unfold dotProduct
  have hlen : (List.zipWith (fun x y => toFloat64 (Fl.mul binary32 x y)) a b).length ≤
      a.length := by
    rw [List.length_zipWith]
    exact Nat.min_le_left _ _
  have h := foldl_shift (-83) 62 (k1 + k2) (by omega) (by omega) (by omega) (by omega)
    (List.zipWith (fun x y => toFloat64 (Fl.mul binary32 x y)) a b) zero64 0
    (zero64_onGrid _ _) (zipWith_onGrid a b ha hb) (by omega)
  rw [zipWith_shift k1 k2 hk1 hk2 a b ha hb]
  have hz : Fl.shift (k1 + k2) zero64 = zero64 := rfl
  rw [hz] at h
  exact ⟨h.1, onGrid_mono _ _ _ _ _ (by omega) h.2⟩

theorem sqrtBits_lower (n : Nat) : ∀ b r, r * r ≤ n → sqrtBits n b r * sqrtBits n b r ≤ n := by
  intro b
  induction b with
  | zero =>
    intro r h
    simpa [sqrtBits] using h
  | succ b ih =>
    intro r h
    unfold sqrtBits
    split
    · rename_i hc
      exact ih _ hc
    · exact ih _ h

theorem natSqrt_lower (n : Nat) : natSqrt n * natSqrt n ≤ n := by
  unfold natSqrt
  exact sqrtBits_lower n _ 0 (Nat.zero_le _)

/-- The square root in `float64` of a positive number: the integer square root of a
significand `M` that does not depend on an even shift of the exponent, rounded. -/
theorem sqrt64_form (m : Nat) (e : Int) (hm : m ≠ 0) :
    ∃ (M : Nat) (E : Int) (st : Bool), m * 2 ^ 110 ≤ M ∧ M ≤ m * 2 ^ 111 ∧
      e - 111 ≤ 2 * E ∧ 2 * E ≤ e - 110 ∧
      ∀ k : Int, Fl.sqrt binary64 (.fin false m (e + 2 * k)) =
        Fl.round binary64 false (natSqrt M) (E + k) st := by
  by_cases ho : (e - 110) % 2 = 0
  · refine ⟨m * 2 ^ 110 * 1, (e - 110) / 2,
      decide (natSqrt (m * 2 ^ 110 * 1) * natSqrt (m * 2 ^ 110 * 1) ≠ m * 2 ^ 110 * 1),
      by omega, by omega, by omega, by omega, ?_⟩
    intro k
    have hd : decide ((e + 2 * k - 2 * ((binary64.prec + 2 : Nat) : Int)) % 2 ≠ 0) = false := by
      rw [decide_eq_false_iff_not, binary64_prec]
      push_cast
      omega
    unfold Fl.sqrt
    simp only [hm, if_false, Bool.false_eq_true, hd]
    rw [binary64_prec]
    have he : (e + 2 * k - 2 * ((53 + 2 : Nat) : Int)) / 2 = (e - 110) / 2 + k := by
      push_cast
      omega
    rw [he]
  · refine ⟨m * 2 ^ 110 * 2, (e - 110 - 1) / 2,
      decide (natSqrt (m * 2 ^ 110 * 2) * natSqrt (m * 2 ^ 110 * 2) ≠ m * 2 ^ 110 * 2),
      by omega, by omega, by omega, by omega, ?_⟩
    intro k
    have hd : decide ((e + 2 * k - 2 * ((binary64.prec + 2 : Nat) : Int)) % 2 ≠ 0) = true := by
      rw [decide_eq_true_iff, binary64_prec]
      push_cast
      omega
    unfold Fl.sqrt
    simp only [hm, if_false, Bool.false_eq_true, hd, if_true]
    rw [binary64_prec]
    have he : (e + 2 * k - 2 * ((53 + 2 : Nat) : Int) - 1) / 2 = (e - 110 - 1) / 2 + k := by
      push_cast
      omega
    rw [he]

/-- Scaling a positive normal `float64` by `2^(2k)` scales its square root by `2^k`. -/
theorem sqrt64_shift (m : Nat) (e : Int) (h1 : 2 ^ 52 ≤ m) (h2 : m < 2 ^ 53) (hlo : -400 ≤ e)
    (hhi : e ≤ 400) :
    ∃ (m' : Nat) (e' : Int), 2 ^ 52 ≤ m' ∧ m' < 2 ^ 53 ∧ -400 ≤ e' ∧ e' ≤ 400 ∧
      ∀ k : Int, -100 ≤ k → k ≤ 100 →
        Fl.sqrt binary64 (.fin false m (e + 2 * k)) = .fin false m' (e' + k) := by
  obtain ⟨M, E, st, hM1, hM2, hE1, hE2, hf⟩ := sqrt64_form m e (by omega)
  have hup := natSqrt_upper M
  have hlow := natSqrt_lower M
  generalize natSqrt M = r at hup hlow hf
  have hr1 : 2 ^ 81 ≤ r := by
    by_contra hc
    have h3 : r + 1 ≤ 2 ^ 81 := by omega
    have h4 := Nat.mul_le_mul h3 h3
    have h5 : (2 : Nat) ^ 81 * 2 ^ 81 = 2 ^ 52 * 2 ^ 110 := by norm_num
    have h6 := Nat.mul_le_mul_right (2 ^ 110) h1
    omega
  have hr2 : r < 2 ^ 82 := by
    by_contra hc
    have h3 : 2 ^ 82 ≤ r := by omega
    have h4 := Nat.mul_le_mul h3 h3
    have h5 : (2 : Nat) ^ 82 * 2 ^ 82 = 2 ^ 53 * 2 ^ 111 := by norm_num
    have h6 := Nat.mul_lt_mul_of_pos_right h2 (by norm_num : 0 < 2 ^ 111)
    omega
  have hb : bitLen r = 82 := bitLen_eq r 81 hr1 hr2
  have hr0 : r ≠ 0 := by omega
  have hMb := roundMant_bounds 53 r st (by norm_num) hr0
  have hEb := roundExp_bounds 53 r st
  rw [hb] at hEb
  refine ⟨roundMant 53 r st, E + roundExp 53 r st, hMb.1, hMb.2, by omega, by omega, ?_⟩
  intro k hk1 hk2
  rw [hf k, Fl.round_norm binary64 _ _ _ _ hr0
    (by rw [hb, binary64_prec, binary64_emin]; omega)
    (by rw [hb, binary64_prec, binary64_emax]; omega), binary64_prec]
  congr 1
  ring

/-- Scaling a factor by `2^k` scales the `float64` product of two normal numbers. -/
theorem mul64_shift (sx sy : Bool) (mx my : Nat) (ex ey : Int) (hx1 : 2 ^ 52 ≤ mx)
    (hx2 : mx < 2 ^ 53) (hy1 : 2 ^ 52 ≤ my) (hy2 : my < 2 ^ 53) (hx3 : -400 ≤ ex)
    (hx4 : ex ≤ 400) (hy3 : -400 ≤ ey) (hy4 : ey ≤ 400) :
    ∃ (m' : Nat) (e' : Int), m' ≠ 0 ∧
      ∀ k : Int, -100 ≤ k → k ≤ 100 →
        Fl.mul binary64 (.fin sx mx (ex + k)) (.fin sy my ey) = .fin (xor sx sy) m' (e' + k) := by
  have hlo : 2 ^ 104 ≤ mx * my := by
    have := Nat.mul_le_mul hx1 hy1
    omega
  have hhi : mx * my < 2 ^ 106 := by
    have := Nat.mul_lt_mul'' hx2 hy2
    omega
  have hb := bitLen_bounds (mx * my) 104 106 hlo hhi
  have hm0 : mx * my ≠ 0 := by omega
  have hM := roundMant_bounds 53 (mx * my) false (by norm_num) hm0
  refine ⟨roundMant 53 (mx * my) false, ex + ey + roundExp 53 (mx * my) false, by omega, ?_⟩
  intro k hk1 hk2
  show Fl.round binary64 (xor sx sy) (mx * my) (ex + k + ey) false = _
  rw [Fl.round_norm binary64 _ _ _ _ hm0 (by rw [binary64_prec, binary64_emin]; omega)
    (by rw [binary64_prec, binary64_emax]; omega), binary64_prec]
  congr 1
  ring

/-- Scaling the dividend and the divisor by `2^k` leaves the quotient unchanged. -/
theorem div64_shift (k : Int) (sd sp : Bool) (md mp : Nat) (ed ep : Int) (hp : mp ≠ 0) :
    Fl.div binary64 (Fl.shift k (.fin sd md ed)) (.fin sp mp (ep + k)) =
      Fl.div binary64 (.fin sd md ed) (.fin sp mp ep) := by
  by_cases hd : md = 0
  · subst hd
    rw [Fl.shift_fin, if_pos rfl]
    unfold Fl.div
    simp only [hp, if_false, Nat.zero_mul, Nat.zero_div, Fl.round_zero]
  · rw [Fl.shift_fin, if_neg hd]
    unfold Fl.div
    simp only [hp, if_false]
    rw [show ed + k - (ep + k) = ed - ep by ring]

theorem eq_zero_shift (k : Int) (x : Fl) : Fl.eq (Fl.shift k x) zero64 = Fl.eq x zero64 := by
  rw [Bool.eq_iff_iff, Fl.eq_zero_iff, Fl.eq_zero_iff]
  cases x with
  | nan => exact Iff.rfl
  | inf a => exact Iff.rfl
  | fin s m e =>
    rw [Fl.shift_fin]
    by_cases hm : m = 0
    · rw [if_pos hm]
    · rw [if_neg hm]
      constructor
      · rintro ⟨s', e', h⟩
        injection h with _ h2 _
        exact absurd h2 hm
      · rintro ⟨s', e', h⟩
        injection h with _ h2 _
        exact absurd h2 hm

theorem scale_pow2 (k : Int) (a : List Fl) (ha : ∀ x ∈ a, Fl.W32 (-53) 6 x) (hk1 : -30 ≤ k)
    (hk2 : k ≤ 30) : scale (pow2 k) a = a.map (Fl.shift k) := by
  unfold scale
  exact List.map_congr_left (fun x hx => mul_pow2 k (-53) 6 x (ha x hx) (by omega) (by omega))

theorem map_shift_zero (b : List Fl) : b.map (Fl.shift 0) = b := by
  induction b with
  | nil => rfl
  | cons y b ih => rw [List.map_cons, ih, Fl.shift_zero]

/-- A non-zero sum of squares of numbers of the window is a positive normal `float64`. -/
theorem sqNorm_form (a : List Fl) (ha : ∀ x ∈ a, Fl.W32 (-53) 6 x) (hn : a.length < 2 ^ 53)
    (hz : Fl.eq (sqNorm a) zero64 = false) :
    ∃ (m : Nat) (e : Int), sqNorm a = .fin false m e ∧ 2 ^ 52 ≤ m ∧ m < 2 ^ 53 ∧
      -135 ≤ e ∧ e ≤ 62 := by
  have hgrid := (dotProduct_shift 0 0 (by omega) (by omega) a a ha ha hn).2
  have hpos := sqNorm_zeroOrAtLeast a
  change Fl.OnGrid (-83) 62 a.length (sqNorm a) at hgrid
  obtain ⟨s, m, e, h, h0 | ⟨h1, h2, hN, hT⟩⟩ := hgrid
  · exfalso
    have : Fl.eq (sqNorm a) zero64 = true := (Fl.eq_zero_iff _).mpr ⟨s, e, by rw [h, h0.1]⟩
    rw [hz] at this
    exact Bool.false_ne_true this
  · have he := onGrid_exp (-83) 62 a.length m e hn h1 h2 hN hT
    have hs : s = false := by
      rw [h] at hpos
      rcases hpos with ⟨e', h'⟩ | h'
      · injection h' with h3 _ _
      · exact h'.1
    subst hs
    exact ⟨m, e, h, h1, h2, by omega, by omega⟩

/-- Scaling by a power of two: for equal-length vectors whose components are zero or of
magnitude in `[2^-30, 2^30)`, and `c = 2^k` with `-30 <= k <= 30`, every rounding of the
computation on `c*a` and `b` is the rounding of the computation on `a` and `b` with the
exponent shifted, and the quotient is the same. -/
theorem cosineValue_scale_pow2 (a b : List Fl) (k : Int) (hlen : a.length = b.length)
    (hn : a.length < 2 ^ 53) (ha : ∀ x ∈ a, Fl.W32 (-53) 6 x) (hb : ∀ y ∈ b, Fl.W32 (-53) 6 y)
    (hk1 : -30 ≤ k) (hk2 : k ≤ 30) :
    cosineValue (scale (pow2 k) a) b = cosineValue a b := by
  rw [scale_pow2 k a ha hk1 hk2]
  have hdot := dotProduct_shift k 0 (by omega) (by omega) a b ha hb hn
  rw [map_shift_zero, add_zero] at hdot
  have hsq : sqNorm (a.map (Fl.shift k)) = Fl.shift (k + k) (sqNorm a) :=
    (dotProduct_shift k k (by omega) (by omega) a a ha ha hn).1
  have hne : ¬ a.length ≠ b.length := fun h => h hlen
  unfold cosineValue
  rw [List.length_map, if_neg hne, if_neg hne, hsq, eq_zero_shift]
  by_cases hz : (Fl.eq (sqNorm a) zero64 || Fl.eq (sqNorm b) zero64) = true
  · rw [if_pos hz, if_pos hz]
  · rw [if_neg hz, if_neg hz]
    have hza : Fl.eq (sqNorm a) zero64 = false := by
      cases h : Fl.eq (sqNorm a) zero64
      · rfl
      · rw [h] at hz
        exact absurd rfl hz
    have hzb : Fl.eq (sqNorm b) zero64 = false := by
      cases h : Fl.eq (sqNorm b) zero64
      · rfl
      · rw [h, Bool.or_true] at hz
        exact absurd rfl hz
    obtain ⟨mA, eA, hNA, hA1, hA2, hA3, hA4⟩ := sqNorm_form a ha hn hza
    obtain ⟨mB, eB, hNB, hB1, hB2, hB3, hB4⟩ := sqNorm_form b hb (hlen ▸ hn) hzb
    obtain ⟨mA', eA', hA1', hA2', hA3', hA4', hSA⟩ :=
      sqrt64_shift mA eA hA1 hA2 (by omega) (by omega)
    obtain ⟨mB', eB', hB1', hB2', hB3', hB4', hSB⟩ :=
      sqrt64_shift mB eB hB1 hB2 (by omega) (by omega)
    obtain ⟨mP, eP, hP0, hP⟩ := mul64_shift false false mA' mB' eA' eB' hA1' hA2' hB1' hB2'
      hA3' hA4' hB3' hB4'
    have hSA0 := hSA 0 (by omega) (by omega)
    have hSB0 := hSB 0 (by omega) (by omega)
    have hPk := hP k (by omega) (by omega)
    have hP0' := hP 0 (by omega) (by omega)
    rw [mul_zero, add_zero, add_zero] at hSA0 hSB0
    rw [add_zero, add_zero] at hP0'
    obtain ⟨sd, md, ed, hd, -⟩ := hdot.2
    unfold euclideanNorm
    rw [hsq, hdot.1, hNA, hNB, Fl.shift_fin, if_neg (by omega), show eA + (k + k) = eA + 2 * k by ring,
      hSA k (by omega) (by omega), hSA0, hSB0, hPk, hP0', hd, div64_shift k sd _ md mP ed eP hP0]

theorem Fl.div_fin_ne_nan (f : Fmt) (sx sy : Bool) (mx my : Nat) (ex ey : Int) (hy : my ≠ 0) :
    Fl.div f (.fin sx mx ex) (.fin sy my ey) ≠ .nan := by
  unfold Fl.div
  simp only [hy, if_false]
  intro h
  rcases Fl.round_cases f (xor sx sy) (mx * 2 ^ (f.prec + 2 + bitLen my) / my)
    (ex - ey - ((f.prec + 2 + bitLen my : Nat) : Int))
    (decide (mx * 2 ^ (f.prec + 2 + bitLen my) % my ≠ 0)) with h1 | ⟨m', e', h1, -⟩
  · rw [h1] at h
    exact Fl.noConfusion h
  · rw [h1] at h
    exact Fl.noConfusion h

/-- On vectors of the window the similarity is never NaN. -/
theorem cosineValue_window_ne_nan (a b : List Fl) (hn : a.length < 2 ^ 53)
    (hlen : a.length = b.length)
    (ha : ∀ x ∈ a, Fl.W32 (-53) 6 x) (hb : ∀ y ∈ b, Fl.W32 (-53) 6 y) :
    cosineValue a b ≠ .nan := by
  have hne : ¬ a.length ≠ b.length := fun h => h hlen
  unfold cosineValue
  rw [if_neg hne]
  by_cases hz : (Fl.eq (sqNorm a) zero64 || Fl.eq (sqNorm b) zero64) = true
  · rw [if_pos hz]
    exact fun h => Fl.noConfusion h
  · rw [if_neg hz]
    have hza : Fl.eq (sqNorm a) zero64 = false := by
      cases h : Fl.eq (sqNorm a) zero64
      · rfl
      · rw [h] at hz
        exact absurd rfl hz
    have hzb : Fl.eq (sqNorm b) zero64 = false := by
      cases h : Fl.eq (sqNorm b) zero64
      · rfl
      · rw [h, Bool.or_true] at hz
        exact absurd rfl hz
    obtain ⟨mA, eA, hNA, hA1, hA2, hA3, hA4⟩ := sqNorm_form a ha hn hza
    obtain ⟨mB, eB, hNB, hB1, hB2, hB3, hB4⟩ := sqNorm_form b hb (hlen ▸ hn) hzb
    obtain ⟨mA', eA', hA1', hA2', hA3', hA4', hSA⟩ :=
      sqrt64_shift mA eA hA1 hA2 (by omega) (by omega)
    obtain ⟨mB', eB', hB1', hB2', hB3', hB4', hSB⟩ :=
      sqrt64_shift mB eB hB1 hB2 (by omega) (by omega)
    obtain ⟨mP, eP, hP0, hP⟩ := mul64_shift false false mA' mB' eA' eB' hA1' hA2' hB1' hB2'
      hA3' hA4' hB3' hB4'
    have hSA0 := hSA 0 (by omega) (by omega)
    have hSB0 := hSB 0 (by omega) (by omega)
    have hP0' := hP 0 (by omega) (by omega)
    rw [mul_zero, add_zero, add_zero] at hSA0 hSB0
    rw [add_zero, add_zero] at hP0'
    obtain ⟨sd, md, ed, hd, -⟩ := (dotProduct_shift 0 0 (by omega) (by omega) a b ha hb hn).2
    unfold euclideanNorm
    rw [hNA, hNB, hSA0, hSB0, hP0', hd]
    exact Fl.div_fin_ne_nan binary64 sd _ md mP ed eP hP0

/-! ## The claims: scaling -/

/-- C18: scaling by a power of two: for equal-length `a` and `b` of fewer than `2^53`
components (Go cannot allocate a longer slice), each component zero or of magnitude in
`[2^-30, 2^30)`, and `c = 2^k` with `-30 <= k <= 30`, `CosineSimilarity(c*a, b)` and
`CosineSimilarity(a, b)` return the same value, it is not NaN, and the two compare `==`;
`c*a` multiplies every component of `a` by `c` in `float32`. -/
theorem CosineSimilarity_scale (a b : List Fl) (k : Int) (hlen : a.length = b.length)
    (hn : a.length < 2 ^ 53) (ha : ∀ x ∈ a, Fl.InWindow x = true)
    (hb : ∀ y ∈ b, Fl.InWindow y = true) (hk1 : -30 ≤ k) (hk2 : k ≤ 30) :
    CosineSimilarity (scale (pow2 k) a) b = CosineSimilarity a b ∧
    ∃ s, CosineSimilarity a b = some s ∧ Fl.eq s s = true := by
  have ha' : ∀ x ∈ a, Fl.W32 (-53) 6 x := fun x hx => (Fl.InWindow_iff x).mp (ha x hx)
  have hb' : ∀ y ∈ b, Fl.W32 (-53) 6 y := fun y hy => (Fl.InWindow_iff y).mp (hb y hy)
  rw [CosineSimilarity_eq, CosineSimilarity_eq, cosineValue_scale_pow2 a b k hlen hn ha' hb' hk1 hk2]
  exact ⟨rfl, _, rfl, Fl.eq_refl_of_ne_nan _ (cosineValue_window_ne_nan a b hn hlen ha' hb')⟩

theorem CosineSimilarity_scale_witness :
    pow2 3 = f32 8 1 ∧
    king.Values.length = demoQuery.length ∧ king.Values.length < 2 ^ 53 ∧
    (∀ x ∈ king.Values, Fl.InWindow x = true) ∧ (∀ y ∈ demoQuery, Fl.InWindow y = true) ∧
    (-30 : Int) ≤ 3 ∧ (3 : Int) ≤ 30 ∧
    CosineSimilarity (scale (pow2 3) king.Values) demoQuery =
      CosineSimilarity king.Values demoQuery ∧
    ∃ s, CosineSimilarity king.Values demoQuery = some s ∧ Fl.eq s s = true :=
  ⟨by decide!, by decide, by decide, by decide!, by decide!, by decide, by decide,
    CosineSimilarity_scale king.Values demoQuery 3 (by decide) (by decide) (by decide!)
      (by decide!) (by decide) (by decide)⟩

/-- C18, as stated, fails: with `a = [1, 1]`, `b = [1, 0]` and `c = 3`, `c*a = [3, 3]` is
exact, `CosineSimilarity(a, b)` is `6369051672525772 * 2^-53` and `CosineSimilarity(c*a, b)`
is `6369051672525773 * 2^-53`; with `a = b = [1]` and `c = 2^64` the square of `c*a[0]`
overflows `float32` and the result is 0 instead of 1. -/
theorem CosineSimilarity_scale_counterexample :
    scale (f32 3 1) [f32 1 1, f32 1 1] = [f32 3 1, f32 3 1] ∧
    CosineSimilarity [f32 1 1, f32 1 1] [f32 1 1, f32 0 1] =
      some (.fin false 6369051672525772 (-53)) ∧
    CosineSimilarity (scale (f32 3 1) [f32 1 1, f32 1 1]) [f32 1 1, f32 0 1] =
      some (.fin false 6369051672525773 (-53)) ∧
    Fl.eq (.fin false 6369051672525773 (-53)) (.fin false 6369051672525772 (-53)) = false ∧
    pow2 64 = f32 (2 ^ 64) 1 ∧
    CosineSimilarity [f32 1 1] [f32 1 1] = some one64 ∧
    CosineSimilarity (scale (pow2 64) [f32 1 1]) [f32 1 1] = some zero64 ∧
    Fl.eq zero64 one64 = false := by
  decide!

end VectorDatabase
